import Mathlib

/-!
# Verification of the bustub storage core

A shallow embedding, in Lean 4, of the storage core of the bustub-style
educational database engine: the LRU-K replacer, the buffer pool manager,
the page guards, and the B+ tree index together with its leaf and internal
page primitives.  Every definition is translated from the corresponding
C++ source function; machine pointers become explicit state records,
page ids are integers with `-1` as the invalid sentinel, and the byte
buffer of a page is abstracted to the typed payload the code stores in it.

Keys and record ids of the B+ tree are specialised to `Nat`: the C++ code
is templated over a key type with a strict comparator, and `Nat` with `<`
is one instance of that template.
-/

namespace BusTub

/-- Page ids (`page_id_t`), with `INVALID_PAGE_ID = -1` as in the source. -/
abbrev PageId := Int

def INVALID_PAGE_ID : PageId := -1

/-! ## Leaf page primitives (`b_plus_tree_leaf_page.cpp`)

A leaf page holds a sorted array of `(key, record-id)` pairs plus the
`next_page_id_` link.  `size` is the length of the entry list; `max_size`
is carried by the callers (the tree passes `leaf_max_size_` at `Init`). -/

/-- In-memory content of one B+ tree leaf page: its entry array
(`array_`, of `(key, RID)` pairs, valid prefix of length `size`) and its
`next_page_id_`. -/
structure LeafPage where
  entries : List (Nat × Nat)
  nextPageId : PageId
  deriving Repr, DecidableEq

/-- `BPlusTreeLeafPage::Init`: size 0, next page id invalid. -/
def LeafPage.init : LeafPage :=
  { entries := [], nextPageId := INVALID_PAGE_ID }

/-- `BPlusTreeLeafPage::Split(that)`: `offset = (size + 1) >> 1`; entries
`[offset, size)` move to `that`; this page keeps the first `offset`
entries; the return value is `that->KeyAt(0)`.  Returns
(left page after, right page after, promoted key). -/
def LeafPage.splitOp (p : LeafPage) (that : LeafPage) : LeafPage × LeafPage × Nat :=
  let s := p.entries.length
  let offset := (s + 1) / 2
  let moved := p.entries.drop offset
  ({ p with entries := p.entries.take offset },
   { that with entries := moved },
   (moved.headD (0, 0)).1)

/-- `BPlusTree::SplitLeaf`: allocate a fresh leaf (`Init`), split into it,
then `split_page->SetNextPageId(leaf_page->GetNextPageId());
leaf_page->SetNextPageId(split_page_id)`.  `newPid` is the page id the
buffer pool handed out for the new leaf. -/
def splitLeaf (leafPage : LeafPage) (newPid : PageId) : LeafPage × LeafPage × Nat :=
  let r0 := LeafPage.splitOp leafPage LeafPage.init
  let l := r0.1
  let r := { r0.2.1 with nextPageId := l.nextPageId }
  ({ l with nextPageId := newPid }, r, r0.2.2)

/-! ## Page guards (`page_guard.cpp`)

A guard holds `bpm_`/`page_` pointers and an `is_dirty_` flag; a
moved-from guard has `page_ == nullptr`.  We model the held state as an
`Option (PageId × Bool)` (`none` = moved-from / already dropped), and the
observable effects of `Drop` as an event trace: the source calls
`UnpinPage` first and only then releases the frame latch. -/

/-- Observable release actions a guard can perform on drop. -/
inductive GuardEvent where
  | unpin (pid : PageId) (isDirty : Bool)
  | rUnlatch (pid : PageId)
  | wUnlatch (pid : PageId)
  deriving Repr, DecidableEq

/-- A read page guard: `guard_.page_`/`guard_.is_dirty_`, with `none`
when `page_ == nullptr` (moved-from). -/
structure ReadPageGuard where
  held : Option (PageId × Bool)
  deriving Repr, DecidableEq

/-- A write page guard, same shape. -/
structure WritePageGuard where
  held : Option (PageId × Bool)
  deriving Repr, DecidableEq

/-- `ReadPageGuard::Drop`: if `page_ == nullptr` do nothing; otherwise
`UnpinPage(page id, is_dirty)` then `RUnlatch()`, then null the fields.
Returns the guard afterwards and the emitted events in order. -/
def ReadPageGuard.drop (g : ReadPageGuard) : ReadPageGuard × List GuardEvent :=
  match g.held with
  | none => (g, [])
  | some (pid, d) => (⟨none⟩, [GuardEvent.unpin pid d, GuardEvent.rUnlatch pid])

/-- `WritePageGuard::Drop`: as the read guard but with `WUnlatch`. -/
def WritePageGuard.drop (g : WritePageGuard) : WritePageGuard × List GuardEvent :=
  match g.held with
  | none => (g, [])
  | some (pid, d) => (⟨none⟩, [GuardEvent.unpin pid d, GuardEvent.wUnlatch pid])

/-! ## LRU-K replacer (`lru_k_replacer.cpp`)

`node_store_` is a `std::map<frame_id_t, LRUKNode>`, i.e. an association
list kept sorted by ascending frame id (the map's iteration order).  We
model it as such a list.  `current_timestamp_` is the monotone access
counter; `curr_size_` counts evictable frames. -/

/-- `UINT64_MAX`, the initial value of `mxtime` in `Evict`. -/
def UINT64_MAX : Nat := 18446744073709551615

/-- `LRUKNode`: bounded history of access timestamps (oldest first,
`push_back`/`pop_front`) and the evictable flag.  A default-constructed
node has an empty history and `is_evictable_ = false`. -/
structure LRUKNode where
  history : List Nat
  isEvictable : Bool
  deriving Repr, DecidableEq

/-- Lookup in the sorted `node_store_` map. -/
def storeGet : List (Int × LRUKNode) → Int → Option LRUKNode
  | [], _ => none
  | (f, n) :: rest, fid => if fid = f then some n else storeGet rest fid

/-- Insert-or-update in `node_store_`, keeping the list sorted by frame
id (as `std::map` does). -/
def storeSet : List (Int × LRUKNode) → Int → LRUKNode → List (Int × LRUKNode)
  | [], fid, n => [(fid, n)]
  | (f, m) :: rest, fid, n =>
    if fid < f then (fid, n) :: (f, m) :: rest
    else if fid = f then (fid, n) :: rest
    else (f, m) :: storeSet rest fid n

/-- `node_store_.erase(fid)`. -/
def storeErase : List (Int × LRUKNode) → Int → List (Int × LRUKNode)
  | [], _ => []
  | (f, m) :: rest, fid => if fid = f then rest else (f, m) :: storeErase rest fid

/-- `LRUKReplacer` state. -/
structure Replacer where
  nodeStore : List (Int × LRUKNode)
  currentTimestamp : Nat
  currSize : Nat
  replacerSize : Nat
  k : Nat
  deriving Repr, DecidableEq

/-- Accumulator of the scan inside `LRUKReplacer::Evict`: the
`have_inf` / `have_evict` flags, `mxtime`, and the chosen frame
(`*frame_id`; `none` while the out-parameter is still unassigned). -/
structure EvictAcc where
  haveInf : Bool
  haveEvict : Bool
  mxtime : Nat
  chosen : Option Int
  deriving Repr, DecidableEq

/-- One iteration of the `Evict` loop over `node_store_`. -/
def evictStep (k : Nat) (acc : EvictAcc) (fn : Int × LRUKNode) : EvictAcc :=
  let node := fn.2
  if !node.isEvictable then acc
  else
    let acc0 := { acc with haveEvict := true }
    if node.history.length < k then
      let acc1 :=
        if !acc0.haveInf then { acc0 with haveInf := true, mxtime := UINT64_MAX } else acc0
      if node.history.headD 0 < acc1.mxtime then
        { acc1 with mxtime := node.history.headD 0, chosen := some fn.1 }
      else acc1
    else
      if !acc0.haveInf then
        if node.history.headD 0 < acc0.mxtime then
          { acc0 with mxtime := node.history.headD 0, chosen := some fn.1 }
        else acc0
      else acc0

/-- `LRUKReplacer::Evict`: scan all nodes; among evictable ones prefer
those with history shorter than `k` (infinite backward k-distance),
minimising `history_.front()`; on success erase the chosen node and
decrement `curr_size_`.  (The C++ out-parameter is only read when
`have_evict` is true, in which case the scan has assigned it; `getD 0`
stands for that read.) -/
def Replacer.evict (r : Replacer) : Replacer × Option Int :=
  let acc := r.nodeStore.foldl (evictStep r.k) ⟨false, false, UINT64_MAX, none⟩
  if acc.haveEvict then
    ({ r with nodeStore := storeErase r.nodeStore (acc.chosen.getD 0),
              currSize := r.currSize - 1 }, some (acc.chosen.getD 0))
  else (r, none)

/-- `LRUKReplacer::RecordAccess`: bump the timestamp, create the node if
absent (empty history, non-evictable), append the timestamp, and
`pop_front` if the history length exceeds `k`.  (The `BUSTUB_ASSERT`
on `frame_id < replacer_size_` is a caller precondition.) -/
def Replacer.recordAccess (r : Replacer) (fid : Int) : Replacer :=
  let t := r.currentTimestamp + 1
  let node0 := (storeGet r.nodeStore fid).getD ⟨[], false⟩
  let hist1 := node0.history ++ [t]
  let hist2 := if hist1.length > r.k then hist1.tail else hist1
  { r with currentTimestamp := t,
           nodeStore := storeSet r.nodeStore fid ⟨hist2, node0.isEvictable⟩ }

/-- `LRUKReplacer::SetEvictable`: no-op on unknown frames or when the
flag already has the requested value; otherwise toggle it and adjust
`curr_size_`. -/
def Replacer.setEvictable (r : Replacer) (fid : Int) (flag : Bool) : Replacer :=
  match storeGet r.nodeStore fid with
  | none => r
  | some node =>
    if node.isEvictable = flag then r
    else
      { r with currSize := if flag then r.currSize + 1 else r.currSize - 1,
               nodeStore := storeSet r.nodeStore fid { node with isEvictable := flag } }

/-- `LRUKReplacer::Remove`: silently accept unknown frames; throw
(`none`) on a known non-evictable frame; else erase it and decrement
`curr_size_`. -/
def Replacer.removeFrame (r : Replacer) (fid : Int) : Option Replacer :=
  match storeGet r.nodeStore fid with
  | none => some r
  | some node =>
    if !node.isEvictable then none
    else some { r with nodeStore := storeErase r.nodeStore fid, currSize := r.currSize - 1 }

/-! ## Buffer pool manager (`buffer_pool_manager.cpp`)

`pages_` is the frame array; each frame's 4 KiB buffer is abstracted to
one `Nat` payload.  The disk is the map of pages written so far; ids the
manager asked the disk manager to deallocate are recorded in
`deallocated`. -/

/-- One frame (`Page` object) of the pool. -/
structure Frame where
  pageId : PageId
  pinCount : Nat
  isDirty : Bool
  data : Nat
  deriving Repr, DecidableEq

/-- A frame as reset by `DeletePage` (`ResetMemory`, zeroed metadata). -/
def Frame.reset : Frame :=
  { pageId := INVALID_PAGE_ID, pinCount := 0, isDirty := false, data := 0 }

/-- Lookup in the page table (`std::unordered_map<page_id_t, frame_id_t>`). -/
def tblGet : List (PageId × Nat) → PageId → Option Nat
  | [], _ => none
  | (p, f) :: rest, pid => if pid = p then some f else tblGet rest pid

/-- Insert-or-update a page table entry. -/
def tblSet : List (PageId × Nat) → PageId → Nat → List (PageId × Nat)
  | [], pid, fid => [(pid, fid)]
  | (p, f) :: rest, pid, fid =>
    if pid = p then (pid, fid) :: rest else (p, f) :: tblSet rest pid fid

/-- Erase a page table entry. -/
def tblErase : List (PageId × Nat) → PageId → List (PageId × Nat)
  | [], _ => []
  | (p, f) :: rest, pid => if pid = p then rest else (p, f) :: tblErase rest pid

/-- `BufferPoolManager` state. -/
structure BPM where
  pages : List Frame
  pageTable : List (PageId × Nat)
  freeList : List Nat
  replacer : Replacer
  nextPageId : Int
  disk : List (PageId × Nat)
  deallocated : List PageId
  deriving Repr, DecidableEq

/-- `disk_manager_->WritePage`. -/
def BPM.diskWrite (s : BPM) (pid : PageId) (d : Nat) : BPM :=
  { s with disk := tblSet s.disk pid d }

/-- `disk_manager_->ReadPage` (zeroed content for never-written pages). -/
def BPM.diskRead (s : BPM) (pid : PageId) : Nat :=
  match tblGet s.disk pid with
  | some d => d
  | none => 0

/-- The frame at index `fid` (`pages_[fid]`). -/
def BPM.frameAt (s : BPM) (fid : Nat) : Frame :=
  s.pages.getD fid Frame.reset

/-- `BufferPoolManager::FetchPage`: `nullptr` for the invalid id; if
resident, bump the pin count and touch the replacer; else take a frame
from the free list, or evict one (writing it back first when dirty),
read the page from disk and install it with pin count 1.  Returns the
frame index the returned `Page*` points at, or `none`. -/
def BPM.fetchPage (s : BPM) (pid : PageId) : BPM × Option Nat :=
  if pid = INVALID_PAGE_ID then (s, none)
  else
    match tblGet s.pageTable pid with
    | some fid =>
      let fr := s.frameAt fid
      let rep := (s.replacer.recordAccess (Int.ofNat fid)).setEvictable (Int.ofNat fid) false
      ({ s with pages := s.pages.set fid { fr with pinCount := fr.pinCount + 1 },
                replacer := rep }, some fid)
    | none =>
      match s.freeList with
      | fid :: restFree =>
        let d := s.diskRead pid
        let rep := (s.replacer.recordAccess (Int.ofNat fid)).setEvictable (Int.ofNat fid) false
        ({ s with freeList := restFree,
                  pageTable := tblSet s.pageTable pid fid,
                  replacer := rep,
                  pages := s.pages.set fid
                    { pageId := pid, pinCount := 1, isDirty := false, data := d } }, some fid)
      | [] =>
        match s.replacer.evict with
        | (rep1, some fidZ) =>
          let fid := fidZ.toNat
          let old := s.frameAt fid
          let s1 := if old.isDirty then s.diskWrite old.pageId old.data else s
          let d := s1.diskRead pid
          let rep := (rep1.recordAccess (Int.ofNat fid)).setEvictable (Int.ofNat fid) false
          ({ s1 with pageTable := tblSet (tblErase s1.pageTable old.pageId) pid fid,
                     replacer := rep,
                     pages := s1.pages.set fid
                       { pageId := pid, pinCount := 1, isDirty := false, data := d } }, some fid)
        | (_, none) => (s, none)

/-- `BufferPoolManager::UnpinPage`: false for the invalid id, a
non-resident page, or a pin count already 0; otherwise decrement the pin
count, mark the frame evictable when it reaches 0, and OR in the dirty
flag. -/
def BPM.unpinPage (s : BPM) (pid : PageId) (isDirty : Bool) : BPM × Bool :=
  if pid = INVALID_PAGE_ID then (s, false)
  else
    match tblGet s.pageTable pid with
    | none => (s, false)
    | some fid =>
      let fr := s.frameAt fid
      if fr.pinCount ≠ 0 then
        let pin' := fr.pinCount - 1
        let rep := if pin' = 0 then s.replacer.setEvictable (Int.ofNat fid) true else s.replacer
        ({ s with pages := s.pages.set fid
                    { fr with pinCount := pin', isDirty := fr.isDirty || isDirty },
                  replacer := rep }, true)
      else (s, false)

/-- `BufferPoolManager::FlushPage`: false for the invalid id or a
non-resident page; otherwise write the buffer to disk unconditionally
and clear the dirty bit. -/
def BPM.flushPage (s : BPM) (pid : PageId) : BPM × Bool :=
  if pid = INVALID_PAGE_ID then (s, false)
  else
    match tblGet s.pageTable pid with
    | none => (s, false)
    | some fid =>
      let fr := s.frameAt fid
      let s1 := s.diskWrite pid fr.data
      ({ s1 with pages := s1.pages.set fid { fr with isDirty := false } }, true)

/-- `BufferPoolManager::DeletePage`: false for the invalid id; true at
once for a non-resident page; false for a pinned page; otherwise flush
if dirty, remove from replacer (its throw on a non-evictable frame is
the `none` branch) and page table, reset the frame, push it on the free
list, and ask the disk manager to deallocate the id. -/
def BPM.deletePage (s : BPM) (pid : PageId) : Option (BPM × Bool) :=
  if pid = INVALID_PAGE_ID then some (s, false)
  else
    match tblGet s.pageTable pid with
    | none => some (s, true)
    | some fid =>
      let fr := s.frameAt fid
      if fr.pinCount > 0 then some (s, false)
      else
        let s1 := if fr.isDirty then s.diskWrite pid fr.data else s
        match s1.replacer.removeFrame (Int.ofNat fid) with
        | none => none
        | some rep =>
          some ({ s1 with replacer := rep,
                          pageTable := tblErase s1.pageTable pid,
                          pages := s1.pages.set fid Frame.reset,
                          freeList := s1.freeList ++ [fid],
                          deallocated := s1.deallocated ++ [pid] }, true)

/-! ## B+ tree nodes (`b_plus_tree.cpp`, leaf / internal page primitives)

The tree lives in pages reachable from the root page id; an operation
descends through write guards and mutates pages in place.  We embed the
reachable tree directly: a node is its page's entry array, with child
page ids replaced by the child nodes themselves.  Keys and record ids
are `Nat` (one instance of the key template).  The `next_page_id_` leaf
links, which the tree operations maintain but never read on the
search / insert / remove paths, are modelled separately with
`LeafPage.splitOp` / `splitLeaf` above.

`GetMinSize` is declared on `BPlusTreePage`, whose source is not part
of this repository snapshot. -/

/-- Modelled from the spec: `BPlusTreePage::GetMinSize` (the page header
class is missing from the snapshot).  "For each node,
`min_size = ⌈max_size/2⌉` (internal uses `max_size_internal + 1` so the
guard value reflects the child-slot count)." -/
def minSize (maxSz : Nat) : Nat := (maxSz + 1) / 2

/-- Min size of a leaf page (leaves are `Init`-ed with `leaf_max_size_`). -/
def minLeaf (lm : Nat) : Nat := minSize lm

/-- Min size of an internal page (`Init(internal_max_size_ + 1)` in
`BPlusTree::NewInternalPage`, so the stored max is `im + 1`). -/
def minInner (im : Nat) : Nat := minSize (im + 1)

/-- A B+ tree node: the entry array of one page, children inlined. -/
inductive Node where
  | leaf (es : List (Nat × Nat))
  | inner (es : List (Nat × Node))
  deriving Repr

/-- `GetSize` of the node's page. -/
def Node.len : Node → Nat
  | .leaf es => es.length
  | .inner es => es.length

/-- `KeyAt(0)` of the node's page. -/
def Node.keyAt0 : Node → Nat
  | .leaf es => (es.headD (0, 0)).1
  | .inner es => (es.headD (0, .leaf [])).1

/-- Position chosen by the backwards insertion loop shared by
`BPlusTreeLeafPage::Insert` and `BPlusTreeInternalPage::Insert`: the
largest `id` with `id == 0 ∨ keys[id-1] < key` (the loop scans from
`id = size` downwards, shifting entries right, and breaks there). -/
def insPosGo (ks : List Nat) (key : Nat) : Nat → Nat
  | 0 => 0
  | n + 1 => if ks.getD n 0 < key then n + 1 else insPosGo ks key n

/-- Entry position for `Insert`, see `insPosGo`. -/
def insPos (ks : List Nat) (key : Nat) : Nat := insPosGo ks key ks.length

/-- The shift-insert both page kinds share: entries from the insert
position on move one slot right and the new entry takes the slot. -/
def entIns {β : Type} (es : List (Nat × β)) (key : Nat) (b : β) : List (Nat × β) :=
  es.take (insPos (es.map Prod.fst) key) ++ (key, b) :: es.drop (insPos (es.map Prod.fst) key)

/-- `BPlusTreeLeafPage::Insert`: scan for a duplicate key (return
`false` if found), else shift-insert at the sorted position. -/
def leafInsert (es : List (Nat × Nat)) (key v : Nat) : List (Nat × Nat) × Bool :=
  if es.any (fun e => e.1 = key) then (es, false)
  else (entIns es key v, true)

/-- `BPlusTreeInternalPage::Insert`: shift-insert at the sorted
position (no duplicate check). -/
def innerInsert (es : List (Nat × Node)) (key : Nat) (c : Node) : List (Nat × Node) :=
  entIns es key c

/-- `BPlusTreeLeafPage::Remove`: drop the first entry whose key
compares equal; the flag says whether one was found. -/
def leafRemove (es : List (Nat × Nat)) (key : Nat) : List (Nat × Nat) × Bool :=
  match es with
  | [] => ([], false)
  | (k, v) :: rest =>
    if k = key then (rest, true)
    else
      let r := leafRemove rest key
      ((k, v) :: r.1, r.2)

/-- `BPlusTreeInternalPage::Remove(index)`: shift-erase the entry at
`index`.  (The C++ decrements `size` unconditionally, so an
out-of-range index silently drops the last entry.) -/
def innerRemoveIdx (es : List (Nat × Node)) (idx : Nat) : List (Nat × Node) :=
  if idx < es.length then es.eraseIdx idx else es.dropLast

/-- `BPlusTreeLeafPage::GetValue`: walk to the slot `id` with
`id == size-1 ∨ key < keys[id+1]` and test equality there. -/
def leafGetValue : List (Nat × Nat) → Nat → Option Nat
  | [], _ => none
  | [(k, v)], key => if key = k then some v else none
  | (k, v) :: (k2, v2) :: rest, key =>
    if key < k2 then (if key = k then some v else none)
    else leafGetValue ((k2, v2) :: rest) key

/-- Child slot chosen by the descent loops (`FindLeaf`, `FindLeafMut`,
`GetValue` of the internal page): the first `id` with
`id == size-1 ∨ key < keys[id+1]`. -/
def chooseIdx : List Nat → Nat → Nat
  | [], _ => 0
  | [_], _ => 0
  | _ :: k2 :: rest, key => if key < k2 then 0 else chooseIdx (k2 :: rest) key + 1

mutual

/-- `BPlusTree::GetValue` / `FindLeaf` descent below the root: follow
the chosen child slot down to a leaf and scan it. -/
def Node.getValue : Node → Nat → Option Nat
  | .leaf es, key => leafGetValue es key
  | .inner es, key => getEnts es key

/-- The descent's child choice on an internal page's entry list. -/
def getEnts : List (Nat × Node) → Nat → Option Nat
  | [], _ => none
  | [(_, c)], key => c.getValue key
  | (_, c) :: (k2, c2) :: rest, key =>
    if key < k2 then c.getValue key else getEnts ((k2, c2) :: rest) key

end

/-! ### Insertion (`BPlusTree::Insert` / `Split`)

`FindLeafMut` descends to the target leaf keeping the unsafe suffix of
the path write-latched (and rewriting slot 0's key when the new key is
smaller); `Insert` inserts into the leaf; `Split` then splits the leaf
if it reached `max_size` and propagates the promoted `(key, page)` pair
up exactly that retained suffix, allocating a new root if every node on
the path split.  The recursion below performs the same computation
node-by-node: the triple returned is (node after, the leaf-level insert
result, the promoted entry if this node split). -/

/-- The slot-0 key rewrite of `FindLeafMut`: `SetKeyAt(0, key)` when
`key < KeyAt(0)`. -/
def hdRw (key : Nat) : List (Nat × Node) → List (Nat × Node)
  | [] => []
  | (k0, c0) :: rest => if key < k0 then (key, c0) :: rest else (k0, c0) :: rest

mutual

/-- Insert below one node: leaf duplicate check and shift-insert, split
at `max_size`; internal slot-0 key rewrite, descent, split-entry
insertion, split at stored max `im + 1`. -/
def insNode (lm im : Nat) : Node → Nat → Nat → Node × Bool × Option (Nat × Node)
  | .leaf es, key, v =>
    let r := leafInsert es key v
    if r.2 = false then (.leaf es, false, none)
    else if r.1.length < lm then (.leaf r.1, true, none)
    else
      let offset := (r.1.length + 1) / 2
      let moved := r.1.drop offset
      (.leaf (r.1.take offset), true, some ((moved.headD (0, 0)).1, .leaf moved))
  | .inner es, key, v =>
    -- `FindLeafMut` rewrites slot 0's key (`SetKeyAt(0, key)` when
    -- `key < KeyAt(0)`) before descending.  The descent neither reads
    -- nor writes slot 0's key, so performing the rewrite after the
    -- recursive call yields the same entry list.
    let r0 := insEnts lm im es key v
    let r : List (Nat × Node) × Bool × Option (Nat × Node) :=
      (hdRw key r0.1, r0.2.1, r0.2.2)
    match r.2.2 with
    | none => (.inner r.1, r.2.1, none)
    | some (sk, sc) =>
      let es2 := innerInsert r.1 sk sc
      if es2.length < im + 1 then (.inner es2, r.2.1, none)
      else
        let offset := (es2.length + 1) / 2
        let moved := es2.drop offset
        (.inner (es2.take offset), r.2.1,
         some ((moved.headD (0, .leaf [])).1, .inner moved))

/-- Descend into the child slot chosen by the `FindLeafMut` loop
(first `id` with `id == size-1 ∨ key < keys[id+1]`), rebuilding the
entry list around the updated child. -/
def insEnts (lm im : Nat) : List (Nat × Node) → Nat → Nat →
    List (Nat × Node) × Bool × Option (Nat × Node)
  | [], _, _ => ([], false, none)
  | [(k, c)], key, v =>
    let r := insNode lm im c key v
    ([(k, r.1)], r.2.1, r.2.2)
  | (k, c) :: (k2, c2) :: rest, key, v =>
    if key < k2 then
      let r := insNode lm im c key v
      ((k, r.1) :: (k2, c2) :: rest, r.2.1, r.2.2)
    else
      let r := insEnts lm im ((k2, c2) :: rest) key v
      ((k, c) :: r.1, r.2.1, r.2.2)

end

/-- `BPlusTree::Insert` at the tree level: an empty tree first gets a
fresh empty root leaf; after the descent returns, a pending split
allocates a new internal root seeded with
`(old root's KeyAt(0), old root)` then `(split key, new sibling)`. -/
def insertTree (lm im : Nat) (root : Option Node) (key v : Nat) : Option Node × Bool :=
  let t0 := match root with | none => Node.leaf [] | some t => t
  let r := insNode lm im t0 key v
  match r.2.2 with
  | none => (some r.1, r.2.1)
  | some (sk, sc) =>
    (some (.inner (innerInsert (innerInsert [] r.1.keyAt0 r.1) sk sc)), r.2.1)

/-! ### Removal (`BPlusTree::Remove` / `Merge`)

`Remove` first verifies presence with a read traversal (`GetValue`) and
returns at once if the key is absent.  Otherwise `FindLeafMut` records,
for every level, the adjacent-sibling hint (right neighbour unless the
followed child is the last slot), the key is deleted from the leaf, and
`Merge` walks the retained path upward: an underflowed node borrows
from or merges with the hinted sibling, and the resulting
delete/insert records are applied to the parent. -/

/-- `BPlusTreeLeafPage::Merge(right_page, l_key, r_key, remove)`:
borrow the left page's last entry into the right page if the left page
can donate, else borrow the right page's first entry if it can donate,
else fold every right entry into the left page and empty the right one.
Returns (left after, right after, `l_key`, `r_key`, `remove`); in the
full-merge case the C++ leaves `r_key` unassigned and unused, rendered
here as `0`.  (The `next_page_id_` splice is page-level state not
carried by `Node`.) -/
def leafMergeOp (lm : Nat) (left right : List (Nat × Nat)) :
    List (Nat × Nat) × List (Nat × Nat) × Nat × Nat × Bool :=
  if minLeaf lm < left.length then
    let e := left.getD (left.length - 1) (0, 0)
    let left' := (leafRemove left e.1).1
    let right' := (leafInsert right e.1 e.2).1
    (left', right', (left'.headD (0, 0)).1, (right'.headD (0, 0)).1, false)
  else if minLeaf lm < right.length then
    let e := right.getD 0 (0, 0)
    let right' := (leafRemove right e.1).1
    let left' := (leafInsert left e.1 e.2).1
    (left', right', (left'.headD (0, 0)).1, (right'.headD (0, 0)).1, false)
  else
    let left' := right.foldl (fun acc e => (leafInsert acc e.1 e.2).1) left
    (left', [], (left'.headD (0, 0)).1, 0, true)

/-- `BPlusTreeInternalPage::Merge`, same structure with index-based
removal on the donating side. -/
def innerMergeOp (im : Nat) (left right : List (Nat × Node)) :
    List (Nat × Node) × List (Nat × Node) × Nat × Nat × Bool :=
  if minInner im < left.length then
    let e := left.getD (left.length - 1) (0, .leaf [])
    let left' := innerRemoveIdx left (left.length - 1)
    let right' := innerInsert right e.1 e.2
    (left', right', (left'.headD (0, .leaf [])).1, (right'.headD (0, .leaf [])).1, false)
  else if minInner im < right.length then
    let e := right.getD 0 (0, .leaf [])
    let right' := innerRemoveIdx right 0
    let left' := innerInsert left e.1 e.2
    (left', right', (left'.headD (0, .leaf [])).1, (right'.headD (0, .leaf [])).1, false)
  else
    let left' := right.foldl (fun acc e => innerInsert acc e.1 e.2) left
    (left', [], (left'.headD (0, .leaf [])).1, 0, true)

/-- Apply the records produced by a sibling rebalance to the parent
entry list, as the `Merge` loop does: `Remove(r_index)`,
`Remove(l_index)`, `Insert(l_key, l_page)`, and `Insert(r_key, r_page)`
unless the pair fully merged. -/
def recordsApply (es : List (Nat × Node)) (lIdx rIdx : Nat) (lk : Nat) (lN : Node)
    (rk : Nat) (rN : Node) (merged : Bool) : List (Nat × Node) :=
  let es1 := innerRemoveIdx es rIdx
  let es2 := innerRemoveIdx es1 lIdx
  let es3 := innerInsert es2 lk lN
  if merged then es3 else innerInsert es3 rk rN

/-- Rebalance the underflowed, already-updated child `child` living at
slot `i` of `es` against the sibling the descent hinted at: the right
neighbour when `i` is not the last slot, else the left neighbour, else
(single-child parent) re-insert the child alone, dropping it when it
became empty.  Children of one node have equal height, so the sibling
has the same constructor as `child`; the fallback arm is unreachable. -/
def siblingFix (lm im : Nat) (es : List (Nat × Node)) (i : Nat) (child : Node) :
    List (Nat × Node) :=
  if i + 1 < es.length then
    match child, (es.getD (i + 1) (0, .leaf [])).2 with
    | .leaf ls, .leaf rs =>
      let m := leafMergeOp lm ls rs
      recordsApply es i (i + 1) m.2.2.1 (.leaf m.1) m.2.2.2.1 (.leaf m.2.1) m.2.2.2.2
    | .inner ls, .inner rs =>
      let m := innerMergeOp im ls rs
      recordsApply es i (i + 1) m.2.2.1 (.inner m.1) m.2.2.2.1 (.inner m.2.1) m.2.2.2.2
    | c, _ => es.set i ((es.getD i (0, .leaf [])).1, c)
  else if 0 < i then
    match (es.getD (i - 1) (0, .leaf [])).2, child with
    | .leaf ls, .leaf rs =>
      let m := leafMergeOp lm ls rs
      recordsApply es (i - 1) i m.2.2.1 (.leaf m.1) m.2.2.2.1 (.leaf m.2.1) m.2.2.2.2
    | .inner ls, .inner rs =>
      let m := innerMergeOp im ls rs
      recordsApply es (i - 1) i m.2.2.1 (.inner m.1) m.2.2.2.1 (.inner m.2.1) m.2.2.2.2
    | _, c => es.set i ((es.getD i (0, .leaf [])).1, c)
  else
    let es1 := innerRemoveIdx es 0
    if child.len = 0 then es1 else innerInsert es1 child.keyAt0 child

mutual

/-- Computable structural size of a node (termination measure). -/
def Node.rank : Node → Nat
  | .leaf _ => 1
  | .inner es => 1 + entsRank es

/-- Computable structural size of an entry list. -/
def entsRank : List (Nat × Node) → Nat
  | [] => 0
  | (_, c) :: rest => c.rank + entsRank rest + 1

end

/-- Auxiliary bound showing the remove descent's fuel never runs out. -/
theorem entsRank_of_getD_inner (es : List (Nat × Node)) (i : Nat) (ces : List (Nat × Node))
    (h : (es.getD i (0, Node.leaf [])).2 = Node.inner ces) : entsRank ces < entsRank es := by
  induction es generalizing i with
  | nil => simp [List.getD] at h
  | cons e rest ih =>
    cases i with
    | zero =>
      obtain ⟨k, c⟩ := e
      simp only [List.getD_cons_zero] at h
      subst h
      simp only [entsRank, Node.rank]
      omega
    | succ n =>
      have := ih n (by simpa using h)
      simp only [entsRank]
      omega

/-- The remove descent below the root: delete in the reached leaf, then
rebalance underflowed nodes bottom-up exactly along the path.  The
`fuel` argument only justifies the recursion (the chosen child is a
strict subterm): `removeEnts` below starts it at `entsRank es`, which
`entsRank_of_getD_inner` shows never runs out. -/
def removeEntsF (lm im : Nat) : Nat → List (Nat × Node) → Nat → List (Nat × Node)
  | 0, es, _ => es
  | fuel + 1, es, key =>
    let i := chooseIdx (es.map Prod.fst) key
    match (es.getD i (0, .leaf [])).2 with
    | .leaf les =>
      let les' := (leafRemove les key).1
      if minLeaf lm ≤ les'.length then es.set i ((es.getD i (0, .leaf [])).1, .leaf les')
      else siblingFix lm im es i (.leaf les')
    | .inner ces =>
      let ces' := removeEntsF lm im fuel ces key
      if minInner im ≤ ces'.length then es.set i ((es.getD i (0, .leaf [])).1, .inner ces')
      else siblingFix lm im es i (.inner ces')

/-- The remove descent, started with enough fuel for the whole tree. -/
def removeEnts (lm im : Nat) (es : List (Nat × Node)) (key : Nat) : List (Nat × Node) :=
  removeEntsF lm im (entsRank es) es key

/-- `BPlusTree::Remove` at the tree level, including the `IsEmpty` and
`GetValue` prechecks and the root handling of the `Merge` loop: a root
leaf is cleared to an empty tree when its last entry goes; a root
internal page that drops to a single child is collapsed onto that
child (the `insert_record` left by the lower merge). -/
def removeTree (lm im : Nat) (root : Option Node) (key : Nat) : Option Node :=
  match root with
  | none => none
  | some t =>
    if (t.getValue key).isNone then some t
    else
      match t with
      | .leaf les =>
        let les' := (leafRemove les key).1
        if minLeaf lm ≤ les'.length then some (.leaf les')
        else if les'.length = 0 then none
        else some (.leaf les')
      | .inner es =>
        let es' := removeEnts lm im es key
        if minInner im ≤ es'.length then some (.inner es')
        else if es'.length = 0 then none
        else if es'.length = 1 then some ((es'.headD (0, .leaf [])).2)
        else some (.inner es')

/-! ### Operation sequences -/

/-- One client operation on the index. -/
inductive TreeOp where
  | ins (k v : Nat)
  | del (k : Nat)
  deriving Repr, DecidableEq

/-- Apply one operation to the root (insert's boolean result dropped). -/
def applyOp (lm im : Nat) (root : Option Node) : TreeOp → Option Node
  | .ins k v => (insertTree lm im root k v).1
  | .del k => removeTree lm im root k

/-- Run a sequence of operations against an initially empty tree. -/
def runOps (lm im : Nat) (ops : List TreeOp) : Option Node :=
  ops.foldl (applyOp lm im) none

/-- Insert a list of pairs in order into an initially empty tree. -/
def insertAll (lm im : Nat) (ps : List (Nat × Nat)) : Option Node :=
  ps.foldl (fun r p => (insertTree lm im r p.1 p.2).1) none

/-- `GetValue` at the tree level (`IsEmpty` check, then descent). -/
def getTree (root : Option Node) (key : Nat) : Option Nat :=
  match root with
  | none => none
  | some t => t.getValue key

/-! ## Invariants and abstraction

The well-formedness invariant the tree operations maintain, and the
abstraction of a tree to the ordered list of its leaf entries. -/

/-- `lo ≤ k`, with `none` as `-∞`. -/
def leOpt : Option Nat → Nat → Prop
  | none, _ => True
  | some l, k => l ≤ k

/-- `k < hi`, with `none` as `+∞`. -/
def ltOpt : Nat → Option Nat → Prop
  | _, none => True
  | k, some h => k < h

/-- Leaf-page well-formedness: strictly increasing keys, all inside
`[lo, hi)`. -/
def leafWF (lo hi : Option Nat) (es : List (Nat × Nat)) : Prop :=
  List.Pairwise (fun a b => a.1 < b.1) es ∧ ∀ e ∈ es, leOpt lo e.1 ∧ ltOpt e.1 hi

/-- Internal-entry chain: keys strictly increasing and inside
`[lo, hi)`, and each child `c` at slot key `k` satisfying `P (some k)
(next slot's key, or hi) c` — in particular slot 0's key is a lower
bound for its own subtree, the invariant `FindLeafMut`'s slot-0 key
rewrite maintains. -/
def entsInv (P : Option Nat → Option Nat → Node → Prop) :
    Option Nat → Option Nat → List (Nat × Node) → Prop
  | _, _, [] => True
  | lo, hi, [(k, c)] => leOpt lo k ∧ ltOpt k hi ∧ P (some k) hi c
  | lo, hi, (k, c) :: (k2, c2) :: rest =>
    leOpt lo k ∧ k < k2 ∧ P (some k) (some k2) c ∧ entsInv P (some k2) hi ((k2, c2) :: rest)

/-- Invariant of a non-root node of height `h` over key range `[lo, hi)`:
ordering as above plus the at-rest size bounds
`⌊max/2⌋ ≤ size ≤ max` (leaf max `lm`, internal stored max `im + 1`). -/
def NodeInv (lm im : Nat) : Nat → Option Nat → Option Nat → Node → Prop
  | 0, lo, hi, .leaf es => leafWF lo hi es ∧ lm / 2 ≤ es.length ∧ es.length ≤ lm
  | 0, _, _, .inner _ => False
  | _ + 1, _, _, .leaf _ => False
  | h + 1, lo, hi, .inner es =>
    entsInv (NodeInv lm im h) lo hi es ∧ (im + 1) / 2 ≤ es.length ∧ es.length ≤ im + 1

/-- Invariant of the root node: the root may be smaller — an internal
root has at least 2 entries, a root leaf any number up to `lm`. -/
def RootInv (lm im : Nat) : Nat → Node → Prop
  | 0, .leaf es => leafWF none none es ∧ es.length ≤ lm
  | h + 1, .inner es =>
    entsInv (NodeInv lm im h) none none es ∧ 2 ≤ es.length ∧ es.length ≤ im + 1
  | _, _ => False

/-- Invariant of a whole tree. -/
def TreeInv (lm im : Nat) : Option Node → Prop
  | none => True
  | some t => ∃ h, RootInv lm im h t

mutual

/-- Ordered list of all leaf entries below a node. -/
def Node.assoc : Node → List (Nat × Nat)
  | .leaf es => es
  | .inner es => assocEnts es

/-- Ordered list of all leaf entries below an entry list. -/
def assocEnts : List (Nat × Node) → List (Nat × Nat)
  | [] => []
  | (_, c) :: rest => c.assoc ++ assocEnts rest

end

/-! ## Observation helpers for the concrete scenarios -/

/-- Number of children of the root page (0 for a leaf or empty tree). -/
def rootChildCount : Option Node → Nat
  | some (.inner es) => es.length
  | _ => 0

/-- Separator keys of the root page (slot 0's key is unused by
convention and skipped). -/
def rootSepKeys : Option Node → List Nat
  | some (.inner es) => (es.map Prod.fst).tail
  | _ => []

/-- The root's children as leaf-entry lists (empty list for a non-leaf
child). -/
def rootChildLeaves : Option Node → List (List (Nat × Nat))
  | some (.inner es) =>
    es.map (fun e => match e.2 with | .leaf ls => ls | .inner _ => [])
  | _ => []

/-- Entry counts of the root's children. -/
def rootChildLens : Option Node → List Nat
  | some (.inner es) => es.map (fun e => e.2.len)
  | _ => []

mutual

/-- Computable check of the amended at-rest size bounds for every
non-root node below an entry list. -/
def szOkChildren (lm im : Nat) : List (Nat × Node) → Bool
  | [] => true
  | (_, c) :: rest => szOkNode lm im c && szOkChildren lm im rest

/-- Computable check of the amended at-rest size bounds
`⌊max/2⌋ ≤ size ≤ max` for a non-root node and everything below it. -/
def szOkNode (lm im : Nat) : Node → Bool
  | .leaf es => decide (lm / 2 ≤ es.length ∧ es.length ≤ lm)
  | .inner es =>
    decide ((im + 1) / 2 ≤ es.length ∧ es.length ≤ im + 1) && szOkChildren lm im es

end

/-- Computable size-bounds check for a whole tree: every non-root node
within `⌊max/2⌋ ≤ size ≤ max`; the root exempt from the lower bound
(an internal root keeps at least 2 entries). -/
def szOkRoot (lm im : Nat) : Option Node → Bool
  | none => true
  | some (.leaf es) => decide (es.length ≤ lm)
  | some (.inner es) =>
    decide (2 ≤ es.length ∧ es.length ≤ im + 1) && szOkChildren lm im es

/-- The head separator of a suffix: the next entry's key, or the
enclosing upper bound at the end of the list. -/
def entsHd (hi : Option Nat) : List (Nat × Node) → Option Nat
  | [] => hi
  | (k2, _) :: _ => some k2

/-- The lower key bound after the descent passed `key` through it: the
slot-0 rewrite lowers the bound to `key` when `key` undercuts it. -/
def lowKey (lo : Option Nat) (key : Nat) : Option Nat :=
  match lo with
  | none => none
  | some g => some (min g key)

/-- Ordered list of all leaf entries of a whole tree. -/
def treeAssoc : Option Node → List (Nat × Nat)
  | none => []
  | some t => t.assoc

/-- What `insNode` requires of the node it descends into: the ordering
part of `NodeInv` and the size upper bounds, but no lower size bound
(the root is allowed to be small), and at least one entry on an
internal page. -/
def InsPre (lm im : Nat) : Nat → Option Nat → Option Nat → Node → Prop
  | 0, lo, hi, .leaf es => leafWF lo hi es ∧ es.length ≤ lm
  | 0, _, _, .inner _ => False
  | _ + 1, _, _, .leaf _ => False
  | h + 1, lo, hi, .inner es =>
    entsInv (NodeInv lm im h) lo hi es ∧ 1 ≤ es.length ∧ es.length ≤ im + 1

/-- What `insNode` guarantees.  The boolean reports whether the key was
absent from the subtree.  Without a split the node keeps its shape, its
ordered leaf view gains the entry (`leafInsert` on the whole view), and
the key range's lower bound drops to `key` when the slot-0 rewrites
lowered it.  With a split both halves satisfy the full non-root
invariant on the two sides of the promoted key, which separates
strictly. -/
def InsNodeConcl (lm im h : Nat) (lo hi : Option Nat) (t : Node) (key v : Nat)
    (r : Node × Bool × Option (Nat × Node)) : Prop :=
  r.2.1 = !(t.assoc.any fun e => e.1 = key) ∧
  match r.2.2 with
  | none =>
    r.1.assoc = (leafInsert t.assoc key v).1 ∧
    (InsPre lm im h lo hi t → InsPre lm im h (lowKey lo key) hi r.1) ∧
    t.len ≤ r.1.len
  | some (sk, sc) =>
    r.2.1 = true ∧
    NodeInv lm im h (lowKey lo key) (some sk) r.1 ∧
    NodeInv lm im h (some sk) hi sc ∧
    (∀ g, lowKey lo key = some g → g < sk) ∧
    ltOpt sk hi ∧
    r.1.assoc ++ sc.assoc = entIns t.assoc key v

/-- What `insEnts` guarantees on the entry list of an internal page:
as `InsNodeConcl`, phrased before the page's own slot-0 rewrite and
split-entry insertion are applied (`hdRw` appears where the pending
rewrite matters); a pending split presents the list as the chain prefix
up to the split child's left half and the suffix after it. -/
def InsEntsConcl (lm im h : Nat) (lo hi : Option Nat) (es : List (Nat × Node))
    (key v : Nat) (r : List (Nat × Node) × Bool × Option (Nat × Node)) : Prop :=
  r.2.1 = !((assocEnts es).any fun e => e.1 = key) ∧
  (r.1.headD (0, Node.leaf [])).1 = (es.headD (0, Node.leaf [])).1 ∧
  match r.2.2 with
  | none =>
    assocEnts r.1 = (leafInsert (assocEnts es) key v).1 ∧
    r.1.length = es.length ∧
    entsInv (NodeInv lm im h) (lowKey lo key) hi (hdRw key r.1)
  | some (sk, sc) =>
    r.2.1 = true ∧
    ∃ A B, r.1 = A ++ B ∧ A ≠ [] ∧ A.length + B.length = es.length ∧
      entsInv (NodeInv lm im h) (lowKey lo key) (some sk) (hdRw key A) ∧
      NodeInv lm im h (some sk) (entsHd hi B) sc ∧
      ltOpt sk (entsHd hi B) ∧
      entsInv (NodeInv lm im h) (some sk) hi B ∧
      (∀ g, lowKey lo key = some g → g < sk) ∧
      assocEnts A ++ sc.assoc ++ assocEnts B = entIns (assocEnts es) key v

/-- Shape of a node right after a removal below it, before its parent
rebalances it: as `NodeInv`, but the entry count may undershoot the
at-rest lower bound by one (one entry just left). -/
def NodeLoose (lm im : Nat) : Nat → Option Nat → Option Nat → Node → Prop
  | 0, lo, hi, .leaf es => leafWF lo hi es ∧ lm / 2 - 1 ≤ es.length ∧ es.length ≤ lm
  | 0, _, _, .inner _ => False
  | _ + 1, _, _, .leaf _ => False
  | h + 1, lo, hi, .inner es =>
    entsInv (NodeInv lm im h) lo hi es ∧ (im + 1) / 2 - 1 ≤ es.length ∧
      es.length ≤ im + 1

/-- The underflow threshold `GetMinSize()` of a node of height `h`. -/
def minFor (lm im : Nat) : Nat → Nat
  | 0 => minLeaf lm
  | _ + 1 => minInner im

/-- The evictable flag the replacer records for `fid` (false when the
frame is unknown). -/
def Replacer.evictableOf (r : Replacer) (fid : Int) : Bool :=
  ((storeGet r.nodeStore fid).getD ⟨[], false⟩).isEvictable

/-- A one-frame pool in its initial state (frame 0 free, nothing
resident), used by the `DeletePage` counterexample. -/
def bpm0 : BPM :=
  { pages := [Frame.reset], pageTable := [], freeList := [0],
    replacer := ⟨[], 0, 0, 1, 2⟩, nextPageId := 0, disk := [], deallocated := [] }

/-- A one-frame pool with page 5 resident in frame 0, pinned once
(witness state for `UnpinPage`). -/
def bpmW : BPM :=
  { pages := [⟨5, 1, false, 0⟩], pageTable := [(5, 0)], freeList := [],
    replacer := ⟨[(0, ⟨[1], false⟩)], 1, 0, 1, 2⟩, nextPageId := 6,
    disk := [], deallocated := [] }

/-- A one-frame pool with page 5 resident in frame 0, unpinned and
evictable (witness state for `DeletePage`). -/
def bpmW2 : BPM :=
  { pages := [⟨5, 0, false, 7⟩], pageTable := [(5, 0)], freeList := [],
    replacer := ⟨[(0, ⟨[1], true⟩)], 1, 1, 1, 2⟩, nextPageId := 6,
    disk := [], deallocated := [] }

/-- Invariant of the scan inside `LRUKReplacer::Evict` after the nodes
in `done` have been processed: if nothing evictable was seen the
accumulator is untouched; otherwise `chosen` points at the best
candidate so far — preferring short histories (backward k-distance
`+∞`) once one was seen, and minimising `history_.front()` within the
preferred class. -/
def scanInv (k : Nat) (done : List (Int × LRUKNode)) (acc : EvictAcc) : Prop :=
  (acc.haveEvict = false →
    acc = ⟨false, false, UINT64_MAX, none⟩ ∧
      ∀ e ∈ done, e.2.isEvictable = false) ∧
  (acc.haveEvict = true →
    (acc.haveInf = true ↔ ∃ e ∈ done, e.2.isEvictable = true ∧ e.2.history.length < k) ∧
    ∃ f n, acc.chosen = some f ∧ (f, n) ∈ done ∧ n.isEvictable = true ∧
      acc.mxtime = n.history.head?.getD 0 ∧
      (acc.haveInf = true → n.history.length < k) ∧
      (∀ e ∈ done, e.2.isEvictable = true → e.2.history.length < k →
        n.history.head?.getD 0 ≤ e.2.history.head?.getD 0) ∧
      (acc.haveInf = false → ∀ e ∈ done, e.2.isEvictable = true →
        n.history.head?.getD 0 ≤ e.2.history.head?.getD 0))

/-- A concrete replacer state: `k = 2`, frames `0, 1, 2` after the
access pattern `ra(0), ra(1), ra(2), ra(0), ra(1)`, all evictable. -/
def repW : Replacer :=
  ⟨[(0, ⟨[1, 4], true⟩), (1, ⟨[2, 5], true⟩), (2, ⟨[3], true⟩)], 5, 3, 3, 2⟩

/-- The record id the growth scenario pairs with key `k`. -/
def rid (k : Nat) : Nat := k

/-- The scenario-3 run: `leaf_max = 3, internal_max = 3`, keys
`1, 2, 3, 4, 5` inserted in order into an empty tree. -/
def c5run (n : Nat) : Option Node :=
  insertAll 3 3 (((List.range n).map (fun i => (i + 1, rid (i + 1)))))

/-- The boolean results of a sequence of inserts, in order. -/
def insertResults (lm im : Nat) (ps : List (Nat × Nat)) : List Bool :=
  (ps.foldl (fun (acc : Option Node × List Bool) p =>
    let r := insertTree lm im acc.1 p.1 p.2
    (r.1, acc.2 ++ [r.2])) (none, [])).2

/-! ## Theorems -/

/-- `(l.drop n).headD d` reads the `n`-th element. -/
theorem headD_drop {α} (l : List α) (n : Nat) (d : α) :
    (l.drop n).headD d = l.getD n d := by
  induction l generalizing n with
  | nil => cases n <;> simp [List.getD]
  | cons a t ih =>
    cases n with
    | zero => simp [List.getD]
    | succ m => simpa using ih m

/-- C4, counterexample: the claim puts the leaf split offset at
`⌈(s+1)/2⌉`; the code computes `(s+1) >> 1 = ⌊(s+1)/2⌋`.  They differ
for every even size: a leaf of size 4 splits at offset 2 (left keeps 2
entries), not at `⌈(4+1)/2⌉ = 3`. -/
theorem C4_counterexample :
    (splitLeaf ⟨[(1, 1), (2, 2), (3, 3), (4, 4)], 9⟩ 7).1.entries.length = 2 ∧
    ¬ (splitLeaf ⟨[(1, 1), (2, 2), (3, 3), (4, 4)], 9⟩ 7).1.entries.length = (4 + 1 + 1) / 2 := by
  decide

/-- C4, amended: whenever a leaf of size `s ≥ 2` is split, the offset
is `⌊(s+1)/2⌋ = ⌈s/2⌉`: entries `[offset, s)` move to the new right
leaf, the left leaf keeps `offset` entries and the right `s − offset`,
the new leaf's next pointer takes the old leaf's next and the old
leaf's next becomes the new leaf's page id, and the promoted key is the
new leaf's first key (the entry at `offset`). -/
theorem C4_amended (p : LeafPage) (newPid : PageId) (h2 : 2 ≤ p.entries.length) :
    (splitLeaf p newPid).1.entries = p.entries.take ((p.entries.length + 1) / 2) ∧
    (splitLeaf p newPid).2.1.entries = p.entries.drop ((p.entries.length + 1) / 2) ∧
    (splitLeaf p newPid).1.entries.length = (p.entries.length + 1) / 2 ∧
    (splitLeaf p newPid).2.1.entries.length
      = p.entries.length - (p.entries.length + 1) / 2 ∧
    (splitLeaf p newPid).2.1.nextPageId = p.nextPageId ∧
    (splitLeaf p newPid).1.nextPageId = newPid ∧
    (splitLeaf p newPid).2.2 = (p.entries.getD ((p.entries.length + 1) / 2) (0, 0)).1 := by
  refine ⟨rfl, rfl, ?_, ?_, rfl, rfl, ?_⟩
  · simp [splitLeaf, LeafPage.splitOp]
    omega
  · simp [splitLeaf, LeafPage.splitOp]
  · simp [splitLeaf, LeafPage.splitOp, headD_drop]

/-- C4 witness at a concrete two-entry leaf. -/
theorem C4_amended_witness :
    2 ≤ (LeafPage.mk [(1, 10), (2, 20)] 4).entries.length ∧
    (splitLeaf (LeafPage.mk [(1, 10), (2, 20)] 4) 5).1.entries
      = (LeafPage.mk [(1, 10), (2, 20)] 4).entries.take
          (((LeafPage.mk [(1, 10), (2, 20)] 4).entries.length + 1) / 2) :=
  ⟨by decide, (C4_amended (LeafPage.mk [(1, 10), (2, 20)] 4) 5 (by decide)).1⟩

/-- C9, counterexample: dropping a live read guard emits
`UnpinPage` *before* the latch release, not after — the claimed order
(latch first, then `unpin_page`) does not hold for any live guard, here
shown at page 0. -/
theorem C9_counterexample :
    (ReadPageGuard.drop ⟨some (0, false)⟩).2
      = [GuardEvent.unpin 0 false, GuardEvent.rUnlatch 0] ∧
    ¬ (ReadPageGuard.drop ⟨some (0, false)⟩).2
      = [GuardEvent.rUnlatch 0, GuardEvent.unpin 0 false] := by
  decide

/-- C9, amended: when a read or write page guard is dropped, it first
calls `unpin_page(page id, is_dirty)` on the buffer pool manager and
then releases its latch on the frame, in that order; and drop is
idempotent: dropping an already-dropped or moved-from guard performs no
release at all. -/
theorem C9_amended (pid : PageId) (d : Bool) (g : ReadPageGuard) (w : WritePageGuard)
    (hg : g.held = some (pid, d)) (hw : w.held = some (pid, d)) :
    g.drop.2 = [GuardEvent.unpin pid d, GuardEvent.rUnlatch pid] ∧
    w.drop.2 = [GuardEvent.unpin pid d, GuardEvent.wUnlatch pid] ∧
    g.drop.1.drop = (g.drop.1, []) ∧
    w.drop.1.drop = (w.drop.1, []) ∧
    (∀ g' : ReadPageGuard, g'.held = none → g'.drop = (g', [])) ∧
    (∀ w' : WritePageGuard, w'.held = none → w'.drop = (w', [])) := by
  refine ⟨?_, ?_, ?_, ?_, ?_, ?_⟩
  · simp [ReadPageGuard.drop, hg]
  · simp [WritePageGuard.drop, hw]
  · simp [ReadPageGuard.drop, hg]
  · simp [WritePageGuard.drop, hw]
  · intro g' h'
    simp [ReadPageGuard.drop, h']
  · intro w' h'
    simp [WritePageGuard.drop, h']

/-- C9 witness at a concrete engaged guard pair. -/
theorem C9_amended_witness :
    (⟨some (3, true)⟩ : ReadPageGuard).held = some (3, true) ∧
    (⟨some (3, true)⟩ : ReadPageGuard).drop.2
      = [GuardEvent.unpin 3 true, GuardEvent.rUnlatch 3] :=
  ⟨rfl, (C9_amended 3 true ⟨some (3, true)⟩ ⟨some (3, true)⟩ rfl rfl).1⟩

/-- C2, counterexample: with `leaf_max = 3` (so `min_size = 2`), after
the three completed inserts `1, 2, 3` the root's second child is a leaf
of size 1, violating the claimed lower bound `min_size ≤ size`; and
after inserting `1..6` and removing `6`, the merge leaves a non-root
leaf `[3,4,5]` of size `3 = max_size`, violating the claimed strict
upper bound `size < max_size`. -/
theorem C2_counterexample :
    rootChildLens (runOps 3 3 [.ins 1 1, .ins 2 2, .ins 3 3]) = [2, 1] ∧
    ¬ minLeaf 3 ≤ 1 ∧
    rootChildLens (runOps 3 3
      [.ins 1 1, .ins 2 2, .ins 3 3, .ins 4 4, .ins 5 5, .ins 6 6, .del 6]) = [2, 3] ∧
    ¬ (3 : Nat) < 3 := by
  decide

/-- C5, counterexample: with `leaf_max = 3, internal_max = 3`, after
inserting keys `1..5` in order the root has three leaf children (not
two), and its separator keys are `{3, 5}` (not `{3}`). -/
theorem C5_counterexample :
    rootChildCount (c5run 5) = 3 ∧ ¬ rootChildCount (c5run 5) = 2 ∧
    rootSepKeys (c5run 5) = [3, 5] ∧ ¬ rootSepKeys (c5run 5) = [3] := by
  decide

/-- C5, amended: with `leaf_max = 3, internal_max = 3`, inserting
`1..5` in order: after `1, 2` the tree is still one leaf; inserting `3`
splits it (root becomes internal over leaves `[1,2]` and `[3]`); after
`5` the root is a single internal page with three leaf children
`[1,2], [3,4], [5]` and separator keys `{3, 5}`; in that state
`get_value(4) = some (rid 4)` and `get_value(6) = none`. -/
theorem C5_amended :
    c5run 2 = some (.leaf [(1, rid 1), (2, rid 2)]) ∧
    c5run 3 = some (.inner [(1, .leaf [(1, rid 1), (2, rid 2)]), (3, .leaf [(3, rid 3)])]) ∧
    c5run 5 = some (.inner [(1, .leaf [(1, rid 1), (2, rid 2)]),
                            (3, .leaf [(3, rid 3), (4, rid 4)]),
                            (5, .leaf [(5, rid 5)])]) ∧
    getTree (c5run 5) 4 = some (rid 4) ∧
    getTree (c5run 5) 6 = none :=
  ⟨rfl, rfl, rfl, rfl, rfl⟩

/-- Updating a key in the sorted replacer store makes it readable. -/
theorem storeGet_storeSet_self (st : List (Int × LRUKNode)) (fid : Int) (n : LRUKNode) :
    storeGet (storeSet st fid n) fid = some n := by
  induction st with
  | nil => simp [storeSet, storeGet]
  | cons e rest ih =>
    obtain ⟨f, m⟩ := e
    by_cases h1 : fid < f
    · simp [storeSet, storeGet, h1]
    · by_cases h2 : fid = f
      · simp [storeSet, storeGet, h1, h2]
      · simp [storeSet, storeGet, h1, h2, ih]

/-- An absent key reads as `none` in the replacer store. -/
theorem storeGet_eq_none_of_not_mem (st : List (Int × LRUKNode)) (fid : Int)
    (h : fid ∉ st.map Prod.fst) : storeGet st fid = none := by
  induction st with
  | nil => simp [storeGet]
  | cons e rest ih =>
    obtain ⟨f, m⟩ := e
    simp only [List.map_cons, List.mem_cons, not_or] at h
    simp [storeGet, h.1, ih h.2]

/-- Erasing a key from the replacer store removes it (keys unique). -/
theorem storeGet_storeErase_self (st : List (Int × LRUKNode)) (fid : Int)
    (hd : (st.map Prod.fst).Nodup) :
    storeGet (storeErase st fid) fid = none := by
  induction st with
  | nil => simp [storeErase, storeGet]
  | cons e rest ih =>
    obtain ⟨f, m⟩ := e
    simp only [List.map_cons, List.nodup_cons] at hd
    by_cases h2 : fid = f
    · subst h2
      simp only [storeErase, if_pos rfl]
      exact storeGet_eq_none_of_not_mem rest fid hd.1
    · simp only [storeErase, if_neg h2, storeGet, if_neg h2]
      exact ih hd.2

/-- An absent key reads as `none` in the page table. -/
theorem tblGet_eq_none_of_not_mem (tbl : List (PageId × Nat)) (pid : PageId)
    (h : pid ∉ tbl.map Prod.fst) : tblGet tbl pid = none := by
  induction tbl with
  | nil => simp [tblGet]
  | cons e rest ih =>
    obtain ⟨p, f⟩ := e
    simp only [List.map_cons, List.mem_cons, not_or] at h
    simp [tblGet, h.1, ih h.2]

/-- Erasing a page id removes it from the table (keys unique). -/
theorem tblGet_tblErase_self (tbl : List (PageId × Nat)) (pid : PageId)
    (hd : (tbl.map Prod.fst).Nodup) :
    tblGet (tblErase tbl pid) pid = none := by
  induction tbl with
  | nil => simp [tblErase, tblGet]
  | cons e rest ih =>
    obtain ⟨p, f⟩ := e
    simp only [List.map_cons, List.nodup_cons] at hd
    by_cases h2 : pid = p
    · subst h2
      simp only [tblErase, if_pos rfl]
      exact tblGet_eq_none_of_not_mem rest pid hd.1
    · simp only [tblErase, if_neg h2, tblGet, if_neg h2]
      exact ih hd.2

/-- Reading back an in-range update of the frame array. -/
theorem getD_set_self {α} (l : List α) (i : Nat) (a d : α) (h : i < l.length) :
    (l.set i a).getD i d = a := by
  simp [List.getD_eq_getElem?_getD, List.getElem?_set_eq_of_lt a h]

/-- The same fact in `getElem?` form. -/
theorem getElem?_set_getD_self {α} (l : List α) (i : Nat) (a d : α) (h : i < l.length) :
    ((l.set i a)[i]?).getD d = a := by
  rw [List.getElem?_set_eq_of_lt a h]
  rfl

/-- One step of the `Evict` scan preserves `scanInv`. -/
theorem scanInv_step (k : Nat) (done : List (Int × LRUKNode)) (acc : EvictAcc)
    (e : Int × LRUKNode) (hinv : scanInv k done acc)
    (hfr : e.2.isEvictable = true → e.2.history.headD 0 < UINT64_MAX) :
    scanInv k (done ++ [e]) (evictStep k acc e) := by
  obtain ⟨hno, hyes⟩ := hinv
  by_cases hev : e.2.isEvictable = true
  case neg =>
    have hev' : e.2.isEvictable = false := by simpa using hev
    have hstep : evictStep k acc e = acc := by
      simp [evictStep, hev']
    rw [hstep]
    refine ⟨fun h => ⟨(hno h).1, ?_⟩, fun h => ?_⟩
    · intro e2 he2
      rcases List.mem_append.mp he2 with h2 | h2
      · exact (hno h).2 e2 h2
      · simp at h2
        rw [h2]
        simpa using hev
    · obtain ⟨hiff, f, n, hch, hmem, hnev, hmx, hshn, hminS, hminA⟩ := hyes h
      refine ⟨?_, f, n, hch, List.mem_append_left _ hmem, hnev, hmx, hshn, ?_, ?_⟩
      · constructor
        · intro hc
          obtain ⟨e2, h2, h2v, h2s⟩ := hiff.mp hc
          exact ⟨e2, List.mem_append_left _ h2, h2v, h2s⟩
        · rintro ⟨e2, h2, h2v, h2s⟩
          rcases List.mem_append.mp h2 with h3 | h3
          · exact hiff.mpr ⟨e2, h3, h2v, h2s⟩
          · simp at h3
            rw [h3] at h2v
            exact absurd h2v hev
      · intro e2 he2 he2v he2s
        rcases List.mem_append.mp he2 with h2 | h2
        · exact hminS e2 h2 he2v he2s
        · simp at h2
          rw [h2] at he2v
          exact absurd he2v hev
      · intro hi e2 he2 he2v
        rcases List.mem_append.mp he2 with h2 | h2
        · exact hminA hi e2 h2 he2v
        · simp at h2
          rw [h2] at he2v
          exact absurd he2v hev
  case pos =>
    have hfre := hfr hev
    have hfre2 : e.2.history.head?.getD 0 < 18446744073709551615 := by
      simpa [UINT64_MAX, List.headD_eq_head?_getD] using hfre
    rcases Bool.eq_false_or_eq_true acc.haveEvict with hae | haeF
    case inr =>
      -- nothing evictable seen yet: `e` becomes the candidate
      obtain ⟨hacc, hdone⟩ := hno haeF
      have hstep : evictStep k acc e
          = ⟨decide (e.2.history.length < k), true, e.2.history.head?.getD 0, some e.1⟩ := by
        by_cases hsh : e.2.history.length < k <;>
          simp [evictStep, hev, hacc, hsh, hfre2, UINT64_MAX]
      rw [hstep]
      refine ⟨by simp, fun _ => ⟨?_, e.1, e.2, rfl, by simp, hev, rfl, by simp, ?_, ?_⟩⟩
      · simp only [decide_eq_true_eq]
        constructor
        · intro hsh
          exact ⟨e, by simp, hev, hsh⟩
        · rintro ⟨e2, h2, h2v, h2s⟩
          rcases List.mem_append.mp h2 with h3 | h3
          · exact absurd (hdone e2 h3) (by simp [h2v])
          · simp at h3
            rw [h3] at h2s
            exact h2s
      · intro e2 he2 he2v _
        rcases List.mem_append.mp he2 with h2 | h2
        · exact absurd (hdone e2 h2) (by simp [he2v])
        · simp at h2
          simp [h2]
      · intro _ e2 he2 he2v
        rcases List.mem_append.mp he2 with h2 | h2
        · exact absurd (hdone e2 h2) (by simp [he2v])
        · simp at h2
          simp [h2]
    case inl =>
      obtain ⟨hiff, f, n, hch, hmem, hnev, hmx, hshn, hminS, hminA⟩ := hyes hae
      by_cases hsh : e.2.history.length < k
      · by_cases hinf : acc.haveInf = true
        · by_cases hlt : e.2.history.head?.getD 0 < acc.mxtime
          · -- shorter front among the short class: switch to `e`
            have hstep : evictStep k acc e
                = ⟨acc.haveInf, true, e.2.history.head?.getD 0, some e.1⟩ := by
              simp [evictStep, hev, hsh, hinf, hae, hlt]
            rw [hstep]
            refine ⟨by simp, fun _ => ⟨?_, e.1, e.2, rfl, by simp, hev, rfl,
              fun _ => hsh, ?_, ?_⟩⟩
            · rw [hinf]
              simp only [true_iff]
              exact ⟨e, by simp, hev, hsh⟩
            · intro e2 he2 he2v he2s
              rcases List.mem_append.mp he2 with h2 | h2
              · have := hminS e2 h2 he2v he2s
                rw [hmx] at hlt
                omega
              · simp at h2
                simp [h2]
            · intro hcontr
              rw [hcontr] at hinf
              exact absurd hinf (by simp)
          · -- keep the held candidate
            have hstep : evictStep k acc e
                = ⟨acc.haveInf, true, acc.mxtime, acc.chosen⟩ := by
              simp [evictStep, hev, hsh, hinf, hae, hlt]
            rw [hstep]
            refine ⟨by simp, fun _ => ⟨?_, f, n, hch, List.mem_append_left _ hmem,
              hnev, hmx, hshn, ?_, ?_⟩⟩
            · rw [hinf]
              simp only [true_iff]
              obtain ⟨e2, h2, h2v, h2s⟩ := hiff.mp hinf
              exact ⟨e2, List.mem_append_left _ h2, h2v, h2s⟩
            · intro e2 he2 he2v he2s
              rcases List.mem_append.mp he2 with h2 | h2
              · exact hminS e2 h2 he2v he2s
              · simp at h2
                rw [h2]
                rw [hmx] at hlt
                omega
            · intro hcontr
              rw [hcontr] at hinf
              exact absurd hinf (by simp)
        · -- first short-history candidate: reset and take `e`
          have hinf' : acc.haveInf = false := by simpa using hinf
          have hstep : evictStep k acc e
              = ⟨true, true, e.2.history.head?.getD 0, some e.1⟩ := by
            simp [evictStep, hev, hsh, hinf', hae, hfre2, UINT64_MAX]
          rw [hstep]
          refine ⟨by simp, fun _ => ⟨?_, e.1, e.2, rfl, by simp, hev, rfl,
            fun _ => hsh, ?_, ?_⟩⟩
          · simp only [true_iff]
            exact ⟨e, by simp, hev, hsh⟩
          · intro e2 he2 he2v he2s
            rcases List.mem_append.mp he2 with h2 | h2
            · exact absurd (hiff.mpr ⟨e2, h2, he2v, he2s⟩) (by simp [hinf'])
            · simp at h2
              simp [h2]
          · intro hcontr
            exact absurd hcontr (by simp)
      · by_cases hinf : acc.haveInf = true
        · -- short candidates exist; a k-length node no longer competes
          have hstep : evictStep k acc e
              = ⟨acc.haveInf, true, acc.mxtime, acc.chosen⟩ := by
            simp [evictStep, hev, hsh, hinf, hae]
          rw [hstep]
          refine ⟨by simp, fun _ => ⟨?_, f, n, hch, List.mem_append_left _ hmem,
            hnev, hmx, hshn, ?_, ?_⟩⟩
          · rw [hinf]
            simp only [true_iff]
            obtain ⟨e2, h2, h2v, h2s⟩ := hiff.mp hinf
            exact ⟨e2, List.mem_append_left _ h2, h2v, h2s⟩
          · intro e2 he2 he2v he2s
            rcases List.mem_append.mp he2 with h2 | h2
            · exact hminS e2 h2 he2v he2s
            · simp at h2
              rw [h2] at he2s
              exact absurd he2s hsh
          · intro hcontr
            rw [hcontr] at hinf
            exact absurd hinf (by simp)
        · have hinf' : acc.haveInf = false := by simpa using hinf
          by_cases hlt : e.2.history.head?.getD 0 < acc.mxtime
          · -- classical comparison on the k-th oldest timestamp
            have hstep : evictStep k acc e
                = ⟨acc.haveInf, true, e.2.history.head?.getD 0, some e.1⟩ := by
              simp [evictStep, hev, hsh, hinf', hae, hlt]
            rw [hstep]
            refine ⟨by simp, fun _ => ⟨?_, e.1, e.2, rfl, by simp, hev, rfl, ?_, ?_, ?_⟩⟩
            · rw [hinf']
              refine ⟨fun hc => absurd hc (by simp), ?_⟩
              rintro ⟨e2, h2, h2v, h2s⟩
              rcases List.mem_append.mp h2 with h3 | h3
              · exact absurd (hiff.mpr ⟨e2, h3, h2v, h2s⟩) (by simp [hinf'])
              · simp at h3
                rw [h3] at h2s
                exact absurd h2s hsh
            · intro hc
              rw [hinf'] at hc
              exact absurd hc (by simp)
            · intro e2 he2 he2v he2s
              rcases List.mem_append.mp he2 with h2 | h2
              · exact absurd (hiff.mpr ⟨e2, h2, he2v, he2s⟩) (by simp [hinf'])
              · simp at h2
                rw [h2] at he2s
                exact absurd he2s hsh
            · intro _ e2 he2 he2v
              rcases List.mem_append.mp he2 with h2 | h2
              · have := hminA hinf' e2 h2 he2v
                rw [hmx] at hlt
                omega
              · simp at h2
                simp [h2]
          · have hstep : evictStep k acc e
                = ⟨acc.haveInf, true, acc.mxtime, acc.chosen⟩ := by
              simp [evictStep, hev, hsh, hinf', hae, hlt]
            rw [hstep]
            refine ⟨by simp, fun _ => ⟨?_, f, n, hch, List.mem_append_left _ hmem,
              hnev, hmx, ?_, ?_, ?_⟩⟩
            · rw [hinf']
              refine ⟨fun hc => absurd hc (by simp), ?_⟩
              rintro ⟨e2, h2, h2v, h2s⟩
              rcases List.mem_append.mp h2 with h3 | h3
              · exact absurd (hiff.mpr ⟨e2, h3, h2v, h2s⟩) (by simp [hinf'])
              · simp at h3
                rw [h3] at h2s
                exact absurd h2s hsh
            · intro hc
              rw [hinf'] at hc
              exact absurd hc (by simp)
            · intro e2 he2 he2v he2s
              rcases List.mem_append.mp he2 with h2 | h2
              · exact hminS e2 h2 he2v he2s
              · simp at h2
                rw [h2] at he2s
                exact absurd he2s hsh
            · intro _ e2 he2 he2v
              rcases List.mem_append.mp he2 with h2 | h2
              · exact hminA hinf' e2 h2 he2v
              · simp at h2
                rw [h2]
                rw [hmx] at hlt
                omega

/-- The whole scan establishes `scanInv`. -/
theorem scanInv_foldl (k : Nat) :
    ∀ (l done : List (Int × LRUKNode)) (acc : EvictAcc), scanInv k done acc →
      (∀ e ∈ l, e.2.isEvictable = true → e.2.history.headD 0 < UINT64_MAX) →
      scanInv k (done ++ l) (l.foldl (evictStep k) acc) := by
  intro l
  induction l with
  | nil => intro done acc h _; simpa using h
  | cons e rest ih =>
    intro done acc h hfr
    have h1 := scanInv_step k done acc e h (hfr e (List.mem_cons_self e rest))
    have h2 := ih (done ++ [e]) (evictStep k acc e) h1
      (fun e2 he2 => hfr e2 (List.mem_cons_of_mem e he2))
    simpa using h2

/-- C3: for every replacer state (frame ids unique; the front timestamp
of every evictable frame below `UINT64_MAX`, as the monotone counter
guarantees), `Evict` returns `none` exactly when no evictable frame
exists; otherwise it returns a frame that is evictable, belongs to the
short-history class (backward k-distance `+∞`) whenever that class is
non-empty, has the smallest oldest-timestamp within the short class,
and — when every evictable frame has a full history — the smallest
oldest (= k-th most recent) timestamp overall; the returned frame is
forgotten: erased from the store with `curr_size_` decremented. -/
theorem C3_evict (r : Replacer)
    (hkeys : (r.nodeStore.map Prod.fst).Nodup)
    (hfr : ∀ e ∈ r.nodeStore, e.2.isEvictable = true → e.2.history.headD 0 < UINT64_MAX) :
    (r.evict.2 = none ↔ ∀ e ∈ r.nodeStore, e.2.isEvictable = false) ∧
    (∀ f, r.evict.2 = some f →
      ∃ n, (f, n) ∈ r.nodeStore ∧ n.isEvictable = true ∧
        ((∃ e ∈ r.nodeStore, e.2.isEvictable = true ∧ e.2.history.length < r.k) →
          n.history.length < r.k) ∧
        (∀ e ∈ r.nodeStore, e.2.isEvictable = true → e.2.history.length < r.k →
          n.history.headD 0 ≤ e.2.history.headD 0) ∧
        ((∀ e ∈ r.nodeStore, e.2.isEvictable = true → ¬ e.2.history.length < r.k) →
          ∀ e ∈ r.nodeStore, e.2.isEvictable = true →
            n.history.headD 0 ≤ e.2.history.headD 0) ∧
        storeGet r.evict.1.nodeStore f = none ∧
        r.evict.1.currSize = r.currSize - 1) := by
  have hinv0 : scanInv r.k [] ⟨false, false, UINT64_MAX, none⟩ := by
    constructor
    · intro _
      exact ⟨rfl, by simp⟩
    · intro h
      exact absurd h (by simp)
  have hinv := scanInv_foldl r.k r.nodeStore [] ⟨false, false, UINT64_MAX, none⟩ hinv0
    (fun e he hev => by
      simpa [List.headD_eq_head?_getD] using hfr e he hev)
  rw [List.nil_append] at hinv
  obtain ⟨hno, hyes⟩ := hinv
  simp only [List.headD_eq_head?_getD]
  rcases Bool.eq_false_or_eq_true
      ((r.nodeStore.foldl (evictStep r.k) ⟨false, false, UINT64_MAX, none⟩).haveEvict)
    with hae | hae
  · obtain ⟨hiff, f0, n, hch, hmem, hnev, hmx, hshn, hminS, hminA⟩ := hyes hae
    have hres : r.evict
        = ({ r with
              nodeStore := storeErase r.nodeStore f0,
              currSize := r.currSize - 1 }, some f0) := by
      simp [Replacer.evict, hae, hch]
    refine ⟨?_, ?_⟩
    · rw [hres]
      simp only [Option.some_ne_none, false_iff, not_forall]
      exact ⟨(f0, n), by simpa [hnev] using hmem⟩
    · intro f hf
      rw [hres] at hf
      obtain rfl : f0 = f := by simpa using hf
      refine ⟨n, hmem, hnev, ?_, hminS, ?_, ?_, ?_⟩
      · intro hshort
        exact hshn (hiff.mpr hshort)
      · intro hnoshort
        refine hminA ?_
        rcases Bool.eq_false_or_eq_true
            ((r.nodeStore.foldl (evictStep r.k) ⟨false, false, UINT64_MAX, none⟩).haveInf)
          with hi | hi
        · obtain ⟨e2, h2, h2v, h2s⟩ := hiff.mp hi
          exact absurd h2s (hnoshort e2 h2 h2v)
        · exact hi
      · rw [hres]
        exact storeGet_storeErase_self r.nodeStore f0 hkeys
      · rw [hres]
  · have hres : r.evict = (r, none) := by
      simp [Replacer.evict, hae]
    obtain ⟨-, hdone⟩ := hno hae
    refine ⟨?_, ?_⟩
    · rw [hres]
      simpa using hdone
    · intro f hf
      rw [hres] at hf
      exact absurd hf (by simp)

/-- C3 witness: the spec's tie-break scenario — `k = 2`, frames
`0, 1, 2` with histories `[1,4], [2,5], [3]`, all evictable; frame 2
(the only short history) is evicted. -/
theorem C3_evict_witness :
    ((repW.nodeStore.map Prod.fst).Nodup ∧
      ∀ e ∈ repW.nodeStore, e.2.isEvictable = true →
        e.2.history.headD 0 < UINT64_MAX) ∧
    (repW.evict.2 = none ↔ ∀ e ∈ repW.nodeStore, e.2.isEvictable = false) := by
  exact ⟨⟨by decide, by decide⟩, (C3_evict repW (by decide) (by decide)).1⟩

/-- C10: every buffer-pool operation given `INVALID_PAGE_ID` fails
without touching the state: `FetchPage` returns null, `UnpinPage` and
`FlushPage` return false, for every pool state and dirty flag. -/
theorem C10_invalid_id (s : BPM) (d : Bool) :
    s.fetchPage INVALID_PAGE_ID = (s, none) ∧
    s.unpinPage INVALID_PAGE_ID d = (s, false) ∧
    s.flushPage INVALID_PAGE_ID = (s, false) := by
  refine ⟨?_, ?_, ?_⟩ <;>
    simp [BPM.fetchPage, BPM.unpinPage, BPM.flushPage]

/-- Setting a known frame evictable makes it read as evictable. -/
theorem evictableOf_setEvictable_true (r : Replacer) (fid : Int) (node : LRUKNode)
    (hnode : storeGet r.nodeStore fid = some node) :
    (r.setEvictable fid true).evictableOf fid = true := by
  by_cases he : node.isEvictable = true
  · simp [Replacer.setEvictable, hnode, he, Replacer.evictableOf]
  · simp [Replacer.setEvictable, hnode, he, Replacer.evictableOf, storeGet_storeSet_self]

/-- C6: `UnpinPage` returns false when the page is not resident or its
pin count is already 0; otherwise it decrements the pin count, ORs the
flag into the sticky dirty bit, marks the frame evictable exactly when
the pin count reaches 0 (the frame's replacer node of a pinned frame is
non-evictable), and returns true.  `hinv` says the sentinel id is never
resident. -/
theorem C6_unpin_page (s : BPM) (pid : PageId) (d : Bool)
    (hinv : tblGet s.pageTable INVALID_PAGE_ID = none) :
    (tblGet s.pageTable pid = none → s.unpinPage pid d = (s, false)) ∧
    (∀ fid, tblGet s.pageTable pid = some fid → (s.frameAt fid).pinCount = 0 →
      s.unpinPage pid d = (s, false)) ∧
    (∀ fid, tblGet s.pageTable pid = some fid → (s.frameAt fid).pinCount ≠ 0 →
      fid < s.pages.length →
      (s.unpinPage pid d).2 = true ∧
      ((s.unpinPage pid d).1.frameAt fid).pinCount = (s.frameAt fid).pinCount - 1 ∧
      ((s.unpinPage pid d).1.frameAt fid).isDirty = ((s.frameAt fid).isDirty || d) ∧
      (∀ node, storeGet s.replacer.nodeStore (Int.ofNat fid) = some node →
        node.isEvictable = false →
        (s.unpinPage pid d).1.replacer.evictableOf (Int.ofNat fid)
          = decide ((s.frameAt fid).pinCount - 1 = 0))) := by
  refine ⟨?_, ?_, ?_⟩
  · intro hnone
    by_cases hpid : pid = INVALID_PAGE_ID
    · simp [BPM.unpinPage, hpid]
    · simp [BPM.unpinPage, hpid, hnone]
  · intro fid hsome hzero
    by_cases hpid : pid = INVALID_PAGE_ID
    · simp [BPM.unpinPage, hpid]
    · simp [BPM.unpinPage, hpid, hsome, hzero]
  · intro fid hsome hpin hlen
    have hpid : pid ≠ INVALID_PAGE_ID := by
      intro hp
      rw [hp, hinv] at hsome
      exact Option.noConfusion hsome
    simp only [BPM.frameAt, List.getD_eq_getElem?_getD] at hpin ⊢
    refine ⟨?_, ?_, ?_, ?_⟩
    · simp [BPM.unpinPage, hpid, hsome, hpin, BPM.frameAt, List.getD_eq_getElem?_getD]
    · simp [BPM.unpinPage, hpid, hsome, hpin, BPM.frameAt, List.getD_eq_getElem?_getD,
        getElem?_set_getD_self _ _ _ _ hlen]
    · simp [BPM.unpinPage, hpid, hsome, hpin, BPM.frameAt, List.getD_eq_getElem?_getD,
        getElem?_set_getD_self _ _ _ _ hlen]
    · intro node hnode hne
      by_cases hz : ((s.pages[fid]?).getD Frame.reset).pinCount - 1 = 0
      · have hrep : (s.unpinPage pid d).1.replacer
            = s.replacer.setEvictable (Int.ofNat fid) true := by
          simp [BPM.unpinPage, hpid, hsome, hpin, BPM.frameAt,
            List.getD_eq_getElem?_getD, hz]
        rw [hrep, hz]
        simpa using evictableOf_setEvictable_true _ _ _ hnode
      · have hrep : (s.unpinPage pid d).1.replacer = s.replacer := by
          simp [BPM.unpinPage, hpid, hsome, hpin, BPM.frameAt,
            List.getD_eq_getElem?_getD, hz]
        rw [hrep]
        have hnode2 : storeGet s.replacer.nodeStore ((fid : Nat) : Int) = some node := hnode
        simp [Replacer.evictableOf, hnode2, hne, hz]

/-- C6 witness: a one-page pool with page 5 pinned once in frame 0. -/
theorem C6_unpin_page_witness :
    tblGet bpmW.pageTable INVALID_PAGE_ID = none ∧
    (bpmW.unpinPage 5 true).2 = true := by
  refine ⟨by decide, ?_⟩
  have h := C6_unpin_page bpmW 5 true (by decide)
  exact (h.2.2 0 (by decide) (by decide) (by decide)).1

/-- C7, counterexample: `DeletePage(INVALID_PAGE_ID)` returns false on
the initial one-frame pool although the sentinel id is not resident —
the claim promises true for every non-resident id. -/
theorem C7_counterexample :
    tblGet bpm0.pageTable INVALID_PAGE_ID = none ∧
    bpm0.deletePage INVALID_PAGE_ID = some (bpm0, false) := by
  decide

/-- C7, amended: for every page id other than the `INVALID_PAGE_ID`
sentinel, `DeletePage` succeeds at once when the page is not resident;
fails when it is resident with a positive pin count; and otherwise
writes the frame back if dirty, forgets the frame in the replacer,
erases the page-table entry, resets the frame metadata, appends the
frame to the free list, asks the disk manager to deallocate the id, and
returns true. -/
theorem C7_amended (s : BPM) (pid : PageId) (hpid : pid ≠ INVALID_PAGE_ID) :
    (tblGet s.pageTable pid = none → s.deletePage pid = some (s, true)) ∧
    (∀ fid, tblGet s.pageTable pid = some fid → 0 < (s.frameAt fid).pinCount →
      s.deletePage pid = some (s, false)) ∧
    (∀ fid, tblGet s.pageTable pid = some fid → (s.frameAt fid).pinCount = 0 →
      (∀ node, storeGet s.replacer.nodeStore (Int.ofNat fid) = some node →
        node.isEvictable = true) →
      (s.replacer.nodeStore.map Prod.fst).Nodup →
      (s.pageTable.map Prod.fst).Nodup →
      fid < s.pages.length →
      (s.deletePage pid).map (fun r => r.2) = some true ∧
      (s.deletePage pid).map (fun r => r.1.disk)
        = some (if (s.frameAt fid).isDirty
                then tblSet s.disk pid (s.frameAt fid).data else s.disk) ∧
      (s.deletePage pid).map (fun r => storeGet r.1.replacer.nodeStore (Int.ofNat fid))
        = some none ∧
      (s.deletePage pid).map (fun r => tblGet r.1.pageTable pid) = some none ∧
      (s.deletePage pid).map (fun r => r.1.frameAt fid) = some Frame.reset ∧
      (s.deletePage pid).map (fun r => r.1.freeList) = some (s.freeList ++ [fid]) ∧
      (s.deletePage pid).map (fun r => r.1.deallocated) = some (s.deallocated ++ [pid])) := by
  refine ⟨?_, ?_, ?_⟩
  · intro hnone
    simp [BPM.deletePage, hpid, hnone]
  · intro fid hsome hpin
    simp [BPM.deletePage, hpid, hsome, hpin, Nat.not_eq_zero_of_lt hpin]
  · intro fid hsome hpin hev hnd hnd2 hlen
    have hpin' : ¬ 0 < ((s.pages[fid]?).getD Frame.reset).pinCount := by
      simp only [BPM.frameAt, List.getD_eq_getElem?_getD] at hpin
      omega
    simp only [Int.ofNat_eq_natCast] at hev ⊢
    cases hget : storeGet s.replacer.nodeStore ((fid : Nat) : Int) with
    | none =>
      refine ⟨?_, ?_, ?_, ?_, ?_, ?_, ?_⟩ <;>
        simp [BPM.deletePage, hpid, hsome, hpin', Replacer.removeFrame, hget,
          BPM.diskWrite, tblGet_tblErase_self _ _ hnd2, BPM.frameAt,
          getElem?_set_getD_self _ _ _ _ hlen, apply_ite (fun s : BPM => s.disk),
          apply_ite (fun s : BPM => s.pages), apply_ite (fun s : BPM => s.freeList),
          apply_ite (fun s : BPM => s.deallocated),
          apply_ite (fun s : BPM => s.replacer), apply_ite (fun s : BPM => s.pageTable)]
    | some node =>
      have he := hev node hget
      refine ⟨?_, ?_, ?_, ?_, ?_, ?_, ?_⟩ <;>
        simp [BPM.deletePage, hpid, hsome, hpin', Replacer.removeFrame, hget, he,
          storeGet_storeErase_self _ _ hnd, BPM.diskWrite, tblGet_tblErase_self _ _ hnd2,
          BPM.frameAt, getElem?_set_getD_self _ _ _ _ hlen,
          apply_ite (fun s : BPM => s.disk), apply_ite (fun s : BPM => s.pages),
          apply_ite (fun s : BPM => s.freeList),
          apply_ite (fun s : BPM => s.deallocated),
          apply_ite (fun s : BPM => s.replacer), apply_ite (fun s : BPM => s.pageTable)]

/-- C7 witness: delete an unpinned clean resident page. -/
theorem C7_amended_witness :
    ((5 : PageId) ≠ INVALID_PAGE_ID) ∧
    (bpmW2.deletePage 5).isSome = true := by
  refine ⟨by decide, ?_⟩
  have h := C7_amended bpmW2 5 (by decide)
  have h1 := (h.2.2 0 (by decide) (by decide)
    (by intro node hn; simp [bpmW2, storeGet] at hn; simp [← hn])
    (by decide) (by decide) (by decide)).1
  cases hdel : bpmW2.deletePage 5 with
  | none => rw [hdel] at h1; exact Option.noConfusion h1
  | some r => simp [hdel]

/-! ## B+ tree: ordering, bounds and abstraction lemmas -/

theorem leOpt_none' (k : Nat) : leOpt none k := trivial

theorem ltOpt_none' (k : Nat) : ltOpt k none := trivial

theorem leOpt_some_iff {l k : Nat} : leOpt (some l) k ↔ l ≤ k := Iff.rfl

theorem ltOpt_some_iff {k h : Nat} : ltOpt k (some h) ↔ k < h := Iff.rfl

/-- The insert-position scan steps past a head key smaller than the
inserted key. -/
theorem insPosGo_cons_of_lt (k1 : Nat) (ks : List Nat) (key : Nat) (hk : k1 < key)
    (n : Nat) : insPosGo (k1 :: ks) key (n + 1) = insPosGo ks key n + 1 := by
  induction n with
  | zero => simp [insPosGo, hk]
  | succ n ih =>
    have e1 : insPosGo (k1 :: ks) key (n + 2)
        = if (k1 :: ks).getD (n + 1) 0 < key then n + 2
          else insPosGo (k1 :: ks) key (n + 1) := rfl
    have e2 : insPosGo ks key (n + 1)
        = if ks.getD n 0 < key then n + 1 else insPosGo ks key n := rfl
    by_cases h : ks.getD n 0 < key
    · rw [e1, e2, List.getD_cons_succ, if_pos h, if_pos h]
    · rw [e1, e2, List.getD_cons_succ, if_neg h, if_neg h, ih]

theorem insPos_cons_of_lt (k1 : Nat) (ks : List Nat) (key : Nat) (hk : k1 < key) :
    insPos (k1 :: ks) key = insPos ks key + 1 := by
  simpa [insPos] using insPosGo_cons_of_lt k1 ks key hk ks.length

/-- No key below the inserted one: the scan lands on slot 0. -/
theorem insPosGo_eq_zero (ks : List Nat) (key : Nat)
    (h : ∀ x ∈ ks, ¬ x < key) : ∀ n, n ≤ ks.length → insPosGo ks key n = 0 := by
  intro n
  induction n with
  | zero => intro _; rfl
  | succ n ih =>
    intro hn
    have hmem : ks.getD n 0 ∈ ks := by
      rw [List.getD_eq_getElem ks 0 (by omega)]
      exact List.getElem_mem _
    simp only [insPosGo, if_neg (h _ hmem)]
    exact ih (by omega)

theorem insPos_eq_zero (ks : List Nat) (key : Nat) (h : ∀ x ∈ ks, ¬ x < key) :
    insPos ks key = 0 :=
  insPosGo_eq_zero ks key h ks.length le_rfl

/-- Sandwich placement of the shift-insert: when every key left of the
split is smaller and none right of it is, the entry lands in between. -/
theorem entIns_append {β : Type} (A B : List (Nat × β)) (key : Nat) (b : β)
    (hA : ∀ e ∈ A, e.1 < key) (hB : ∀ e ∈ B, ¬ e.1 < key) :
    entIns (A ++ B) key b = A ++ (key, b) :: B := by
  have hpos : insPos ((A ++ B).map Prod.fst) key = A.length := by
    induction A with
    | nil =>
      simp only [List.nil_append, List.length_nil]
      refine insPos_eq_zero _ _ ?_
      intro x hx
      obtain ⟨e, he, rfl⟩ := List.mem_map.mp hx
      exact hB e he
    | cons e A' ih =>
      obtain ⟨k1, b1⟩ := e
      have h1 : k1 < key := hA (k1, b1) (List.mem_cons_self _ _)
      simp only [List.cons_append, List.map_cons, List.length_cons]
      rw [insPos_cons_of_lt k1 _ key h1,
        ih (fun e he => hA e (List.mem_cons_of_mem _ he))]
  unfold entIns
  rw [hpos]
  rw [List.take_left' rfl, List.drop_left' rfl]

/-- Uniform destructuring of the internal-entry chain invariant. -/
theorem entsInv_cons {P : Option Nat → Option Nat → Node → Prop} {lo hi : Option Nat}
    {k : Nat} {c : Node} {rest : List (Nat × Node)} :
    entsInv P lo hi ((k, c) :: rest) ↔
      leOpt lo k ∧ ltOpt k (entsHd hi rest) ∧ P (some k) (entsHd hi rest) c ∧
        entsInv P (entsHd hi rest) hi rest := by
  match rest with
  | [] => simp [entsInv, entsHd]
  | (k2, c2) :: r => rfl

/-- Only the first entry reads the lower bound. -/
theorem entsInv_weaken_lo {P : Option Nat → Option Nat → Node → Prop}
    {lo lo' hi : Option Nat} {es : List (Nat × Node)}
    (h : entsInv P lo hi es) (himp : ∀ k, leOpt lo k → leOpt lo' k) :
    entsInv P lo' hi es := by
  match es with
  | [] => trivial
  | (k, c) :: rest =>
    rw [entsInv_cons] at h ⊢
    exact ⟨himp k h.1, h.2.1, h.2.2.1, h.2.2.2⟩

/-- Raising the upper bound, given that `P` supports it. -/
theorem entsInv_weaken_hi {P : Option Nat → Option Nat → Node → Prop}
    {hi hi' : Option Nat}
    (hP : ∀ k c, P (some k) hi c → P (some k) hi' c)
    (himp : ∀ k, ltOpt k hi → ltOpt k hi') :
    ∀ {lo : Option Nat} {es : List (Nat × Node)},
      entsInv P lo hi es → entsInv P lo hi' es := by
  intro lo es
  induction es generalizing lo with
  | nil => intro _; trivial
  | cons e rest ih =>
    obtain ⟨k, c⟩ := e
    intro h
    rw [entsInv_cons] at h ⊢
    match rest with
    | [] =>
      exact ⟨h.1, himp k h.2.1, hP k c h.2.2.1, trivial⟩
    | (k2, c2) :: r =>
      exact ⟨h.1, h.2.1, h.2.2.1, ih h.2.2.2⟩

/-- `NodeInv` is monotone in both range bounds. -/
theorem NodeInv_mono (lm im : Nat) :
    ∀ (h : Nat) {lo hi lo' hi' : Option Nat} {t : Node},
      NodeInv lm im h lo hi t →
      (∀ k, leOpt lo k → leOpt lo' k) → (∀ k, ltOpt k hi → ltOpt k hi') →
      NodeInv lm im h lo' hi' t := by
  intro h
  induction h with
  | zero =>
    intro lo hi lo' hi' t ht hlo hhi
    match t with
    | .leaf es =>
      obtain ⟨⟨hch, hbd⟩, hl, hu⟩ := ht
      exact ⟨⟨hch, fun e he => ⟨hlo _ (hbd e he).1, hhi _ (hbd e he).2⟩⟩, hl, hu⟩
  | succ h ih =>
    intro lo hi lo' hi' t ht hlo hhi
    match t with
    | .inner es =>
      obtain ⟨hents, hl, hu⟩ := ht
      refine ⟨?_, hl, hu⟩
      exact entsInv_weaken_lo
        (entsInv_weaken_hi (fun k c hc => ih hc (fun _ hk => hk) hhi) hhi hents) hlo

theorem assocEnts_append (A B : List (Nat × Node)) :
    assocEnts (A ++ B) = assocEnts A ++ assocEnts B := by
  induction A with
  | nil => simp [assocEnts]
  | cons e rest ih =>
    obtain ⟨k, c⟩ := e
    simp [assocEnts, ih]

/-- Every entry key of a chain is below the upper bound. -/
theorem entsInv_key_lt_hi {P : Option Nat → Option Nat → Node → Prop} :
    ∀ {lo hi : Option Nat} {es : List (Nat × Node)},
      entsInv P lo hi es → ∀ e ∈ es, ltOpt e.1 hi := by
  intro lo hi es
  induction es generalizing lo with
  | nil => intro _ e he; cases he
  | cons e0 rest ih =>
    obtain ⟨k, c⟩ := e0
    intro h e he
    rw [entsInv_cons] at h
    rcases List.mem_cons.mp he with rfl | hmem
    · match rest with
      | [] => exact h.2.1
      | (k2, c2) :: r =>
        have h2 := ih h.2.2.2 (k2, c2) (List.mem_cons_self _ _)
        cases hi with
        | none => trivial
        | some b => exact lt_trans h.2.1 h2
    · exact ih h.2.2.2 e hmem

/-- Keys reachable below a chain stay inside the chain's range, given
the same fact for `P`. -/
theorem entsInv_assoc_bounds {P : Option Nat → Option Nat → Node → Prop}
    (hP : ∀ (lo hi : Option Nat) (c : Node), P lo hi c →
      ∀ e ∈ c.assoc, leOpt lo e.1 ∧ ltOpt e.1 hi) :
    ∀ {lo hi : Option Nat} {es : List (Nat × Node)},
      entsInv P lo hi es → ∀ e ∈ assocEnts es, leOpt lo e.1 ∧ ltOpt e.1 hi := by
  intro lo hi es
  induction es generalizing lo with
  | nil => intro _ e he; simp [assocEnts] at he
  | cons e0 rest ih =>
    obtain ⟨k, c⟩ := e0
    intro h e he
    rw [entsInv_cons] at h
    simp only [assocEnts, List.mem_append] at he
    rcases he with he | he
    · have hb := hP _ _ _ h.2.2.1 e he
      constructor
      · cases lo with
        | none => trivial
        | some l => exact le_trans (le_trans h.1 hb.1) le_rfl
      · match rest with
        | [] => exact hb.2
        | (k2, c2) :: r =>
          have h2 := entsInv_key_lt_hi h.2.2.2 (k2, c2) (List.mem_cons_self _ _)
          cases hi with
          | none => trivial
          | some b => exact lt_trans hb.2 h2
    · have hb := ih h.2.2.2 e he
      constructor
      · cases lo with
        | none => trivial
        | some l =>
          match rest with
          | (k2, c2) :: r => exact le_trans h.1 (le_trans (le_of_lt h.2.1) hb.1)
          | [] => simp [assocEnts] at he
      · exact hb.2

/-- Keys reachable below a node stay inside the node's range. -/
theorem NodeInv_assoc_bounds (lm im : Nat) :
    ∀ (h : Nat) (lo hi : Option Nat) (t : Node), NodeInv lm im h lo hi t →
      ∀ e ∈ t.assoc, leOpt lo e.1 ∧ ltOpt e.1 hi := by
  intro h
  induction h with
  | zero =>
    intro lo hi t ht e he
    match t with
    | .leaf es => exact ht.1.2 e he
  | succ h ih =>
    intro lo hi t ht e he
    match t with
    | .inner es => exact entsInv_assoc_bounds (fun lo hi c hc => ih lo hi c hc) ht.1 e he

/-- A node respecting the strict size bounds holds at least one entry. -/
theorem assoc_ne_nil (lm im : Nat) (hlm : 2 ≤ lm) (him : 2 ≤ im) :
    ∀ (h : Nat) (lo hi : Option Nat) (t : Node), NodeInv lm im h lo hi t →
      t.assoc ≠ [] := by
  intro h
  induction h with
  | zero =>
    intro lo hi t ht
    match t with
    | .leaf es =>
      intro hc
      simp only [Node.assoc] at hc
      subst hc
      have h2 := ht.2.1
      simp only [List.length_nil] at h2
      omega
  | succ h ih =>
    intro lo hi t ht
    match t with
    | .inner es =>
      obtain ⟨hents, hl, hu⟩ := ht
      match es with
      | [] => simp at hl; omega
      | (k, c) :: rest =>
        rw [entsInv_cons] at hents
        simp only [Node.assoc, assocEnts]
        intro hc
        exact ih _ _ c hents.2.2.1 (List.append_eq_nil.mp hc).1

/-- The scan of `BPlusTreeLeafPage::GetValue` only returns entries of
the page. -/
theorem leafGetValue_mem : ∀ (es : List (Nat × Nat)) (key v : Nat),
    leafGetValue es key = some v → (key, v) ∈ es := by
  intro es
  induction es with
  | nil => intro key v h; simp [leafGetValue] at h
  | cons e rest ih =>
    obtain ⟨k, v0⟩ := e
    intro key v h
    match rest with
    | [] =>
      simp only [leafGetValue] at h
      by_cases hk : key = k
      · simp only [if_pos hk] at h
        obtain rfl := Option.some_injective _ h
        simp [hk]
      · simp [if_neg hk] at h
    | (k2, v2) :: r =>
      simp only [leafGetValue] at h
      by_cases hlt : key < k2
      · rw [if_pos hlt] at h
        by_cases hk : key = k
        · rw [if_pos hk] at h
          obtain rfl := Option.some_injective _ h
          simp [hk]
        · simp [if_neg hk] at h
      · rw [if_neg hlt] at h
        exact List.mem_cons_of_mem _ (ih key v h)

/-- On a sorted leaf the scan finds every stored entry. -/
theorem leafGetValue_of_mem : ∀ (es : List (Nat × Nat)) (key v : Nat),
    List.Pairwise (fun a b => a.1 < b.1) es → (key, v) ∈ es →
    leafGetValue es key = some v := by
  intro es
  induction es with
  | nil => intro key v _ h; cases h
  | cons e rest ih =>
    obtain ⟨k, v0⟩ := e
    intro key v hp hmem
    have hp2 := List.pairwise_cons.mp hp
    match rest with
    | [] =>
      rcases List.mem_singleton.mp hmem with h
      obtain ⟨rfl, rfl⟩ := Prod.mk.injEq .. ▸ h
      simp [leafGetValue]
    | (k2, v2) :: r =>
      simp only [leafGetValue]
      by_cases hlt : key < k2
      · rw [if_pos hlt]
        rcases List.mem_cons.mp hmem with h | h
        · obtain ⟨rfl, rfl⟩ := Prod.mk.injEq .. ▸ h
          simp
        · have hk2 : k2 ≤ key := by
            rcases List.mem_cons.mp h with h2 | h2
            · obtain ⟨rfl, rfl⟩ := Prod.mk.injEq .. ▸ h2
              exact le_rfl
            · have := (List.pairwise_cons.mp hp2.2).1 (key, v) h2
              exact le_of_lt this
          omega
      · rw [if_neg hlt]
        rcases List.mem_cons.mp hmem with h | h
        · obtain ⟨rfl, rfl⟩ := Prod.mk.injEq .. ▸ h
          have := hp2.1 (k2, v2) (List.mem_cons_self _ _)
          simp at this
          omega
        · exact ih key v hp2.2 h

/-- `GetValue` only returns pairs stored below the node. -/
theorem getEnts_mem_of (lm im h : Nat)
    (hN : ∀ (lo hi : Option Nat) (c : Node) (key v : Nat),
      NodeInv lm im h lo hi c → c.getValue key = some v → (key, v) ∈ c.assoc) :
    ∀ (lo hi : Option Nat) (es : List (Nat × Node)) (key v : Nat),
      entsInv (NodeInv lm im h) lo hi es → getEnts es key = some v →
      (key, v) ∈ assocEnts es := by
  intro lo hi es key v hents hg
  induction es generalizing lo with
  | nil => simp [getEnts] at hg
  | cons e0 rest ih2 =>
    obtain ⟨k, c⟩ := e0
    rw [entsInv_cons] at hents
    match rest with
    | [] =>
      simp only [getEnts] at hg
      have := hN _ _ c key v hents.2.2.1 hg
      simp [assocEnts, this]
    | (k2, c2) :: r =>
      simp only [getEnts] at hg
      by_cases hlt : key < k2
      · rw [if_pos hlt] at hg
        have := hN _ _ c key v hents.2.2.1 hg
        simp [assocEnts, this]
      · rw [if_neg hlt] at hg
        have := ih2 _ hents.2.2.2 hg
        simp only [assocEnts, List.mem_append]
        right
        simpa [assocEnts] using this

theorem mem_getEnts_of (lm im h : Nat)
    (hN : ∀ (lo hi : Option Nat) (c : Node) (key v : Nat),
      NodeInv lm im h lo hi c → (key, v) ∈ c.assoc → c.getValue key = some v) :
    ∀ (lo hi : Option Nat) (es : List (Nat × Node)) (key v : Nat),
      entsInv (NodeInv lm im h) lo hi es → (key, v) ∈ assocEnts es →
      getEnts es key = some v := by
  intro lo hi es key v hents hmem
  induction es generalizing lo with
  | nil => simp [assocEnts] at hmem
  | cons e0 rest ih2 =>
    obtain ⟨k, c⟩ := e0
    rw [entsInv_cons] at hents
    match rest with
    | [] =>
      simp only [assocEnts, List.append_nil] at hmem
      simp only [getEnts]
      exact hN _ _ c key v hents.2.2.1 hmem
    | (k2, c2) :: r =>
      simp only [assocEnts, List.mem_append] at hmem
      simp only [getEnts]
      by_cases hlt : key < k2
      · rw [if_pos hlt]
        rcases hmem with hmem | hmem
        · exact hN _ _ c key v hents.2.2.1 hmem
        · have hb := entsInv_assoc_bounds
            (fun lo hi c hc => NodeInv_assoc_bounds lm im h lo hi c hc)
            hents.2.2.2 (key, v) (by simpa [assocEnts] using hmem)
          have : k2 ≤ key := hb.1
          omega
      · rw [if_neg hlt]
        rcases hmem with hmem | hmem
        · have hb := NodeInv_assoc_bounds lm im h _ _ c hents.2.2.1 (key, v) hmem
          have : key < k2 := hb.2
          omega
        · exact ih2 _ hents.2.2.2 (by simpa [assocEnts] using hmem)

theorem getValue_mem (lm im : Nat) :
    ∀ (h : Nat) (lo hi : Option Nat) (t : Node) (key v : Nat),
      NodeInv lm im h lo hi t → t.getValue key = some v → (key, v) ∈ t.assoc := by
  intro h
  induction h with
  | zero =>
    intro lo hi t key v ht hg
    match t with
    | .leaf es => exact leafGetValue_mem es key v hg
  | succ h ih =>
    intro lo hi t key v ht hg
    match t with
    | .inner es =>
      simp only [Node.getValue] at hg
      simp only [Node.assoc]
      exact getEnts_mem_of lm im h (fun lo hi c key v => ih lo hi c key v) _ _ es key v
        ht.1 hg

/-- `GetValue` finds every pair stored below a well-formed node. -/
theorem mem_getValue (lm im : Nat) :
    ∀ (h : Nat) (lo hi : Option Nat) (t : Node) (key v : Nat),
      NodeInv lm im h lo hi t → (key, v) ∈ t.assoc → t.getValue key = some v := by
  intro h
  induction h with
  | zero =>
    intro lo hi t key v ht hmem
    match t with
    | .leaf es => exact leafGetValue_of_mem es key v ht.1.1 hmem
  | succ h ih =>
    intro lo hi t key v ht hmem
    match t with
    | .inner es =>
      simp only [Node.assoc] at hmem
      simp only [Node.getValue]
      exact mem_getEnts_of lm im h (fun lo hi c key v => ih lo hi c key v) _ _ es key v
        ht.1 hmem

/-- `GetValue` from the root, which only satisfies the root
invariant. -/
theorem rootGetValue_mem (lm im : Nat) (h : Nat) (t : Node) (key v : Nat)
    (ht : RootInv lm im h t) (hg : t.getValue key = some v) : (key, v) ∈ t.assoc := by
  match h, t with
  | 0, .leaf es => exact leafGetValue_mem es key v hg
  | 0, .inner _ => exact False.elim ht
  | _ + 1, .leaf _ => exact False.elim ht
  | h + 1, .inner es =>
    simp only [Node.getValue] at hg
    simp only [Node.assoc]
    exact getEnts_mem_of lm im h (fun lo hi c key v => getValue_mem lm im h lo hi c key v)
      _ _ es key v ht.1 hg

theorem mem_rootGetValue (lm im : Nat) (h : Nat) (t : Node) (key v : Nat)
    (ht : RootInv lm im h t) (hmem : (key, v) ∈ t.assoc) : t.getValue key = some v := by
  match h, t with
  | 0, .leaf es => exact leafGetValue_of_mem es key v ht.1.1 hmem
  | 0, .inner _ => exact False.elim ht
  | _ + 1, .leaf _ => exact False.elim ht
  | h + 1, .inner es =>
    simp only [Node.assoc] at hmem
    simp only [Node.getValue]
    exact mem_getEnts_of lm im h (fun lo hi c key v => mem_getValue lm im h lo hi c key v)
      _ _ es key v ht.1 hmem

/-- `GetValue` misses exactly the absent keys. -/
theorem getValue_eq_none (lm im : Nat) (h : Nat) (lo hi : Option Nat) (t : Node)
    (key : Nat) (ht : NodeInv lm im h lo hi t)
    (habs : ∀ v, (key, v) ∉ t.assoc) : t.getValue key = none := by
  cases hg : t.getValue key with
  | none => rfl
  | some v => exact absurd (getValue_mem lm im h lo hi t key v ht hg) (habs v)

/-! ### Placement of the shift-insert -/

theorem insPosGo_le (ks : List Nat) (key : Nat) : ∀ n, insPosGo ks key n ≤ n := by
  intro n
  induction n with
  | zero => exact Nat.le_refl 0
  | succ n ih =>
    simp only [insPosGo]
    split
    · exact Nat.le_refl _
    · exact Nat.le_succ_of_le ih

theorem insPos_le_length (ks : List Nat) (key : Nat) : insPos ks key ≤ ks.length :=
  insPosGo_le ks key ks.length

theorem entIns_length {β : Type} (es : List (Nat × β)) (key : Nat) (b : β) :
    (entIns es key b).length = es.length + 1 := by
  have hp : insPos (es.map Prod.fst) key ≤ es.length := by
    simpa using insPos_le_length (es.map Prod.fst) key
  simp only [entIns, List.length_append, List.length_take, List.length_cons,
    List.length_drop]
  omega

theorem mem_entIns {β : Type} {es : List (Nat × β)} {key : Nat} {b : β} {e : Nat × β} :
    e ∈ entIns es key b ↔ e = (key, b) ∨ e ∈ es := by
  unfold entIns
  constructor
  · intro h
    rcases List.mem_append.mp h with h | h
    · exact Or.inr (List.mem_of_mem_take h)
    · rcases List.mem_cons.mp h with h | h
      · exact Or.inl h
      · exact Or.inr (List.mem_of_mem_drop h)
  · intro h
    rcases h with rfl | h
    · exact List.mem_append.mpr (Or.inr (List.mem_cons_self _ _))
    · conv at h => rw [← List.take_append_drop (insPos (es.map Prod.fst) key) es]
      rcases List.mem_append.mp h with h | h
      · exact List.mem_append.mpr (Or.inl h)
      · exact List.mem_append.mpr (Or.inr (List.mem_cons_of_mem _ h))

theorem entIns_nil {β : Type} (key : Nat) (b : β) : entIns [] key b = [(key, b)] := rfl

/-- A head key below the inserted one stays in place. -/
theorem entIns_cons_of_lt {β : Type} (k1 : Nat) (b1 : β) (es : List (Nat × β))
    (key : Nat) (b : β) (hk : k1 < key) :
    entIns ((k1, b1) :: es) key b = (k1, b1) :: entIns es key b := by
  unfold entIns
  simp only [List.map_cons]
  rw [insPos_cons_of_lt k1 _ key hk]
  simp [List.take_succ_cons, List.drop_succ_cons]

/-- No key below the inserted one: the entry becomes the new head. -/
theorem entIns_of_forall_ge {β : Type} (es : List (Nat × β)) (key : Nat) (b : β)
    (h : ∀ e ∈ es, ¬ e.1 < key) : entIns es key b = (key, b) :: es := by
  unfold entIns
  rw [insPos_eq_zero]
  · simp
  · intro x hx
    obtain ⟨e, he, rfl⟩ := List.mem_map.mp hx
    exact h e he

theorem insPosGo_append_left (A B : List Nat) (key : Nat) :
    ∀ n, n ≤ A.length → insPosGo (A ++ B) key n = insPosGo A key n := by
  intro n
  induction n with
  | zero => intro _; rfl
  | succ n ih =>
    intro hn
    have hgd : (A ++ B).getD n 0 = A.getD n 0 := by
      rw [List.getD_eq_getElem?_getD, List.getD_eq_getElem?_getD,
        List.getElem?_append_left (by omega)]
    simp only [insPosGo, hgd]
    split
    · rfl
    · exact ih (by omega)

/-- Keys right of `A` that do not precede `key`: the scan stays in `A`. -/
theorem insPos_append_of_ge (A B : List Nat) (key : Nat)
    (hB : ∀ x ∈ B, ¬ x < key) : insPos (A ++ B) key = insPos A key := by
  have step : ∀ m, m ≤ B.length →
      insPosGo (A ++ B) key (A.length + m) = insPosGo A key A.length := by
    intro m
    induction m with
    | zero => intro _; exact insPosGo_append_left A B key A.length le_rfl
    | succ m ih =>
      intro hm
      have hgd : (A ++ B).getD (A.length + m) 0 = B.getD m 0 := by
        rw [List.getD_eq_getElem?_getD, List.getD_eq_getElem?_getD,
          List.getElem?_append_right (by omega), Nat.add_sub_cancel_left]
      have hmem : B.getD m 0 ∈ B := by
        have hlt : m < B.length := by omega
        rw [List.getD_eq_getElem B 0 hlt]
        exact List.getElem_mem _
      have e1 : insPosGo (A ++ B) key (A.length + m + 1)
          = if (A ++ B).getD (A.length + m) 0 < key then A.length + m + 1
            else insPosGo (A ++ B) key (A.length + m) := rfl
      show insPosGo (A ++ B) key (A.length + m + 1) = insPosGo A key A.length
      rw [e1, hgd, if_neg (hB _ hmem), ih (by omega)]
  have := step B.length le_rfl
  simp only [insPos, List.length_append]
  exact this

/-- The shift-insert lands inside the left part when no key right of it
precedes the inserted one. -/
theorem entIns_append_left {β : Type} (A B : List (Nat × β)) (key : Nat) (b : β)
    (hB : ∀ e ∈ B, ¬ e.1 < key) :
    entIns (A ++ B) key b = entIns A key b ++ B := by
  have hpos : insPos ((A ++ B).map Prod.fst) key = insPos (A.map Prod.fst) key := by
    rw [List.map_append]
    refine insPos_append_of_ge _ _ key ?_
    intro x hx
    obtain ⟨e, he, rfl⟩ := List.mem_map.mp hx
    exact hB e he
  have hle : insPos (A.map Prod.fst) key ≤ A.length := by
    simpa using insPos_le_length (A.map Prod.fst) key
  unfold entIns
  rw [hpos, List.take_append_of_le_length hle, List.drop_append_of_le_length hle]
  simp

/-- The shift-insert lands inside the right part when every key left of
it precedes the inserted one. -/
theorem entIns_append_right {β : Type} (A B : List (Nat × β)) (key : Nat) (b : β)
    (hA : ∀ e ∈ A, e.1 < key) :
    entIns (A ++ B) key b = A ++ entIns B key b := by
  induction A with
  | nil => simp
  | cons e A' ih =>
    obtain ⟨k1, b1⟩ := e
    have h1 : k1 < key := hA (k1, b1) (List.mem_cons_self _ _)
    rw [List.cons_append, entIns_cons_of_lt _ _ _ _ _ h1,
      ih (fun e he => hA e (List.mem_cons_of_mem _ he))]
    rfl

/-! ### Sorted insertion and splitting of a leaf view -/

/-- The shift-insert keeps strict key sortedness when the key is new. -/
theorem pairwise_entIns {β : Type} {es : List (Nat × β)} {key : Nat} {b : β}
    (hp : List.Pairwise (fun a c => a.1 < c.1) es) (habs : ∀ e ∈ es, e.1 ≠ key) :
    List.Pairwise (fun a c => a.1 < c.1) (entIns es key b) := by
  induction es with
  | nil => rw [entIns_nil]; exact List.pairwise_singleton _ _
  | cons e0 rest ih =>
    obtain ⟨k1, b1⟩ := e0
    rw [List.pairwise_cons] at hp
    by_cases h1 : k1 < key
    · rw [entIns_cons_of_lt _ _ _ _ _ h1, List.pairwise_cons]
      refine ⟨?_, ih hp.2 (fun e he => habs e (List.mem_cons_of_mem _ he))⟩
      intro e he
      rcases mem_entIns.mp he with rfl | he
      · exact h1
      · exact hp.1 e he
    · have hge : ∀ e ∈ (k1, b1) :: rest, ¬ e.1 < key := by
        intro e he
        rcases List.mem_cons.mp he with rfl | he
        · exact h1
        · have := hp.1 e he
          omega
      rw [entIns_of_forall_ge _ _ _ hge, List.pairwise_cons]
      refine ⟨?_, List.pairwise_cons.mpr hp⟩
      intro e he
      have hne := habs e he
      rcases List.mem_cons.mp he with rfl | he
      · omega
      · have := hp.1 e he
        omega

theorem leOpt_lowKey_self (lo : Option Nat) (key : Nat) : leOpt (lowKey lo key) key := by
  cases lo with
  | none => trivial
  | some g => exact Nat.min_le_right g key

theorem leOpt_lowKey_of {lo : Option Nat} {key x : Nat} (h : leOpt lo x) :
    leOpt (lowKey lo key) x := by
  cases lo with
  | none => trivial
  | some g => exact le_trans (Nat.min_le_left g key) h

theorem lowKey_eq_of_le {k key : Nat} (h : k ≤ key) : lowKey (some k) key = some k := by
  simp [lowKey, Nat.min_eq_left h]

/-- Inserting a fresh in-range key preserves leaf well-formedness at
the possibly lowered bound. -/
theorem leafWF_entIns {lo hi : Option Nat} {es : List (Nat × Nat)} {key v : Nat}
    (hwf : leafWF lo hi es) (habs : ∀ e ∈ es, e.1 ≠ key) (hhi : ltOpt key hi) :
    leafWF (lowKey lo key) hi (entIns es key v) := by
  refine ⟨pairwise_entIns hwf.1 habs, ?_⟩
  intro e he
  rcases mem_entIns.mp he with rfl | he
  · exact ⟨leOpt_lowKey_self lo key, hhi⟩
  · exact ⟨leOpt_lowKey_of (hwf.2 e he).1, (hwf.2 e he).2⟩

/-- Splitting a well-formed leaf view at an interior offset yields two
well-formed views separated by the right part's first key. -/
theorem leafWF_split {lo hi : Option Nat} {L : List (Nat × Nat)} (hwf : leafWF lo hi L)
    (off : Nat) (h0 : 0 < off) (hlt : off < L.length) :
    leafWF lo (some ((L.drop off).headD (0, 0)).1) (L.take off) ∧
    leafWF (some ((L.drop off).headD (0, 0)).1) hi (L.drop off) ∧
    (∀ g, lo = some g → g < ((L.drop off).headD (0, 0)).1) ∧
    ltOpt ((L.drop off).headD (0, 0)).1 hi := by
  have hg := List.pairwise_iff_getElem.mp hwf.1
  have hsk : ((L.drop off).headD (0, 0)) = L[off] := by
    rw [List.headD_eq_head?_getD, List.head?_drop, List.getElem?_eq_getElem hlt]
    rfl
  have hmemoff : L[off] ∈ L := List.getElem_mem _
  refine ⟨⟨hwf.1.sublist (List.take_sublist off L), ?_⟩,
    ⟨hwf.1.sublist (List.drop_sublist off L), ?_⟩, ?_, ?_⟩
  · intro e he
    obtain ⟨i, hi2, hie⟩ := List.mem_iff_getElem.mp he
    have hi3 : i < off := by
      have := hi2
      simp only [List.length_take] at this
      omega
    have hi4 : i < L.length := by omega
    have hEq : (L.take off)[i] = L[i] := List.getElem_take L
    refine ⟨(hwf.2 e (List.mem_of_mem_take he)).1, ?_⟩
    rw [hsk, ← hie, hEq]
    exact hg i off hi4 hlt hi3
  · intro e he
    obtain ⟨j, hj2, hje⟩ := List.mem_iff_getElem.mp he
    have hj3 : off + j < L.length := by
      have := hj2
      simp only [List.length_drop] at this
      omega
    have hEq : (L.drop off)[j] = L[off + j] := List.getElem_drop L
    refine ⟨?_, (hwf.2 e (List.mem_of_mem_drop he)).2⟩
    rw [hsk, ← hje, hEq]
    rcases Nat.eq_zero_or_pos j with rfl | hjpos
    · simp [leOpt]
    · exact le_of_lt (hg off (off + j) hlt hj3 (by omega))
  · intro g hg0
    have h00 : L[0] ∈ L := List.getElem_mem _
    have hb := (hwf.2 L[0] h00).1
    rw [hg0] at hb
    have hlt0 : (L[0]).1 < (L[off]).1 := hg 0 off (by omega) hlt h0
    rw [hsk]
    exact lt_of_le_of_lt hb hlt0
  · rw [hsk]
    exact (hwf.2 L[off] hmemoff).2

/-! ### More chain-invariant tools -/

/-- Every entry key of a chain is at or above the lower bound. -/
theorem entsInv_keys_ge {P : Option Nat → Option Nat → Node → Prop} :
    ∀ {lo hi : Option Nat} {es : List (Nat × Node)},
      entsInv P lo hi es → ∀ e ∈ es, leOpt lo e.1 := by
  intro lo hi es
  induction es generalizing lo with
  | nil => intro _ e he; cases he
  | cons e0 rest ih =>
    obtain ⟨k, c⟩ := e0
    intro h e he
    rw [entsInv_cons] at h
    rcases List.mem_cons.mp he with rfl | hmem
    · exact h.1
    · have h2 := ih h.2.2.2 e hmem
      match rest, hmem with
      | (k2, c2) :: r, _ =>
        cases lo with
        | none => trivial
        | some g =>
          have : g ≤ k := h.1
          have : k < k2 := h.2.1
          have : (k2 : Nat) ≤ e.1 := h2
          show g ≤ e.1
          omega

theorem entsHd_append (hi : Option Nat) (X Y : List (Nat × Node)) :
    entsHd hi (X ++ Y) = entsHd (entsHd hi Y) X := by
  match X with
  | [] => rfl
  | (k, c) :: X' => rfl

/-- A chain restricted to a prefix, with the bound at the cut. -/
theorem entsInv_prefix {P : Option Nat → Option Nat → Node → Prop}
    {hi : Option Nat} {Y : List (Nat × Node)} :
    ∀ {lo : Option Nat} {X : List (Nat × Node)},
      entsInv P lo hi (X ++ Y) → entsInv P lo (entsHd hi Y) X := by
  intro lo X
  induction X generalizing lo with
  | nil => intro _; trivial
  | cons e0 X' ih =>
    obtain ⟨k, c⟩ := e0
    intro h
    rw [List.cons_append, entsInv_cons] at h
    rw [entsHd_append hi X' Y] at h
    rw [entsInv_cons]
    exact ⟨h.1, h.2.1, h.2.2.1, ih h.2.2.2⟩

/-- A chain restricted to a suffix, starting at its own head key. -/
theorem entsInv_suffix {P : Option Nat → Option Nat → Node → Prop}
    {hi : Option Nat} {Y : List (Nat × Node)} :
    ∀ {lo : Option Nat} {X : List (Nat × Node)},
      entsInv P lo hi (X ++ Y) → entsInv P (entsHd hi Y) hi Y := by
  intro lo X
  induction X generalizing lo with
  | nil =>
    intro h
    simp only [List.nil_append] at h
    match Y, h with
    | [], _ => trivial
    | (k, c) :: r, h =>
      rw [entsInv_cons] at h
      rw [entsInv_cons]
      exact ⟨le_refl k, h.2.1, h.2.2.1, h.2.2.2⟩
  | cons e0 X' ih =>
    obtain ⟨k, c⟩ := e0
    intro h
    rw [List.cons_append, entsInv_cons] at h
    exact ih h.2.2.2

/-- Reassembling a chain around an inserted entry that splits it. -/
theorem entsInv_chain_append {P : Option Nat → Option Nat → Node → Prop}
    {hi : Option Nat} {sk : Nat} {sc : Node} {B : List (Nat × Node)}
    (hsc : P (some sk) (entsHd hi B) sc) (hsk : ltOpt sk (entsHd hi B))
    (hB : entsInv P (some sk) hi B) :
    ∀ {lo : Option Nat} {A : List (Nat × Node)}, A ≠ [] →
      entsInv P lo (some sk) A → entsInv P lo hi (A ++ (sk, sc) :: B) := by
  intro lo A
  induction A generalizing lo with
  | nil => intro hne; exact absurd rfl hne
  | cons e0 A' ih =>
    obtain ⟨k, c⟩ := e0
    intro _ hA
    rw [entsInv_cons] at hA
    rw [List.cons_append, entsInv_cons]
    match A' with
    | [] =>
      simp only [List.nil_append]
      refine ⟨hA.1, ?_, ?_, ?_⟩
      · exact hA.2.1
      · exact hA.2.2.1
      · rw [entsInv_cons]
        exact ⟨le_refl sk, hsk, hsc, entsInv_suffix (X := []) hB⟩
    | (k2, c2) :: A'' =>
      refine ⟨hA.1, hA.2.1, hA.2.2.1, ?_⟩
      exact ih (by simp) hA.2.2.2

/-! ### The slot-0 rewrite -/

theorem hdRw_cons (key k : Nat) (x : Node) (l : List (Nat × Node)) :
    hdRw key ((k, x) :: l) = (min k key, x) :: l := by
  simp only [hdRw]
  rcases Nat.lt_or_ge key k with h | h
  · rw [if_pos h, Nat.min_eq_right h.le]
  · rw [if_neg (by omega), Nat.min_eq_left h]

theorem assocEnts_hdRw (key : Nat) (l : List (Nat × Node)) :
    assocEnts (hdRw key l) = assocEnts l := by
  match l with
  | [] => rfl
  | (k, x) :: r => rw [hdRw_cons]; rfl

theorem hdRw_length (key : Nat) (l : List (Nat × Node)) :
    (hdRw key l).length = l.length := by
  match l with
  | [] => rfl
  | (k, x) :: r => rw [hdRw_cons]; rfl

theorem hdRw_append (key : Nat) (A B : List (Nat × Node)) (hA : A ≠ []) :
    hdRw key (A ++ B) = hdRw key A ++ B := by
  match A with
  | [] => exact absurd rfl hA
  | (k, x) :: A' => rw [List.cons_append, hdRw_cons, hdRw_cons]; rfl

/-! ### Bridges between the invariant forms -/

/-- A node with the relaxed insert precondition and at least the entry
count of a node with the full invariant satisfies the full invariant. -/
theorem NodeInv_of_InsPre (lm im : Nat) :
    ∀ (h : Nat) {lo1 hi1 lo2 hi2 : Option Nat} {t t' : Node},
      NodeInv lm im h lo1 hi1 t → InsPre lm im h lo2 hi2 t' → t.len ≤ t'.len →
      NodeInv lm im h lo2 hi2 t' := by
  intro h lo1 hi1 lo2 hi2 t t' ht ht' hlen
  match h, t, t' with
  | 0, .leaf es, .leaf es' =>
    have h1 : lm / 2 ≤ es.length := ht.2.1
    have h2 : es.length ≤ es'.length := hlen
    exact ⟨ht'.1, by omega, ht'.2⟩
  | 0, .inner _, .leaf _ => exact ht.elim
  | 0, _, .inner _ => exact ht'.elim
  | _ + 1, _, .leaf _ => exact ht'.elim
  | _ + 1, .leaf _, .inner _ => exact ht.elim
  | h + 1, .inner es, .inner es' =>
    have h1 : (im + 1) / 2 ≤ es.length := ht.2.1
    have h2 : es.length ≤ es'.length := hlen
    exact ⟨ht'.1, by omega, ht'.2.2⟩

theorem InsPre_of_NodeInv (lm im : Nat) (him : 1 ≤ im) :
    ∀ (h : Nat) {lo hi : Option Nat} {t : Node},
      NodeInv lm im h lo hi t → InsPre lm im h lo hi t := by
  intro h lo hi t ht
  match h, t with
  | 0, .leaf es => exact ⟨ht.1, ht.2.2⟩
  | 0, .inner _ => exact ht.elim
  | _ + 1, .leaf _ => exact ht.elim
  | h + 1, .inner es =>
    have h1 : (im + 1) / 2 ≤ es.length := ht.2.1
    exact ⟨ht.1, by omega, ht.2.2⟩

theorem InsPre_of_RootInv (lm im : Nat) :
    ∀ (h : Nat) {t : Node}, RootInv lm im h t → InsPre lm im h none none t := by
  intro h t ht
  match h, t with
  | 0, .leaf es => exact ⟨ht.1, ht.2⟩
  | 0, .inner _ => exact ht.elim
  | _ + 1, .leaf _ => exact ht.elim
  | h + 1, .inner es =>
    have h2 : 2 ≤ es.length := ht.2.1
    exact ⟨ht.1, by omega, ht.2.2⟩

/-- The slot-0 key of a node below a strict upper bound stays below it. -/
theorem keyAt0_lt_of_NodeInv (lm im : Nat) (hlm : 2 ≤ lm) (him : 1 ≤ im) :
    ∀ (h : Nat) {lo : Option Nat} {sk : Nat} {t : Node},
      NodeInv lm im h lo (some sk) t → t.keyAt0 < sk := by
  intro h lo sk t ht
  match h, t with
  | 0, .leaf es =>
    match es with
    | [] =>
      have : lm / 2 ≤ (0 : Nat) := by simpa using ht.2.1
      omega
    | e :: rest =>
      have := (ht.1.2 e (List.mem_cons_self _ _)).2
      simpa [Node.keyAt0] using this
  | 0, .inner _ => exact ht.elim
  | _ + 1, .leaf _ => exact ht.elim
  | h + 1, .inner es =>
    match es with
    | [] =>
      have h1 : (im + 1) / 2 ≤ (0 : Nat) := by simpa using ht.2.1
      omega
    | (k, c) :: rest =>
      have := entsInv_key_lt_hi ht.1 (k, c) (List.mem_cons_self _ _)
      simpa [Node.keyAt0] using this

/-- A node's own slot-0 key is a valid lower bound for it. -/
theorem NodeInv_tighten_keyAt0 (lm im : Nat) :
    ∀ (h : Nat) {lo hi : Option Nat} {t : Node},
      NodeInv lm im h lo hi t → NodeInv lm im h (some t.keyAt0) hi t := by
  intro h lo hi t ht
  match h, t with
  | 0, .leaf es =>
    refine ⟨⟨ht.1.1, ?_⟩, ht.2.1, ht.2.2⟩
    intro e he
    refine ⟨?_, (ht.1.2 e he).2⟩
    match es, he with
    | e0 :: rest, he =>
      rcases List.mem_cons.mp he with rfl | hmem
      · simp [Node.keyAt0, leOpt]
      · have := (List.pairwise_cons.mp ht.1.1).1 e hmem
        simp only [Node.keyAt0, List.headD_cons]
        exact le_of_lt this
  | 0, .inner _ => exact ht.elim
  | _ + 1, .leaf _ => exact ht.elim
  | h + 1, .inner es =>
    refine ⟨?_, ht.2.1, ht.2.2⟩
    match es, ht with
    | [], _ => trivial
    | (k, c) :: rest, ht =>
      have h1 := ht.1
      rw [entsInv_cons] at h1
      rw [entsInv_cons]
      exact ⟨le_refl k, h1.2.1, h1.2.2.1, h1.2.2.2⟩

/-! ### The insert descent -/

theorem any_key_eq_false {as : List (Nat × Nat)} {key : Nat}
    (h : ∀ e ∈ as, e.1 ≠ key) : (as.any fun e => e.1 = key) = false := by
  rw [List.any_eq_false]
  intro e he
  simpa using h e he

theorem leafInsert_pos {as : List (Nat × Nat)} {key v : Nat}
    (h : (as.any fun e => e.1 = key) = true) : leafInsert as key v = (as, false) := by
  simp [leafInsert, h]

theorem leafInsert_neg {as : List (Nat × Nat)} {key v : Nat}
    (h : (as.any fun e => e.1 = key) = false) :
    leafInsert as key v = (entIns as key v, true) := by
  simp [leafInsert, h]

/-- Correctness of the descent over one internal page's entry list,
given the correctness of the per-node insert for the children's
height. -/
theorem insEnts_spec (lm im : Nat) (h : Nat)
    (insH : ∀ (lo hi : Option Nat) (t : Node) (key v : Nat),
      InsPre lm im h lo hi t → ltOpt key hi →
      InsNodeConcl lm im h lo hi t key v (insNode lm im t key v))
    (him : 1 ≤ im) :
    ∀ (lo hi : Option Nat) (es : List (Nat × Node)) (key v : Nat),
      entsInv (NodeInv lm im h) lo hi es → es ≠ [] → ltOpt key hi →
      InsEntsConcl lm im h lo hi es key v (insEnts lm im es key v) := by
  intro lo hi es key v hents hne hkey
  induction es generalizing lo with
  | nil => exact absurd rfl hne
  | cons e0 rest ih =>
    obtain ⟨k, c⟩ := e0
    rw [entsInv_cons] at hents
    match rest with
    | [] =>
      simp only [entsHd] at hents
      obtain ⟨hlok, hkhi, hc, -⟩ := hents
      have eq0 : insEnts lm im [(k, c)] key v
          = ([(k, (insNode lm im c key v).1)], (insNode lm im c key v).2.1,
             (insNode lm im c key v).2.2) := rfl
      have hconc := insH (some k) hi c key v (InsPre_of_NodeInv lm im him h hc) hkey
      rcases hr : insNode lm im c key v with ⟨n1, b1, o1⟩
      rw [hr] at eq0 hconc
      rw [eq0]
      obtain ⟨hb, hrest⟩ := hconc
      cases o1 with
      | none =>
        obtain ⟨hassoc, hpre, hlen⟩ := hrest
        refine ⟨?_, rfl, ?_, rfl, ?_⟩
        · simpa [assocEnts] using hb
        · simpa [assocEnts] using hassoc
        · rw [hdRw_cons]
          rw [entsInv_cons]
          simp only [entsHd]
          refine ⟨?_, ?_, ?_, trivial⟩
          · cases lo with
            | none => trivial
            | some g =>
              have : g ≤ k := hlok
              show min g key ≤ min k key
              omega
          · cases hi with
            | none => trivial
            | some b =>
              have : k < b := hkhi
              show min k key < b
              omega
          · exact NodeInv_of_InsPre lm im h hc
              (hpre (InsPre_of_NodeInv lm im him h hc)) hlen
      | some sp =>
        obtain ⟨sk, sc⟩ := sp
        obtain ⟨htrue, hlft, hrgt, hglt, hskhi, hcat⟩ := hrest
        have hminlt : min k key < sk := hglt (min k key) rfl
        refine ⟨?_, rfl, htrue, [(k, n1)], [], by simp, by simp, by simp, ?_, ?_, ?_,
          trivial, ?_, ?_⟩
        · simpa [assocEnts] using hb
        · rw [hdRw_cons]
          rw [entsInv_cons]
          simp only [entsHd]
          refine ⟨?_, hminlt, hlft, trivial⟩
          cases lo with
          | none => trivial
          | some g =>
            have : g ≤ k := hlok
            show min g key ≤ min k key
            omega
        · exact hrgt
        · exact hskhi
        · intro g hg
          cases lo with
          | none => cases hg
          | some g0 =>
            have hgk : g0 ≤ k := hlok
            have hg2 : min g0 key = g := by
              have h3 := hg
              simp only [lowKey, Option.some.injEq] at h3
              exact h3
            omega
        · simpa [assocEnts] using hcat
    | (k2, c2) :: rest2 =>
      simp only [entsHd] at hents
      obtain ⟨hlok, hkk2, hc, htail⟩ := hents
      have hknat : k < k2 := hkk2
      have hcb := NodeInv_assoc_bounds lm im h _ _ c hc
      have htb := entsInv_assoc_bounds
        (fun lo hi c hc => NodeInv_assoc_bounds lm im h lo hi c hc) htail
      have eqIf : insEnts lm im ((k, c) :: (k2, c2) :: rest2) key v
          = if key < k2 then
              ((k, (insNode lm im c key v).1) :: (k2, c2) :: rest2,
               (insNode lm im c key v).2.1, (insNode lm im c key v).2.2)
            else
              ((k, c) :: (insEnts lm im ((k2, c2) :: rest2) key v).1,
               (insEnts lm im ((k2, c2) :: rest2) key v).2.1,
               (insEnts lm im ((k2, c2) :: rest2) key v).2.2) := rfl
      by_cases hlt : key < k2
      · -- the descent enters the slot-0 child
        have eq1 := eqIf
        rw [if_pos hlt] at eq1
        have hconc := insH (some k) (some k2) c key v
          (InsPre_of_NodeInv lm im him h hc) hlt
        rcases hr : insNode lm im c key v with ⟨n1, b1, o1⟩
        rw [hr] at eq1 hconc
        rw [eq1]
        obtain ⟨hb, hrest⟩ := hconc
        have htany : ((assocEnts ((k2, c2) :: rest2)).any fun e => e.1 = key) = false := by
          refine any_key_eq_false ?_
          intro e he
          have : (k2 : Nat) ≤ e.1 := (htb e he).1
          omega
        have hBge : ∀ e ∈ assocEnts ((k2, c2) :: rest2), ¬ e.1 < key := by
          intro e he
          have : (k2 : Nat) ≤ e.1 := (htb e he).1
          omega
        have hbool : b1 = !((assocEnts ((k, c) :: (k2, c2) :: rest2)).any
            fun e => e.1 = key) := by
          show b1 = !((c.assoc ++ assocEnts ((k2, c2) :: rest2)).any fun e => e.1 = key)
          rw [List.any_append, htany, Bool.or_false]
          exact hb
        cases o1 with
        | none =>
          obtain ⟨hassoc, hpre, hlen⟩ := hrest
          refine ⟨hbool, rfl, ?_, rfl, ?_⟩
          · show n1.assoc ++ assocEnts ((k2, c2) :: rest2)
                = (leafInsert (c.assoc ++ assocEnts ((k2, c2) :: rest2)) key v).1
            cases hdup : (c.assoc.any fun e => e.1 = key) with
            | true =>
              rw [leafInsert_pos hdup] at hassoc
              rw [leafInsert_pos (by rw [List.any_append, hdup]; rfl)]
              rw [hassoc]
            | false =>
              rw [leafInsert_neg hdup] at hassoc
              rw [leafInsert_neg (by rw [List.any_append, hdup, htany]; rfl)]
              rw [hassoc, entIns_append_left _ _ _ _ hBge]
          · rw [hdRw_cons]
            rw [entsInv_cons]
            simp only [entsHd]
            refine ⟨?_, ?_, ?_, htail⟩
            · cases lo with
              | none => trivial
              | some g =>
                have : g ≤ k := hlok
                show min g key ≤ min k key
                omega
            · show min k key < k2
              omega
            · exact NodeInv_of_InsPre lm im h hc
                (hpre (InsPre_of_NodeInv lm im him h hc)) hlen
        | some sp =>
          obtain ⟨sk, sc⟩ := sp
          obtain ⟨htrue, hlft, hrgt, hglt, hskhi, hcat⟩ := hrest
          have hminlt : min k key < sk := hglt (min k key) rfl
          have hskk2 : sk < k2 := hskhi
          refine ⟨hbool, rfl, htrue, [(k, n1)], (k2, c2) :: rest2, rfl, by simp,
            (by simp only [List.length_cons, List.length_nil]; omega), ?_, ?_, ?_, ?_,
            ?_, ?_⟩
          · rw [hdRw_cons]
            rw [entsInv_cons]
            simp only [entsHd]
            refine ⟨?_, hminlt, hlft, trivial⟩
            cases lo with
            | none => trivial
            | some g =>
              have : g ≤ k := hlok
              show min g key ≤ min k key
              omega
          · exact hrgt
          · exact hskhi
          · refine entsInv_weaken_lo htail ?_
            intro x hx
            have : (k2 : Nat) ≤ x := hx
            show sk ≤ x
            omega
          · intro g hg
            cases lo with
            | none => cases hg
            | some g0 =>
              have hgk : g0 ≤ k := hlok
              have hg2 : min g0 key = g := by
                have h3 := hg
                simp only [lowKey, Option.some.injEq] at h3
                exact h3
              omega
          · rw [show assocEnts [(k, n1)] = n1.assoc by simp [assocEnts]]
            rw [show assocEnts ((k, c) :: (k2, c2) :: rest2)
                = c.assoc ++ assocEnts ((k2, c2) :: rest2) from rfl]
            rw [entIns_append_left _ _ _ _ hBge, ← hcat, List.append_assoc]
      · -- the descent moves to the next slot
        have eq1 := eqIf
        rw [if_neg hlt] at eq1
        have hk2key : k2 ≤ key := by omega
        have hE := ih (some k2) htail (by simp)
        rcases hrT : insEnts lm im ((k2, c2) :: rest2) key v with ⟨l1, b1, o1⟩
        rw [hrT] at eq1 hE
        rw [eq1]
        obtain ⟨hb, hhd, hrest⟩ := hE
        have hcany : (c.assoc.any fun e => e.1 = key) = false := by
          refine any_key_eq_false ?_
          intro e he
          have : e.1 < k2 := (hcb e he).2
          omega
        have hAlt : ∀ e ∈ c.assoc, e.1 < key := by
          intro e he
          have : e.1 < k2 := (hcb e he).2
          omega
        have hbool : b1 = !((assocEnts ((k, c) :: (k2, c2) :: rest2)).any
            fun e => e.1 = key) := by
          show b1 = !((c.assoc ++ assocEnts ((k2, c2) :: rest2)).any fun e => e.1 = key)
          rw [List.any_append, hcany, Bool.false_or]
          exact hb
        have hlowk2 : lowKey (some k2) key = some k2 := lowKey_eq_of_le hk2key
        cases o1 with
        | none =>
          obtain ⟨hassoc, hlen, hchain⟩ := hrest
          rw [hlowk2] at hchain
          have hl1ne : l1 ≠ [] := by
            intro hc0
            rw [hc0] at hlen
            simp at hlen
          obtain ⟨ca, l1', rfl⟩ : ∃ ca l1', l1 = (k2, ca) :: l1' := by
            match l1, hl1ne, hhd with
            | (ka, ca) :: l1', _, hhd =>
              exact ⟨ca, l1', by rw [show ka = k2 from by simpa using hhd]⟩
          have hrw : hdRw key ((k2, ca) :: l1') = (k2, ca) :: l1' := by
            rw [hdRw_cons, Nat.min_eq_left hk2key]
          rw [hrw] at hchain
          refine ⟨hbool, by simp, ?_, by simpa using hlen, ?_⟩
          · show assocEnts ((k, c) :: (k2, ca) :: l1')
                = (leafInsert (assocEnts ((k, c) :: (k2, c2) :: rest2)) key v).1
            rw [show assocEnts ((k, c) :: (k2, ca) :: l1')
                = c.assoc ++ assocEnts ((k2, ca) :: l1') from rfl]
            rw [show assocEnts ((k, c) :: (k2, c2) :: rest2)
                = c.assoc ++ assocEnts ((k2, c2) :: rest2) from rfl]
            cases hdup : ((assocEnts ((k2, c2) :: rest2)).any fun e => e.1 = key) with
            | true =>
              rw [leafInsert_pos hdup] at hassoc
              rw [leafInsert_pos (by rw [List.any_append, hcany, hdup]; rfl)]
              rw [hassoc]
            | false =>
              rw [leafInsert_neg hdup] at hassoc
              rw [leafInsert_neg (by rw [List.any_append, hcany, hdup]; rfl)]
              rw [hassoc, entIns_append_right _ _ _ _ hAlt]
          · rw [hdRw_cons]
            rw [entsInv_cons]
            simp only [entsHd]
            refine ⟨?_, ?_, ?_, ?_⟩
            · cases lo with
              | none => trivial
              | some g =>
                have : g ≤ k := hlok
                show min g key ≤ min k key
                omega
            · show min k key < k2
              omega
            · refine NodeInv_mono lm im h hc ?_ (fun x hx => hx)
              intro x hx
              have : (k : Nat) ≤ x := hx
              show min k key ≤ x
              omega
            · exact hchain
        | some sp =>
          obtain ⟨sk, sc⟩ := sp
          obtain ⟨htrue, A', B, hAB, hAne, hlens, hchainA, hsc, hltsk, hchainB, hglt,
            hcat⟩ := hrest
          rw [hlowk2] at hchainA hglt
          have hk2sk : k2 < sk := hglt k2 rfl
          obtain ⟨ca, A'', rfl⟩ : ∃ ca A'', A' = (k2, ca) :: A'' := by
            have hhd2 := hhd
            rw [hAB] at hhd2
            match A', hAne, hhd2 with
            | (ka, ca) :: A'', _, hhd2 =>
              exact ⟨ca, A'', by rw [show ka = k2 from by simpa using hhd2]⟩
          have hrwA : hdRw key ((k2, ca) :: A'') = (k2, ca) :: A'' := by
            rw [hdRw_cons, Nat.min_eq_left hk2key]
          rw [hrwA] at hchainA
          refine ⟨hbool, by simp, htrue, (k, c) :: (k2, ca) :: A'', B,
            (by rw [hAB]; rfl), by simp, ?_, ?_, hsc, hltsk, hchainB, ?_, ?_⟩
          · have h4 := hlens
            simp only [List.length_cons] at h4 ⊢
            omega
          · rw [hdRw_cons]
            rw [entsInv_cons]
            simp only [entsHd]
            refine ⟨?_, ?_, ?_, hchainA⟩
            · cases lo with
              | none => trivial
              | some g =>
                have : g ≤ k := hlok
                show min g key ≤ min k key
                omega
            · show min k key < k2
              omega
            · refine NodeInv_mono lm im h hc ?_ (fun x hx => hx)
              intro x hx
              have : (k : Nat) ≤ x := hx
              show min k key ≤ x
              omega
          · intro g hg
            cases lo with
            | none => cases hg
            | some g0 =>
              have hgk : g0 ≤ k := hlok
              have hg2 : min g0 key = g := by
                have h3 := hg
                simp only [lowKey, Option.some.injEq] at h3
                exact h3
              omega
          · show assocEnts ((k, c) :: (k2, ca) :: A'') ++ sc.assoc ++ assocEnts B
                = entIns (assocEnts ((k, c) :: (k2, c2) :: rest2)) key v
            rw [show assocEnts ((k, c) :: (k2, ca) :: A'')
                = c.assoc ++ assocEnts ((k2, ca) :: A'') from rfl]
            rw [show assocEnts ((k, c) :: (k2, c2) :: rest2)
                = c.assoc ++ assocEnts ((k2, c2) :: rest2) from rfl]
            rw [entIns_append_right _ _ _ _ hAlt, ← hcat]
            simp only [List.append_assoc]

/-- Correctness of `insNode`: the C++ `Insert` path below one node
(`FindLeafMut` descent, leaf `Insert`, `Split` propagation). -/
theorem insNode_spec (lm im : Nat) (hlm : 2 ≤ lm) (him : 2 ≤ im) :
    ∀ (h : Nat) (lo hi : Option Nat) (t : Node) (key v : Nat),
      InsPre lm im h lo hi t → ltOpt key hi →
      InsNodeConcl lm im h lo hi t key v (insNode lm im t key v) := by
  intro h
  induction h with
  | zero =>
    intro lo hi t key v hpre hkey
    match t with
    | .inner _ => exact hpre.elim
    | .leaf es =>
      obtain ⟨hwf, hub⟩ := hpre
      cases hdup : (es.any fun e => e.1 = key) with
      | true =>
        have eqL : insNode lm im (Node.leaf es) key v = (Node.leaf es, false, none) := by
          simp [insNode, leafInsert_pos hdup]
        rw [eqL]
        refine ⟨?_, ?_, ?_, ?_⟩
        · show false = !(es.any fun e => e.1 = key)
          rw [hdup]
          rfl
        · show es = (leafInsert es key v).1
          rw [leafInsert_pos hdup]
        · intro _
          refine ⟨⟨hwf.1, ?_⟩, hub⟩
          intro e he
          exact ⟨leOpt_lowKey_of (hwf.2 e he).1, (hwf.2 e he).2⟩
        · exact le_refl _
      | false =>
        have habs : ∀ e ∈ es, e.1 ≠ key := by
          intro e he
          have h2 := List.any_eq_false.mp hdup e he
          simpa using h2
        have hLI := leafInsert_neg (v := v) hdup
        have hLlen : (entIns es key v).length = es.length + 1 := entIns_length es key v
        have hLwf : leafWF (lowKey lo key) hi (entIns es key v) :=
          leafWF_entIns hwf habs hkey
        by_cases hfit : (entIns es key v).length < lm
        · have eqL : insNode lm im (Node.leaf es) key v
              = (Node.leaf (entIns es key v), true, none) := by
            simp [insNode, hLI, hfit]
          rw [eqL]
          refine ⟨?_, ?_, ?_, ?_⟩
          · show true = !(es.any fun e => e.1 = key)
            rw [hdup]
            rfl
          · show entIns es key v = (leafInsert es key v).1
            rw [hLI]
          · intro _
            exact ⟨hLwf, by omega⟩
          · show es.length ≤ (entIns es key v).length
            omega
        · have eqL : insNode lm im (Node.leaf es) key v
              = (Node.leaf ((entIns es key v).take
                  (((entIns es key v).length + 1) / 2)), true,
                 some ((((entIns es key v).drop
                     (((entIns es key v).length + 1) / 2)).headD (0, 0)).1,
                   Node.leaf ((entIns es key v).drop
                     (((entIns es key v).length + 1) / 2)))) := by
            simp [insNode, hLI, hfit]
          rw [eqL]
          have hoff0 : 0 < ((entIns es key v).length + 1) / 2 := by omega
          have hofflt : ((entIns es key v).length + 1) / 2 < (entIns es key v).length := by
            omega
          have hsp := leafWF_split hLwf (((entIns es key v).length + 1) / 2) hoff0 hofflt
          refine ⟨?_, rfl, ?_, ?_, ?_, ?_, ?_⟩
          · show true = !(es.any fun e => e.1 = key)
            rw [hdup]
            rfl
          · refine ⟨hsp.1, ?_, ?_⟩
            · simp only [List.length_take]
              omega
            · simp only [List.length_take]
              omega
          · refine ⟨hsp.2.1, ?_, ?_⟩
            · simp only [List.length_drop]
              omega
            · simp only [List.length_drop]
              omega
          · exact hsp.2.2.1
          · exact hsp.2.2.2
          · show (entIns es key v).take (((entIns es key v).length + 1) / 2)
                ++ (entIns es key v).drop (((entIns es key v).length + 1) / 2)
                = entIns es key v
            exact List.take_append_drop _ _
  | succ h ih =>
    intro lo hi t key v hpre hkey
    match t with
    | .leaf _ => exact hpre.elim
    | .inner es =>
      obtain ⟨hents, h1, hub⟩ := hpre
      have hesne : es ≠ [] := by
        intro h0
        rw [h0] at h1
        simp at h1
      have hE := insEnts_spec lm im h ih (by omega) lo hi es key v hents hesne hkey
      rcases hr0 : insEnts lm im es key v with ⟨l1, b1, o1⟩
      rw [hr0] at hE
      obtain ⟨hb, hhd, hrest⟩ := hE
      cases o1 with
      | none =>
        have eqI : insNode lm im (Node.inner es) key v
            = (Node.inner (hdRw key l1), b1, none) := by
          simp [insNode, hr0]
        rw [eqI]
        obtain ⟨hassoc, hlen, hchain⟩ := hrest
        refine ⟨?_, ?_, ?_, ?_⟩
        · exact hb
        · show assocEnts (hdRw key l1) = (leafInsert (assocEnts es) key v).1
          rw [assocEnts_hdRw]
          exact hassoc
        · intro _
          refine ⟨hchain, ?_, ?_⟩
          · rw [hdRw_length, hlen]
            omega
          · rw [hdRw_length, hlen]
            omega
        · show es.length ≤ (hdRw key l1).length
          rw [hdRw_length, hlen]
      | some sp =>
        obtain ⟨sk, sc⟩ := sp
        obtain ⟨htrue, A, B, hAB, hAne, hlens, hchainA, hsc, hltsk, hchainB, hglt,
          hcat⟩ := hrest
        have hrwlen : (hdRw key A).length = A.length := hdRw_length key A
        have hAne' : hdRw key A ≠ [] := by
          match A, hAne with
          | (ka, ca) :: A', _ =>
            rw [hdRw_cons]
            simp
        have hAlt : ∀ e ∈ hdRw key A, e.1 < sk := fun e he =>
          entsInv_key_lt_hi hchainA e he
        have hBge : ∀ e ∈ B, ¬ e.1 < sk := by
          intro e he
          have h2 : (sk : Nat) ≤ e.1 := entsInv_keys_ge hchainB e he
          omega
        have hAB' : l1 = A ++ B := hAB
        have hIns : innerInsert (hdRw key l1) sk sc = hdRw key A ++ (sk, sc) :: B := by
          rw [hAB', hdRw_append key A B hAne]
          exact entIns_append _ _ sk sc hAlt hBge
        have hchainFull : entsInv (NodeInv lm im h) (lowKey lo key) hi
            (hdRw key A ++ (sk, sc) :: B) :=
          entsInv_chain_append hsc hltsk hchainB hAne' hchainA
        have hlenFull : (hdRw key A ++ (sk, sc) :: B).length = es.length + 1 := by
          simp only [List.length_append, List.length_cons, hrwlen]
          omega
        have hassocFull : assocEnts (hdRw key A ++ (sk, sc) :: B)
            = entIns (assocEnts es) key v := by
          rw [assocEnts_append, assocEnts_hdRw]
          rw [show assocEnts ((sk, sc) :: B) = sc.assoc ++ assocEnts B from rfl]
          rw [← List.append_assoc]
          exact hcat
        have hanyfalse : ((assocEnts es).any fun e => e.1 = key) = false := by
          rw [htrue] at hb
          cases ha : ((assocEnts es).any fun e => e.1 = key) with
          | false => rfl
          | true =>
            rw [ha] at hb
            simp at hb
        have eqI0 : insNode lm im (Node.inner es) key v
            = (if (innerInsert (hdRw key l1) sk sc).length < im + 1
               then (Node.inner (innerInsert (hdRw key l1) sk sc), b1, none)
               else (Node.inner ((innerInsert (hdRw key l1) sk sc).take
                       (((innerInsert (hdRw key l1) sk sc).length + 1) / 2)), b1,
                     some ((((innerInsert (hdRw key l1) sk sc).drop
                         (((innerInsert (hdRw key l1) sk sc).length + 1) / 2)).headD
                         (0, Node.leaf [])).1,
                       Node.inner ((innerInsert (hdRw key l1) sk sc).drop
                         (((innerInsert (hdRw key l1) sk sc).length + 1) / 2))))) := by
          simp [insNode, hr0]
        rw [hIns] at eqI0
        by_cases hfit : (hdRw key A ++ (sk, sc) :: B).length < im + 1
        · rw [if_pos hfit] at eqI0
          rw [eqI0]
          refine ⟨?_, ?_, ?_, ?_⟩
          · exact hb
          · show assocEnts (hdRw key A ++ (sk, sc) :: B)
                = (leafInsert (assocEnts es) key v).1
            rw [hassocFull, leafInsert_neg hanyfalse]
          · intro _
            refine ⟨hchainFull, ?_, ?_⟩
            · rw [hlenFull]
              omega
            · rw [hlenFull]
              omega
          · show es.length ≤ (hdRw key A ++ (sk, sc) :: B).length
            rw [hlenFull]
            omega
        · rw [if_neg hfit] at eqI0
          rw [eqI0]
          rw [hlenFull] at hfit
          have hX1 : (hdRw key A ++ (sk, sc) :: B).length = es.length + 1 := hlenFull
          have hoff0 : 0 < (((hdRw key A ++ (sk, sc) :: B).length + 1) / 2) := by
            rw [hX1]
            omega
          have hofflt : (((hdRw key A ++ (sk, sc) :: B).length + 1) / 2)
              < (hdRw key A ++ (sk, sc) :: B).length := by
            rw [hX1]
            omega
          have hTD := List.take_append_drop
            (((hdRw key A ++ (sk, sc) :: B).length + 1) / 2) (hdRw key A ++ (sk, sc) :: B)
          have hchainTD : entsInv (NodeInv lm im h) (lowKey lo key) hi
              (((hdRw key A ++ (sk, sc) :: B).take
                  (((hdRw key A ++ (sk, sc) :: B).length + 1) / 2))
               ++ ((hdRw key A ++ (sk, sc) :: B).drop
                  (((hdRw key A ++ (sk, sc) :: B).length + 1) / 2))) := by
            rw [hTD]
            exact hchainFull
          have hdroplen : ((hdRw key A ++ (sk, sc) :: B).drop
              (((hdRw key A ++ (sk, sc) :: B).length + 1) / 2)).length
              = (hdRw key A ++ (sk, sc) :: B).length
                - (((hdRw key A ++ (sk, sc) :: B).length + 1) / 2) := by
            simp
          obtain ⟨ka, ca, Y', hY⟩ : ∃ ka ca Y',
              (hdRw key A ++ (sk, sc) :: B).drop
                (((hdRw key A ++ (sk, sc) :: B).length + 1) / 2) = (ka, ca) :: Y' := by
            match hYm : (hdRw key A ++ (sk, sc) :: B).drop
                (((hdRw key A ++ (sk, sc) :: B).length + 1) / 2) with
            | [] =>
              rw [hYm] at hdroplen
              simp at hdroplen
              omega
            | (ka, ca) :: Y' => exact ⟨ka, ca, Y', rfl⟩
          have htakelen : ((hdRw key A ++ (sk, sc) :: B).take
              (((hdRw key A ++ (sk, sc) :: B).length + 1) / 2)).length
              = (((hdRw key A ++ (sk, sc) :: B).length + 1) / 2) := by
            simp
            omega
          obtain ⟨kb, cb, T', hT⟩ : ∃ kb cb T',
              (hdRw key A ++ (sk, sc) :: B).take
                (((hdRw key A ++ (sk, sc) :: B).length + 1) / 2) = (kb, cb) :: T' := by
            match hTm : (hdRw key A ++ (sk, sc) :: B).take
                (((hdRw key A ++ (sk, sc) :: B).length + 1) / 2) with
            | [] =>
              rw [hTm] at htakelen
              simp at htakelen
              omega
            | (kb, cb) :: T' => exact ⟨kb, cb, T', rfl⟩
          have hpreC := entsInv_prefix hchainTD
          have hsufC := entsInv_suffix hchainTD
          have hentsHd : entsHd hi ((hdRw key A ++ (sk, sc) :: B).drop
              (((hdRw key A ++ (sk, sc) :: B).length + 1) / 2)) = some ka := by
            simp only [hY, entsHd]
          rw [hentsHd] at hpreC hsufC
          have hkahd : (((hdRw key A ++ (sk, sc) :: B).drop
              (((hdRw key A ++ (sk, sc) :: B).length + 1) / 2)).headD
              (0, Node.leaf [])).1 = ka := by
            rw [hY]
            rfl
          rw [hkahd]
          refine ⟨?_, htrue, ?_, ?_, ?_, ?_, ?_⟩
          · exact hb
          · refine ⟨hpreC, ?_, ?_⟩
            · rw [htakelen, hX1]
              omega
            · rw [htakelen, hX1]
              omega
          · refine ⟨hsufC, ?_, ?_⟩
            · rw [hdroplen, hX1]
              omega
            · rw [hdroplen, hX1]
              omega
          · intro g hg
            have hkb1 : leOpt (lowKey lo key) kb := by
              have := hpreC
              rw [hT, entsInv_cons] at this
              exact this.1
            have hkb2 : kb < ka := by
              have := entsInv_key_lt_hi hpreC (kb, cb) (by rw [hT]; exact List.mem_cons_self _ _)
              exact this
            rw [hg] at hkb1
            have : g ≤ kb := hkb1
            omega
          · exact entsInv_key_lt_hi hsufC (ka, ca) (by rw [hY]; exact List.mem_cons_self _ _)
          · show assocEnts ((hdRw key A ++ (sk, sc) :: B).take
                  (((hdRw key A ++ (sk, sc) :: B).length + 1) / 2))
                ++ assocEnts ((hdRw key A ++ (sk, sc) :: B).drop
                  (((hdRw key A ++ (sk, sc) :: B).length + 1) / 2))
                = entIns (assocEnts es) key v
            rw [← assocEnts_append, hTD]
            exact hassocFull

/-- Rebuilding the root invariant from the relaxed one plus the entry
count an internal root keeps. -/
theorem RootInv_of_InsPre (lm im : Nat) :
    ∀ (h : Nat) {t : Node}, InsPre lm im h none none t →
      (∀ es, t = Node.inner es → 2 ≤ es.length) → RootInv lm im h t := by
  intro h t hp hlen
  match h, t with
  | 0, .leaf es => exact ⟨hp.1, hp.2⟩
  | 0, .inner _ => exact hp.elim
  | _ + 1, .leaf _ => exact hp.elim
  | h + 1, .inner es => exact ⟨hp.1, hlen es rfl, hp.2.2⟩

/-- Correctness of `BPlusTree::Insert` on a nonempty tree: the
invariant is preserved, the boolean reports key absence, and the leaf
view gains the entry. -/
theorem insertTree_sound (lm im : Nat) (hlm : 2 ≤ lm) (him : 2 ≤ im)
    (h : Nat) (t0 : Node) (key v : Nat) (hpre : InsPre lm im h none none t0)
    (h2 : ∀ es, t0 = Node.inner es → 2 ≤ es.length) :
    TreeInv lm im (insertTree lm im (some t0) key v).1 ∧
    (insertTree lm im (some t0) key v).2 = !(t0.assoc.any fun e => e.1 = key) ∧
    treeAssoc (insertTree lm im (some t0) key v).1 = (leafInsert t0.assoc key v).1 := by
  have hconc := insNode_spec lm im hlm him h none none t0 key v hpre trivial
  rcases hr : insNode lm im t0 key v with ⟨n1, b1, o1⟩
  rw [hr] at hconc
  obtain ⟨hb, hrest⟩ := hconc
  cases o1 with
  | none =>
    have eqT : insertTree lm im (some t0) key v = (some n1, b1) := by
      simp [insertTree, hr]
    rw [eqT]
    obtain ⟨hassoc, hpre2, hlen⟩ := hrest
    refine ⟨⟨h, ?_⟩, hb, hassoc⟩
    refine RootInv_of_InsPre lm im h (hpre2 hpre) ?_
    intro es' hes'
    cases h with
    | zero =>
      have hP := hpre2 hpre
      rw [hes'] at hP
      exact False.elim hP
    | succ h0 =>
      cases t0 with
      | leaf es0 => exact False.elim hpre
      | inner es0 =>
        have h22 := h2 es0 rfl
        have hl := hlen
        rw [hes'] at hl
        simp only [Node.len] at hl
        omega
  | some sp =>
    obtain ⟨sk, sc⟩ := sp
    obtain ⟨htrue, hlft, hrgt, hglt, -, hcat⟩ := hrest
    have hk0 : n1.keyAt0 < sk := keyAt0_lt_of_NodeInv lm im hlm (by omega) h hlft
    have e1 : innerInsert [] n1.keyAt0 n1 = [(n1.keyAt0, n1)] := entIns_nil _ _
    have e2 : innerInsert [(n1.keyAt0, n1)] sk sc = [(n1.keyAt0, n1), (sk, sc)] := by
      have h3 := entIns_append [(n1.keyAt0, n1)] [] sk sc
        (by
          intro e he
          rcases List.mem_singleton.mp he with rfl
          exact hk0)
        (by intro e he; cases he)
      simpa using h3
    have eqT : insertTree lm im (some t0) key v
        = (some (Node.inner [(n1.keyAt0, n1), (sk, sc)]), b1) := by
      simp [insertTree, hr, e1, e2]
    rw [eqT]
    have hany : (t0.assoc.any fun e => e.1 = key) = false := by
      rw [htrue] at hb
      cases ha : (t0.assoc.any fun e => e.1 = key) with
      | false => rfl
      | true =>
        rw [ha] at hb
        simp at hb
    refine ⟨⟨h + 1, ?_, ?_, ?_⟩, hb, ?_⟩
    · rw [entsInv_cons]
      simp only [entsHd]
      refine ⟨trivial, hk0, ?_, ?_⟩
      · exact NodeInv_tighten_keyAt0 lm im h hlft
      · rw [entsInv_cons]
        simp only [entsHd]
        exact ⟨le_refl sk, trivial, hrgt, trivial⟩
    · simp
    · simp
      omega
    · show assocEnts [(n1.keyAt0, n1), (sk, sc)] = (leafInsert t0.assoc key v).1
      rw [leafInsert_neg hany]
      simpa [assocEnts] using hcat

/-- Correctness of `BPlusTree::Insert` at the tree level, including the
fresh-root path for an empty tree. -/
theorem insertTree_spec (lm im : Nat) (hlm : 2 ≤ lm) (him : 2 ≤ im)
    (root : Option Node) (key v : Nat) (ht : TreeInv lm im root) :
    TreeInv lm im (insertTree lm im root key v).1 ∧
    (insertTree lm im root key v).2 = !((treeAssoc root).any fun e => e.1 = key) ∧
    treeAssoc (insertTree lm im root key v).1 = (leafInsert (treeAssoc root) key v).1 := by
  cases root with
  | none =>
    have h0 : InsPre lm im 0 none none (Node.leaf []) :=
      ⟨⟨List.Pairwise.nil, by intro e he; cases he⟩, by simp⟩
    exact insertTree_sound lm im hlm him 0 (Node.leaf []) key v h0
      (by intro es hes; cases hes)
  | some t =>
    obtain ⟨h, hroot⟩ := ht
    refine insertTree_sound lm im hlm him h t key v (InsPre_of_RootInv lm im h hroot) ?_
    intro es hes
    cases h with
    | zero =>
      rw [hes] at hroot
      exact False.elim hroot
    | succ h0 =>
      rw [hes] at hroot
      exact hroot.2.1

/-! ### Insert sequences -/

/-- Running a list of inserts preserves the invariant and acts as the
matching sorted-list inserts on the tree's leaf view. -/
theorem insert_run (lm im : Nat) (hlm : 2 ≤ lm) (him : 2 ≤ im) :
    ∀ (ps : List (Nat × Nat)) (root : Option Node), TreeInv lm im root →
      TreeInv lm im (ps.foldl (fun r p => (insertTree lm im r p.1 p.2).1) root) ∧
      treeAssoc (ps.foldl (fun r p => (insertTree lm im r p.1 p.2).1) root)
        = ps.foldl (fun as p => (leafInsert as p.1 p.2).1) (treeAssoc root) := by
  intro ps
  induction ps with
  | nil => intro root ht; exact ⟨ht, rfl⟩
  | cons p ps ih =>
    intro root ht
    obtain ⟨h1, h2, h3⟩ := insertTree_spec lm im hlm him root p.1 p.2 ht
    have hI := ih _ h1
    simp only [List.foldl_cons]
    exact ⟨hI.1, by rw [hI.2, h3]⟩

/-- `leafInsert` never loses an entry. -/
theorem mem_leafFold_preserve :
    ∀ (ps as : List (Nat × Nat)) (e : Nat × Nat), e ∈ as →
      e ∈ ps.foldl (fun as p => (leafInsert as p.1 p.2).1) as := by
  intro ps
  induction ps with
  | nil => intro as e he; exact he
  | cons p ps ih =>
    intro as e he
    simp only [List.foldl_cons]
    refine ih _ e ?_
    cases hd : (as.any fun x => x.1 = p.1) with
    | true => rw [leafInsert_pos hd]; exact he
    | false => rw [leafInsert_neg hd]; exact mem_entIns.mpr (Or.inr he)

/-- Inserting pairwise-distinct fresh keys records every pair. -/
theorem mem_leafFold :
    ∀ (ps as : List (Nat × Nat)), (ps.map Prod.fst).Nodup →
      (∀ p ∈ ps, ∀ w, (p.1, w) ∉ as) →
      ∀ p ∈ ps, (p.1, p.2) ∈ ps.foldl (fun as p => (leafInsert as p.1 p.2).1) as := by
  intro ps
  induction ps with
  | nil => intro as _ _ p hp; cases hp
  | cons q ps ih =>
    intro as hnd hfresh p hp
    simp only [List.foldl_cons]
    have hanyf : (as.any fun x => x.1 = q.1) = false := by
      refine any_key_eq_false ?_
      intro e he hek
      have heq : (q.1, e.2) = e := by rw [← hek]
      exact hfresh q (List.mem_cons_self _ _) e.2 (heq ▸ he)
    simp only [List.map_cons] at hnd
    rcases List.mem_cons.mp hp with rfl | hp2
    · refine mem_leafFold_preserve ps _ _ ?_
      rw [leafInsert_neg hanyf]
      exact mem_entIns.mpr (Or.inl rfl)
    · refine ih _ (List.nodup_cons.mp hnd).2 ?_ p hp2
      intro r hr w hmem
      rw [leafInsert_neg hanyf] at hmem
      rcases mem_entIns.mp hmem with heq | hmem2
      · have hr1 : r.1 = q.1 := by simpa using congrArg Prod.fst heq
        exact (List.nodup_cons.mp hnd).1
          (by rw [← hr1]; exact List.mem_map.mpr ⟨r, hr, rfl⟩)
      · exact hfresh r (List.mem_cons_of_mem _ hr) w hmem2

/-- The boolean trail of a run of fresh, pairwise-distinct inserts. -/
theorem insertResults_go (lm im : Nat) (hlm : 2 ≤ lm) (him : 2 ≤ im) :
    ∀ (ps : List (Nat × Nat)) (root : Option Node) (acc : List Bool),
      TreeInv lm im root →
      (∀ p ∈ ps, ∀ w, (p.1, w) ∉ treeAssoc root) →
      (ps.map Prod.fst).Nodup →
      (ps.foldl (fun (acc : Option Node × List Bool) p =>
        let r := insertTree lm im acc.1 p.1 p.2
        (r.1, acc.2 ++ [r.2])) (root, acc)).2 = acc ++ ps.map (fun _ => true) := by
  intro ps
  induction ps with
  | nil => intro root acc _ _ _; simp
  | cons p ps ih =>
    intro root acc ht hfresh hnd
    obtain ⟨h1, h2, h3⟩ := insertTree_spec lm im hlm him root p.1 p.2 ht
    have hanyf : ((treeAssoc root).any fun e => e.1 = p.1) = false := by
      refine any_key_eq_false ?_
      intro e he hek
      have heq : (p.1, e.2) = e := by rw [← hek]
      exact hfresh p (List.mem_cons_self _ _) e.2 (heq ▸ he)
    have hb : (insertTree lm im root p.1 p.2).2 = true := by
      rw [h2, hanyf]
      rfl
    simp only [List.map_cons] at hnd
    simp only [List.foldl_cons]
    show (ps.foldl _ ((insertTree lm im root p.1 p.2).1,
        acc ++ [(insertTree lm im root p.1 p.2).2])).2 = _
    rw [hb]
    have hfresh2 : ∀ q ∈ ps, ∀ w,
        (q.1, w) ∉ treeAssoc (insertTree lm im root p.1 p.2).1 := by
      intro q hq w hmem
      rw [h3, leafInsert_neg hanyf] at hmem
      rcases mem_entIns.mp hmem with heq | hmem2
      · have hq1 : q.1 = p.1 := by simpa using congrArg Prod.fst heq
        exact (List.nodup_cons.mp hnd).1
          (by rw [← hq1]; exact List.mem_map.mpr ⟨q, hq, rfl⟩)
      · exact hfresh q (List.mem_cons_of_mem _ hq) w hmem2
    rw [ih _ _ h1 hfresh2 (List.nodup_cons.mp hnd).2]
    simp

/-- C1: a run of inserts with pairwise-distinct keys from the empty
tree returns `true` for every insert, `get_value` then recovers every
inserted pair, and inserting an already-present key returns `false`. -/
theorem C1_insert_get (lm im : Nat) (hlm : 2 ≤ lm) (him : 2 ≤ im)
    (ps : List (Nat × Nat)) (hnd : (ps.map Prod.fst).Nodup) :
    insertResults lm im ps = ps.map (fun _ => true) ∧
    (∀ p ∈ ps, getTree (insertAll lm im ps) p.1 = some p.2) ∧
    (∀ (root : Option Node) (k w v : Nat), TreeInv lm im root →
      getTree root k = some w → (insertTree lm im root k v).2 = false) := by
  refine ⟨?_, ?_, ?_⟩
  · have hgo := insertResults_go lm im hlm him ps none [] trivial
      (by intro p hp w hmem; simp [treeAssoc] at hmem) hnd
    exact hgo
  · intro p hp
    have hrun := insert_run lm im hlm him ps none trivial
    have hmem := mem_leafFold ps [] hnd (by intro q hq w hmem; cases hmem) p hp
    have hti : TreeInv lm im (insertAll lm im ps) := hrun.1
    have hmem2 : (p.1, p.2) ∈ treeAssoc (insertAll lm im ps) := by
      show (p.1, p.2) ∈ treeAssoc
        (ps.foldl (fun r p => (insertTree lm im r p.1 p.2).1) none)
      rw [hrun.2]
      exact hmem
    rcases hAll : insertAll lm im ps with _ | t
    · rw [hAll] at hmem2
      simp [treeAssoc] at hmem2
    · rw [hAll] at hmem2 hti
      obtain ⟨h, hroot⟩ := hti
      exact mem_rootGetValue lm im h t p.1 p.2 hroot hmem2
  · intro root k w v htI hg
    cases root with
    | none => simp [getTree] at hg
    | some t =>
      obtain ⟨h, hroot⟩ := htI
      have hmem := rootGetValue_mem lm im h t k w hroot hg
      have hspec := insertTree_spec lm im hlm him (some t) k v ⟨h, hroot⟩
      rw [hspec.2.1]
      have hany : ((treeAssoc (some t)).any fun e => e.1 = k) = true :=
        List.any_eq_true.mpr ⟨(k, w), hmem, by simp⟩
      rw [hany]
      rfl

/-- C1 witness: a concrete three-insert run. -/
theorem C1_insert_get_witness :
    getTree (insertAll 3 3 [(1, 10), (2, 20), (3, 30)]) 2 = some 20 :=
  (C1_insert_get 3 3 (by omega) (by omega) [(1, 10), (2, 20), (3, 30)]
    (by decide)).2.1 (2, 20) (by decide)

/-! ### Removal from a leaf view -/

theorem leafRemove_absent : ∀ {es : List (Nat × Nat)} {key : Nat},
    (∀ e ∈ es, e.1 ≠ key) → leafRemove es key = (es, false) := by
  intro es
  induction es with
  | nil => intro key _; rfl
  | cons e0 rest ih =>
    obtain ⟨k1, v1⟩ := e0
    intro key habs
    have hk1 : k1 ≠ key := habs (k1, v1) (List.mem_cons_self _ _)
    show (if k1 = key then (rest, true)
      else ((k1, v1) :: (leafRemove rest key).1, (leafRemove rest key).2)) = _
    rw [if_neg hk1, ih (fun e he => habs e (List.mem_cons_of_mem _ he))]

theorem leafRemove_append_absent : ∀ {A X : List (Nat × Nat)} {key : Nat},
    (∀ e ∈ A, e.1 ≠ key) →
    leafRemove (A ++ X) key = (A ++ (leafRemove X key).1, (leafRemove X key).2) := by
  intro A
  induction A with
  | nil => intro X key _; rfl
  | cons e0 A' ih =>
    obtain ⟨k1, v1⟩ := e0
    intro X key habs
    have hk1 : k1 ≠ key := habs (k1, v1) (List.mem_cons_self _ _)
    show (if k1 = key then (A' ++ X, true)
      else ((k1, v1) :: (leafRemove (A' ++ X) key).1, (leafRemove (A' ++ X) key).2)) = _
    rw [if_neg hk1, ih (fun e he => habs e (List.mem_cons_of_mem _ he))]
    rfl

/-- Removing a key present in a sorted leaf view: the view splits
around the unique matching entry and the removal drops it. -/
theorem leafRemove_sorted {lo hi : Option Nat} {es : List (Nat × Nat)} {key w : Nat}
    (hwf : leafWF lo hi es) (hmem : (key, w) ∈ es) :
    ∃ A B, es = A ++ (key, w) :: B ∧ leafRemove es key = (A ++ B, true) ∧
      (∀ e ∈ A, e.1 < key) ∧ (∀ e ∈ B, key < e.1) := by
  obtain ⟨A, B, rfl⟩ := List.append_of_mem hmem
  have hp := hwf.1
  rw [List.pairwise_append] at hp
  have hA : ∀ e ∈ A, e.1 < key :=
    fun e he => hp.2.2 e he (key, w) (List.mem_cons_self _ _)
  have hB : ∀ e ∈ B, key < e.1 := by
    intro e he
    exact (List.pairwise_cons.mp hp.2.1).1 e he
  refine ⟨A, B, rfl, ?_, hA, hB⟩
  have hx : leafRemove ((key, w) :: B) key = (B, true) := by
    show (if key = key then (B, true)
      else ((key, w) :: (leafRemove B key).1, (leafRemove B key).2)) = _
    rw [if_pos rfl]
  rw [leafRemove_append_absent (fun e he => by have := hA e he; omega), hx]

/-! ### Positional surgery on entry lists -/

theorem getD_append_length {α : Type} : ∀ (P : List α) (x : α) (S : List α) (d : α),
    (P ++ x :: S).getD P.length d = x := by
  intro P
  induction P with
  | nil => intro x S d; rfl
  | cons a P' ih => intro x S d; exact ih x S d

theorem set_append_length {α : Type} : ∀ (P : List α) (x y : α) (S : List α),
    (P ++ x :: S).set P.length y = P ++ y :: S := by
  intro P
  induction P with
  | nil => intro x y S; rfl
  | cons a P' ih =>
    intro x y S
    show a :: (P' ++ x :: S).set P'.length y = _
    rw [ih x y S]
    rfl

theorem eraseIdx_append_length {α : Type} : ∀ (P : List α) (x : α) (S : List α),
    (P ++ x :: S).eraseIdx P.length = P ++ S := by
  intro P
  induction P with
  | nil => intro x S; rfl
  | cons a P' ih =>
    intro x S
    show a :: (P' ++ x :: S).eraseIdx P'.length = _
    rw [ih x S]
    rfl

theorem innerRemoveIdx_at (P : List (Nat × Node)) (x : Nat × Node) (S : List (Nat × Node)) :
    innerRemoveIdx (P ++ x :: S) P.length = P ++ S := by
  rw [innerRemoveIdx, if_pos (by simp only [List.length_append, List.length_cons]; omega)]
  exact eraseIdx_append_length P x S

/-- Gluing a chain prefix onto a suffix chain starting at its own head
key, when the prefix's upper bound is that head key. -/
theorem entsInv_append_gen {P : Option Nat → Option Nat → Node → Prop}
    {hi : Option Nat} {Y : List (Nat × Node)}
    (hY : entsInv P (entsHd hi Y) hi Y) :
    ∀ {lo : Option Nat} {X : List (Nat × Node)},
      (∀ k2, entsHd hi Y = some k2 → leOpt lo k2) →
      entsInv P lo (entsHd hi Y) X → entsInv P lo hi (X ++ Y) := by
  intro lo X
  induction X generalizing lo with
  | nil =>
    intro hlo _
    simp only [List.nil_append]
    match Y, hY, hlo with
    | [], _, _ => trivial
    | (k2, c2) :: Y', hY, hlo =>
      rw [entsInv_cons] at hY
      rw [entsInv_cons]
      exact ⟨hlo k2 rfl, hY.2.1, hY.2.2.1, hY.2.2.2⟩
  | cons e0 X' ih =>
    obtain ⟨k, c⟩ := e0
    intro hlo h
    rw [entsInv_cons] at h
    rw [List.cons_append, entsInv_cons, entsHd_append hi X' Y]
    refine ⟨h.1, h.2.1, h.2.2.1, ?_⟩
    refine ih ?_ h.2.2.2
    intro k2 hk2
    match X' with
    | [] =>
      show leOpt (entsHd hi Y) k2
      rw [hk2]
      exact le_refl k2
    | (k3, c3) :: X'' =>
      show leOpt (some k3) k2
      have h3 := entsInv_key_lt_hi h.2.2.2 (k3, c3) (List.mem_cons_self _ _)
      rw [hk2] at h3
      exact le_of_lt h3

/-- Which child slot the descent loops choose: the entry list splits at
the chosen slot, every separator key skipped lies at or below the key,
and the next separator (if any) lies above it. -/
theorem chooseIdx_split : ∀ (es : List (Nat × Node)) (key : Nat), es ≠ [] →
    ∃ Pfx k c Sfx, es = Pfx ++ (k, c) :: Sfx ∧
      chooseIdx (es.map Prod.fst) key = Pfx.length ∧
      (∀ e ∈ Pfx.tail, e.1 ≤ key) ∧ (Pfx ≠ [] → k ≤ key) ∧
      (∀ d, Sfx ≠ [] → key < (Sfx.headD d).1) := by
  intro es
  induction es with
  | nil => intro key hne; exact absurd rfl hne
  | cons e0 rest ih =>
    obtain ⟨k, c⟩ := e0
    intro key _
    match rest with
    | [] =>
      refine ⟨[], k, c, [], rfl, rfl, ?_, ?_, ?_⟩
      · intro e he; cases he
      · intro h0; exact absurd rfl h0
      · intro d h0; exact absurd rfl h0
    | (k2, c2) :: rest2 =>
      by_cases hlt : key < k2
      · refine ⟨[], k, c, (k2, c2) :: rest2, rfl, ?_, ?_, ?_, ?_⟩
        · show chooseIdx (k :: k2 :: List.map Prod.fst rest2) key = 0
          simp only [chooseIdx, if_pos hlt]
        · intro e he; cases he
        · intro h0; exact absurd rfl h0
        · intro d _; exact hlt
      · obtain ⟨Pfx', k', c', Sfx', heq, hidx, htail, hhd, hnext⟩ :=
          ih key (by simp)
        refine ⟨(k, c) :: Pfx', k', c', Sfx', by rw [List.cons_append, ← heq], ?_, ?_,
          ?_, hnext⟩
        · show chooseIdx (k :: k2 :: List.map Prod.fst rest2) key = Pfx'.length + 1
          have e1 : chooseIdx (k :: k2 :: List.map Prod.fst rest2) key
              = if key < k2 then 0
                else chooseIdx (k2 :: List.map Prod.fst rest2) key + 1 := rfl
          rw [e1, if_neg hlt]
          have e2 : ((k2, c2) :: rest2).map Prod.fst
              = k2 :: List.map Prod.fst rest2 := rfl
          rw [← e2, hidx]
        · intro e he
          have he2 : e ∈ Pfx' := by simpa using he
          match Pfx', heq, he2 with
          | [], _, he2 => cases he2
          | (p0k, p0c) :: P'', heq, he2 =>
            have hp0k : p0k = k2 := by
              simp only [List.cons_append] at heq
              injection heq with h1 h2
              injection h1 with ha hb
              exact ha.symm
            rcases List.mem_cons.mp he2 with rfl | he3
            · show p0k ≤ key
              omega
            · exact htail e he3
        · intro _
          match Pfx', heq, hhd with
          | [], heq, _ =>
            simp only [List.nil_append] at heq
            have hk0 : k2 = k' := by
              have h5 := congrArg (fun l => (l.headD (0, Node.leaf [])).1) heq
              simpa using h5
            omega
          | (p0k, p0c) :: P'', _, hhd => exact hhd (by simp)

/-! ### Sibling rebalancing of leaves -/

theorem leafWF_mono {lo hi lo' hi' : Option Nat} {es : List (Nat × Nat)}
    (h : leafWF lo hi es) (hlo : ∀ k, leOpt lo k → leOpt lo' k)
    (hhi : ∀ k, ltOpt k hi → ltOpt k hi') : leafWF lo' hi' es :=
  ⟨h.1, fun e he => ⟨hlo _ (h.2 e he).1, hhi _ (h.2 e he).2⟩⟩

/-- Appending one strictly larger entry by `leafInsert`. -/
theorem leafInsert_concat {acc : List (Nat × Nat)} {bk bv : Nat}
    (h : ∀ e ∈ acc, e.1 < bk) : leafInsert acc bk bv = (acc ++ [(bk, bv)], true) := by
  have hany : (acc.any fun e => e.1 = bk) = false := by
    refine any_key_eq_false ?_
    intro e he
    have := h e he
    omega
  rw [leafInsert_neg hany]
  have h2 := entIns_append acc [] bk bv h (by intro e he; cases he)
  simp only [List.append_nil] at h2
  rw [h2]

/-- Folding `leafInsert` over larger sorted entries appends them. -/
theorem leafInsert_foldl_append : ∀ (R acc : List (Nat × Nat)),
    List.Pairwise (fun a b => a.1 < b.1) R → (∀ a ∈ acc, ∀ r ∈ R, a.1 < r.1) →
    R.foldl (fun acc e => (leafInsert acc e.1 e.2).1) acc = acc ++ R := by
  intro R
  induction R with
  | nil => intro acc _ _; simp
  | cons b R' ih =>
    intro acc hp hord
    obtain ⟨bk, bv⟩ := b
    simp only [List.foldl_cons]
    rw [leafInsert_concat (fun e he => hord e he (bk, bv) (List.mem_cons_self _ _))]
    rw [ih (acc ++ [(bk, bv)]) (List.pairwise_cons.mp hp).2 ?_]
    · simp
    · intro a ha r hr
      rcases List.mem_append.mp ha with ha | ha
      · exact hord a ha r (List.mem_cons_of_mem _ hr)
      · rcases List.mem_singleton.mp ha with rfl
        exact (List.pairwise_cons.mp hp).1 r hr

/-- Correctness of `BPlusTreeLeafPage::Merge`: entries are conserved,
a full merge empties the right page, and a borrow leaves both pages
well-formed around the new separator, all within the size bounds. -/
theorem leafMergeOp_spec (lm : Nat) (hlm : 2 ≤ lm) (lkl hiR : Option Nat) (kr : Nat)
    (left right : List (Nat × Nat))
    (hLwf : leafWF lkl (some kr) left) (hRwf : leafWF (some kr) hiR right)
    (hkrhi : ltOpt kr hiR) (hlkr : ∀ g, lkl = some g → g < kr)
    (hL1 : left.length ≤ lm) (hR1 : right.length ≤ lm)
    (hlow : (lm / 2 - 1 ≤ left.length ∧ lm / 2 ≤ right.length)
          ∨ (lm / 2 ≤ left.length ∧ lm / 2 - 1 ≤ right.length))
    (hstrict : left.length < minLeaf lm ∨ right.length < minLeaf lm) :
    (leafMergeOp lm left right).1 ++ (leafMergeOp lm left right).2.1 = left ++ right ∧
    ((leafMergeOp lm left right).2.2.2.2 = true →
      (leafMergeOp lm left right).2.1 = [] ∧
      (leafMergeOp lm left right).2.2.1
        = ((leafMergeOp lm left right).1.headD (0, 0)).1 ∧
      leafWF lkl hiR (leafMergeOp lm left right).1 ∧
      lm / 2 ≤ (leafMergeOp lm left right).1.length ∧
      (leafMergeOp lm left right).1.length ≤ lm) ∧
    ((leafMergeOp lm left right).2.2.2.2 = false →
      (leafMergeOp lm left right).2.2.1
        = ((leafMergeOp lm left right).1.headD (0, 0)).1 ∧
      (leafMergeOp lm left right).2.2.2.1
        = ((leafMergeOp lm left right).2.1.headD (0, 0)).1 ∧
      (leafMergeOp lm left right).1 ≠ [] ∧ (leafMergeOp lm left right).2.1 ≠ [] ∧
      leafWF lkl (some (leafMergeOp lm left right).2.2.2.1)
        (leafMergeOp lm left right).1 ∧
      leafWF (some (leafMergeOp lm left right).2.2.2.1) hiR
        (leafMergeOp lm left right).2.1 ∧
      lm / 2 ≤ (leafMergeOp lm left right).1.length ∧
      (leafMergeOp lm left right).1.length ≤ lm ∧
      lm / 2 ≤ (leafMergeOp lm left right).2.1.length ∧
      (leafMergeOp lm left right).2.1.length ≤ lm) := by
  have hLk : ∀ e ∈ left, e.1 < kr := fun e he => (hLwf.2 e he).2
  have hRk : ∀ e ∈ right, kr ≤ e.1 := fun e he => (hRwf.2 e he).1
  have hmin1 : 1 ≤ minLeaf lm := by
    unfold minLeaf minSize
    omega
  by_cases hbl : minLeaf lm < left.length
  · -- the left page donates its last entry
    have hRud : right.length < minLeaf lm := by
      rcases hstrict with h | h
      · omega
      · exact h
    rcases List.eq_nil_or_concat left with rfl | ⟨L', a, rfl⟩
    · simp at hbl
    obtain ⟨ak, av⟩ := a
    simp only [List.concat_eq_append] at hLwf hL1 hlow hstrict hLk hbl ⊢
    have hgd : (L' ++ [(ak, av)]).getD ((L' ++ [(ak, av)]).length - 1) (0, 0)
        = (ak, av) := by
      have hl : (L' ++ [(ak, av)]).length - 1 = L'.length := by
        simp
      rw [hl]
      exact getD_append_length L' (ak, av) [] (0, 0)
    have hpA := hLwf.1
    rw [List.pairwise_append] at hpA
    have hL'lt : ∀ e ∈ L', e.1 < ak := by
      intro e he
      exact hpA.2.2 e he (ak, av) (List.mem_cons_self _ _)
    have hx0 : leafRemove [(ak, av)] ak = ([], true) := by
      show (if ak = ak then ([], true)
        else ((ak, av) :: (leafRemove [] ak).1, (leafRemove [] ak).2)) = _
      rw [if_pos rfl]
    have hrem : leafRemove (L' ++ [(ak, av)]) ak = (L', true) := by
      rw [leafRemove_append_absent (fun e he => by have := hL'lt e he; omega), hx0]
      simp
    have hakr : ak < kr := hLk (ak, av) (by simp)
    have hins : leafInsert right ak av = ((ak, av) :: right, true) := by
      have hany : (right.any fun e => e.1 = ak) = false := by
        refine any_key_eq_false ?_
        intro e he
        have := hRk e he
        omega
      rw [leafInsert_neg hany, entIns_of_forall_ge]
      intro e he
      have := hRk e he
      omega
    have heq : leafMergeOp lm (L' ++ [(ak, av)]) right
        = (L', (ak, av) :: right, ((L'.headD (0, 0)).1,
           (((ak, av) :: right).headD (0, 0)).1, false)) := by
      unfold leafMergeOp
      rw [if_pos hbl]
      rw [hgd]
      simp only [hrem, hins]
    rw [heq]
    have hL'len : minLeaf lm ≤ L'.length := by
      simp only [List.length_append, List.length_cons, List.length_nil] at hbl
      omega
    refine ⟨by simp, by intro hc; simp at hc, ?_⟩
    intro _
    refine ⟨rfl, rfl, ?_, by simp, ?_, ?_, ?_, ?_, ?_, ?_⟩
    · intro hc
      have hc2 : L' = [] := hc
      rw [hc2] at hL'len
      simp at hL'len
      omega
    · refine ⟨hpA.1, ?_⟩
      intro e he
      exact ⟨(hLwf.2 e (List.mem_append_left _ he)).1, by
        show e.1 < (((ak, av) :: right).headD (0, 0)).1
        simp only [List.headD_cons]
        exact hL'lt e he⟩
    · constructor
      · rw [List.pairwise_cons]
        refine ⟨?_, hRwf.1⟩
        intro e he
        have := hRk e he
        omega
      · intro e he
        rcases List.mem_cons.mp he with rfl | he2
        · refine ⟨by simp [leOpt], ?_⟩
          cases hiR with
          | none => trivial
          | some b =>
            have : kr < b := hkrhi
            show ak < b
            omega
        · refine ⟨?_, (hRwf.2 e he2).2⟩
          have := hRk e he2
          show (((ak, av) :: right).headD (0, 0)).1 ≤ e.1
          simp only [List.headD_cons]
          omega
    · show lm / 2 ≤ L'.length
      unfold minLeaf minSize at hL'len
      omega
    · show L'.length ≤ lm
      simp only [List.length_append, List.length_cons, List.length_nil] at hL1
      omega
    · show lm / 2 ≤ ((ak, av) :: right).length
      simp only [List.length_cons]
      simp only [List.length_append, List.length_cons, List.length_nil] at hlow
      rcases hlow with h | h
      · omega
      · omega
    · show ((ak, av) :: right).length ≤ lm
      simp only [List.length_cons]
      unfold minLeaf minSize at hRud
      omega
  · by_cases hbr : minLeaf lm < right.length
    · -- the right page donates its first entry
      have hLud : left.length < minLeaf lm := by
        rcases hstrict with h | h
        · exact h
        · omega
      have hR2 : 2 ≤ right.length := by omega
      obtain ⟨bk, bv, R', rfl⟩ : ∃ bk bv R', right = (bk, bv) :: R' := by
        match right, hR2 with
        | [], hR2 => simp at hR2
        | (bk, bv) :: R', _ => exact ⟨bk, bv, R', rfl⟩
      have hbkR' : ∀ e ∈ R', bk < e.1 := by
        intro e he
        exact (List.pairwise_cons.mp hRwf.1).1 e he
      have hrem : leafRemove ((bk, bv) :: R') bk = (R', true) := by
        show (if bk = bk then (R', true) else _) = _
        rw [if_pos rfl]
      have hkrbk : kr ≤ bk := hRk (bk, bv) (List.mem_cons_self _ _)
      have hlbk : ∀ e ∈ left, e.1 < bk := by
        intro e he
        have h1 := hLk e he
        omega
      have hins : leafInsert left bk bv = (left ++ [(bk, bv)], true) :=
        leafInsert_concat hlbk
      have heq : leafMergeOp lm left ((bk, bv) :: R')
          = (left ++ [(bk, bv)], R', (((left ++ [(bk, bv)]).headD (0, 0)).1,
             (R'.headD (0, 0)).1, false)) := by
        unfold leafMergeOp
        rw [if_neg hbl, if_pos hbr]
        simp only [List.getD_cons_zero, hrem, hins]
      rw [heq]
      obtain ⟨rk2, rv2, R'', rfl⟩ : ∃ rk2 rv2 R'', R' = (rk2, rv2) :: R'' := by
        match R', hR2 with
        | [], hR2 => simp at hR2
        | (rk2, rv2) :: R'', _ => exact ⟨rk2, rv2, R'', rfl⟩
      have hbkrk2 : bk < rk2 := hbkR' (rk2, rv2) (List.mem_cons_self _ _)
      refine ⟨by simp, by intro hc; simp at hc, ?_⟩
      intro _
      refine ⟨rfl, rfl, by simp, by simp, ?_, ?_, ?_, ?_, ?_, ?_⟩
      · constructor
        · rw [List.pairwise_append]
          refine ⟨hLwf.1, List.pairwise_singleton _ _, ?_⟩
          intro a ha b hb
          rcases List.mem_singleton.mp hb with rfl
          exact hlbk a ha
        · intro e he
          simp only [List.headD_cons]
          rcases List.mem_append.mp he with he | he
          · exact ⟨(hLwf.2 e he).1, by
              have := hlbk e he
              show e.1 < rk2
              omega⟩
          · rcases List.mem_singleton.mp he with rfl
            refine ⟨?_, hbkrk2⟩
            cases lkl with
            | none => trivial
            | some g =>
              have := hlkr g rfl
              show g ≤ bk
              omega
      · constructor
        · exact hRwf.1.sublist (List.sublist_cons_self _ _)
        · intro e he
          simp only [List.headD_cons]
          have hin : e ∈ (bk, bv) :: (rk2, rv2) :: R'' :=
            List.mem_cons_of_mem _ he
          refine ⟨?_, (hRwf.2 e hin).2⟩
          rcases List.mem_cons.mp he with rfl | he2
          · exact le_refl _
          · have := hbkR' e (List.mem_cons_of_mem _ he2)
            have h2 := (List.pairwise_cons.mp (List.pairwise_cons.mp hRwf.1).2).1 e he2
            show rk2 ≤ e.1
            omega
      · simp only [List.length_append, List.length_cons, List.length_nil]
        unfold minLeaf minSize at hLud
        rcases hlow with h | h
        · omega
        · omega
      · simp only [List.length_append, List.length_cons, List.length_nil]
        unfold minLeaf minSize at hLud
        omega
      · simp only [List.length_cons]
        simp only [List.length_cons] at hbr
        unfold minLeaf minSize at hbr
        omega
      · simp only [List.length_cons] at hR1
        simp only [List.length_cons]
        omega
    · -- full merge of the right page into the left one
      have hfold := leafInsert_foldl_append right left hRwf.1
        (fun a ha r hr => by
          have h1 := hLk a ha
          have h2 := hRk r hr
          omega)
      have heq : leafMergeOp lm left right
          = (left ++ right, [], (((left ++ right).headD (0, 0)).1, 0, true)) := by
        unfold leafMergeOp
        rw [if_neg hbl, if_neg hbr]
        simp only [hfold]
      rw [heq]
      refine ⟨by simp, ?_, by intro hc; simp at hc⟩
      intro _
      refine ⟨rfl, rfl, ?_, ?_, ?_⟩
      · constructor
        · rw [List.pairwise_append]
          refine ⟨hLwf.1, hRwf.1, ?_⟩
          intro a ha b hb
          have h1 := hLk a ha
          have h2 := hRk b hb
          omega
        · intro e he
          rcases List.mem_append.mp he with he | he
          · refine ⟨(hLwf.2 e he).1, ?_⟩
            have h1 := hLk e he
            cases hiR with
            | none => trivial
            | some b =>
              have : kr < b := hkrhi
              show e.1 < b
              omega
          · refine ⟨?_, (hRwf.2 e he).2⟩
            cases lkl with
            | none => trivial
            | some g =>
              have h1 := hlkr g rfl
              have h2 := hRk e he
              show g ≤ e.1
              omega
      · simp only [List.length_append]
        rcases hlow with h | h
        · omega
        · omega
      · simp only [List.length_append]
        unfold minLeaf minSize at hbl hbr hstrict
        rcases hstrict with h | h
        · omega
        · omega

/-! ### Sibling rebalancing of internal pages -/

/-- Chain keys are strictly sorted. -/
theorem entsInv_pairwise_keys {P : Option Nat → Option Nat → Node → Prop} :
    ∀ {lo hi : Option Nat} {es : List (Nat × Node)}, entsInv P lo hi es →
      List.Pairwise (fun a b => a.1 < b.1) es := by
  intro lo hi es
  induction es generalizing lo with
  | nil => intro _; exact List.Pairwise.nil
  | cons e0 rest ih =>
    obtain ⟨k, c⟩ := e0
    intro h
    rw [entsInv_cons] at h
    rw [List.pairwise_cons]
    refine ⟨?_, ih h.2.2.2⟩
    intro e he
    have h2 := entsInv_keys_ge h.2.2.2 e he
    match rest, he, h2 with
    | (k2, c2) :: r, _, h2 =>
      have h3 : k < k2 := h.2.1
      have h4 : (k2 : Nat) ≤ e.1 := h2
      show k < e.1
      omega

theorem innerInsert_concat {acc : List (Nat × Node)} {bk : Nat} {bc : Node}
    (h : ∀ e ∈ acc, e.1 < bk) : innerInsert acc bk bc = acc ++ [(bk, bc)] := by
  have h2 := entIns_append acc [] bk bc h (by intro e he; cases he)
  simp only [List.append_nil] at h2
  exact h2

theorem innerInsert_foldl_append : ∀ (R acc : List (Nat × Node)),
    List.Pairwise (fun a b => a.1 < b.1) R → (∀ a ∈ acc, ∀ r ∈ R, a.1 < r.1) →
    R.foldl (fun acc e => innerInsert acc e.1 e.2) acc = acc ++ R := by
  intro R
  induction R with
  | nil => intro acc _ _; simp
  | cons b R' ih =>
    intro acc hp hord
    obtain ⟨bk, bc⟩ := b
    simp only [List.foldl_cons]
    rw [innerInsert_concat (fun e he => hord e he (bk, bc) (List.mem_cons_self _ _))]
    rw [ih (acc ++ [(bk, bc)]) (List.pairwise_cons.mp hp).2 ?_]
    · simp
    · intro a ha r hr
      rcases List.mem_append.mp ha with ha | ha
      · exact hord a ha r (List.mem_cons_of_mem _ hr)
      · rcases List.mem_singleton.mp ha with rfl
        exact (List.pairwise_cons.mp hp).1 r hr

/-- Correctness of `BPlusTreeInternalPage::Merge`: entry conservation,
chain invariants around the new separator, and the size bounds. -/
theorem innerMergeOp_spec (lm im h : Nat) (him : 3 ≤ im) (lkl hiR : Option Nat)
    (kr : Nat) (left right : List (Nat × Node))
    (hL : entsInv (NodeInv lm im h) lkl (some kr) left)
    (hR : entsInv (NodeInv lm im h) (some kr) hiR right)
    (hkrhi : ltOpt kr hiR) (hlkr : ∀ g, lkl = some g → g < kr)
    (hL1 : left.length ≤ im + 1) (hR1 : right.length ≤ im + 1)
    (hlow : ((im + 1) / 2 - 1 ≤ left.length ∧ (im + 1) / 2 ≤ right.length)
          ∨ ((im + 1) / 2 ≤ left.length ∧ (im + 1) / 2 - 1 ≤ right.length))
    (hstrict : left.length < minInner im ∨ right.length < minInner im) :
    (innerMergeOp im left right).1 ++ (innerMergeOp im left right).2.1
      = left ++ right ∧
    ((innerMergeOp im left right).2.2.2.2 = true →
      (innerMergeOp im left right).2.1 = [] ∧
      (innerMergeOp im left right).2.2.1
        = ((innerMergeOp im left right).1.headD (0, Node.leaf [])).1 ∧
      entsInv (NodeInv lm im h) lkl hiR (innerMergeOp im left right).1 ∧
      (im + 1) / 2 ≤ (innerMergeOp im left right).1.length ∧
      (innerMergeOp im left right).1.length ≤ im + 1) ∧
    ((innerMergeOp im left right).2.2.2.2 = false →
      (innerMergeOp im left right).2.2.1
        = ((innerMergeOp im left right).1.headD (0, Node.leaf [])).1 ∧
      (innerMergeOp im left right).2.2.2.1
        = ((innerMergeOp im left right).2.1.headD (0, Node.leaf [])).1 ∧
      (innerMergeOp im left right).1 ≠ [] ∧ (innerMergeOp im left right).2.1 ≠ [] ∧
      entsInv (NodeInv lm im h) lkl (some (innerMergeOp im left right).2.2.2.1)
        (innerMergeOp im left right).1 ∧
      entsInv (NodeInv lm im h) (some (innerMergeOp im left right).2.2.2.1) hiR
        (innerMergeOp im left right).2.1 ∧
      (im + 1) / 2 ≤ (innerMergeOp im left right).1.length ∧
      (innerMergeOp im left right).1.length ≤ im + 1 ∧
      (im + 1) / 2 ≤ (innerMergeOp im left right).2.1.length ∧
      (innerMergeOp im left right).2.1.length ≤ im + 1) := by
  have hLk : ∀ e ∈ left, e.1 < kr := fun e he => entsInv_key_lt_hi hL e he
  have hRk : ∀ e ∈ right, kr ≤ e.1 := fun e he => entsInv_keys_ge hR e he
  have hmin1 : 2 ≤ minInner im := by
    unfold minInner minSize
    omega
  have hLne : left ≠ [] := by
    intro hc
    rw [hc] at hlow
    simp at hlow
    rcases hlow with ⟨h1, _⟩ | ⟨h1, _⟩ <;> omega
  have hRne : right ≠ [] := by
    intro hc
    rw [hc] at hlow
    simp at hlow
    rcases hlow with ⟨_, h1⟩ | ⟨_, h1⟩ <;> omega
  obtain ⟨rk0, rc0, R0, rfl⟩ : ∃ rk0 rc0 R0, right = (rk0, rc0) :: R0 := by
    match right, hRne with
    | (rk0, rc0) :: R0, _ => exact ⟨rk0, rc0, R0, rfl⟩
  have hkrrk0 : kr ≤ rk0 := hRk (rk0, rc0) (List.mem_cons_self _ _)
  by_cases hbl : minInner im < left.length
  · -- the left page donates its last entry
    rcases List.eq_nil_or_concat left with rfl | ⟨L', a, rfl⟩
    · exact absurd rfl hLne
    obtain ⟨ak, ac⟩ := a
    simp only [List.concat_eq_append] at hL hL1 hlow hstrict hLk hbl hLne ⊢
    have hgd : (L' ++ [(ak, ac)]).getD ((L' ++ [(ak, ac)]).length - 1) (0, Node.leaf [])
        = (ak, ac) := by
      have hl : (L' ++ [(ak, ac)]).length - 1 = L'.length := by
        simp
      rw [hl]
      exact getD_append_length L' (ak, ac) [] (0, Node.leaf [])
    have hrem : innerRemoveIdx (L' ++ [(ak, ac)]) ((L' ++ [(ak, ac)]).length - 1)
        = L' := by
      have hl : (L' ++ [(ak, ac)]).length - 1 = L'.length := by
        simp
      rw [hl]
      have := innerRemoveIdx_at L' (ak, ac) []
      simpa using this
    have hakr : ak < kr := hLk (ak, ac) (by simp)
    have hins : innerInsert ((rk0, rc0) :: R0) ak ac
        = (ak, ac) :: (rk0, rc0) :: R0 := by
      unfold innerInsert
      refine entIns_of_forall_ge _ _ _ ?_
      intro e he
      have := hRk e he
      omega
    have heq : innerMergeOp im (L' ++ [(ak, ac)]) ((rk0, rc0) :: R0)
        = (L', (ak, ac) :: (rk0, rc0) :: R0, ((L'.headD (0, Node.leaf [])).1,
           (((ak, ac) :: (rk0, rc0) :: R0).headD (0, Node.leaf [])).1, false)) := by
      unfold innerMergeOp
      rw [if_pos hbl]
      rw [hgd, hrem]
      simp only [hins]
    rw [heq]
    have hL'chain : entsInv (NodeInv lm im h) lkl (some ak) L' := by
      have := entsInv_prefix (Y := [(ak, ac)]) hL
      simpa [entsHd] using this
    have hsufL := entsInv_suffix (X := L') (Y := [(ak, ac)]) hL
    have hac : NodeInv lm im h (some ak) (some kr) ac := by
      rw [entsInv_cons] at hsufL
      simpa [entsHd] using hsufL.2.2.1
    have hL'len : minInner im ≤ L'.length := by
      simp only [List.length_append, List.length_cons, List.length_nil] at hbl
      omega
    refine ⟨by simp, by intro hc; simp at hc, ?_⟩
    intro _
    refine ⟨rfl, rfl, ?_, by simp, hL'chain, ?_, ?_, ?_, ?_, ?_⟩
    · intro hc
      have hc2 : L' = [] := hc
      rw [hc2] at hL'len
      simp at hL'len
      omega
    · show entsInv (NodeInv lm im h) (some ak) hiR ((ak, ac) :: (rk0, rc0) :: R0)
      rw [entsInv_cons]
      simp only [entsHd]
      refine ⟨le_refl ak, by show ak < rk0; omega, ?_, ?_⟩
      · refine NodeInv_mono lm im h hac (fun x hx => hx) ?_
        intro x hx
        have : x < kr := hx
        show x < rk0
        omega
      · exact entsInv_suffix (X := []) hR
    · show (im + 1) / 2 ≤ L'.length
      unfold minInner minSize at hL'len
      omega
    · show L'.length ≤ im + 1
      simp only [List.length_append, List.length_cons, List.length_nil] at hL1
      omega
    · show (im + 1) / 2 ≤ ((ak, ac) :: (rk0, rc0) :: R0).length
      simp only [List.length_cons]
      rcases hlow with h1 | h1 <;>
        simp only [List.length_cons, List.length_append, List.length_nil] at h1 <;> omega
    · show ((ak, ac) :: (rk0, rc0) :: R0).length ≤ im + 1
      simp only [List.length_cons]
      simp only [List.length_cons] at hR1
      have hRud : ((rk0, rc0) :: R0).length < minInner im := by
        rcases hstrict with h1 | h1
        · omega
        · exact h1
      simp only [List.length_cons] at hRud
      unfold minInner minSize at hRud
      omega
  · by_cases hbr : minInner im < ((rk0, rc0) :: R0).length
    · -- the right page donates its first entry
      have hR2 : 2 ≤ ((rk0, rc0) :: R0).length := by omega
      obtain ⟨rk2, rc2, R'', rfl⟩ : ∃ rk2 rc2 R'', R0 = (rk2, rc2) :: R'' := by
        match R0, hR2 with
        | [], hR2 => simp at hR2
        | (rk2, rc2) :: R'', _ => exact ⟨rk2, rc2, R'', rfl⟩
      have hRp := entsInv_pairwise_keys hR
      have hrk0rk2 : rk0 < rk2 :=
        (List.pairwise_cons.mp hRp).1 (rk2, rc2) (List.mem_cons_self _ _)
      have hrem : innerRemoveIdx ((rk0, rc0) :: (rk2, rc2) :: R'') 0
          = (rk2, rc2) :: R'' := by
        have := innerRemoveIdx_at [] (rk0, rc0) ((rk2, rc2) :: R'')
        simpa using this
      have hlbk : ∀ e ∈ left, e.1 < rk0 := by
        intro e he
        have h1 := hLk e he
        omega
      have hins : innerInsert left rk0 rc0 = left ++ [(rk0, rc0)] :=
        innerInsert_concat hlbk
      have heq : innerMergeOp im left ((rk0, rc0) :: (rk2, rc2) :: R'')
          = (left ++ [(rk0, rc0)], (rk2, rc2) :: R'',
             (((left ++ [(rk0, rc0)]).headD (0, Node.leaf [])).1,
              (((rk2, rc2) :: R'').headD (0, Node.leaf [])).1, false)) := by
        unfold innerMergeOp
        rw [if_neg hbl, if_pos hbr]
        simp only [List.getD_cons_zero, hrem, hins]
      rw [heq]
      have hrc0 : NodeInv lm im h (some rk0) (some rk2) rc0 := by
        have := hR
        rw [entsInv_cons] at this
        simpa [entsHd] using this.2.2.1
      have hchainL : entsInv (NodeInv lm im h) lkl (some rk2) (left ++ [(rk0, rc0)]) := by
        have hLw : entsInv (NodeInv lm im h) lkl (some rk0) left := by
          refine entsInv_weaken_hi ?_ ?_ hL
          · intro k c hc
            refine NodeInv_mono lm im h hc (fun x hx => hx) ?_
            intro x hx
            have : x < kr := hx
            show x < rk0
            omega
          · intro x hx
            have : x < kr := hx
            show x < rk0
            omega
        refine entsInv_chain_append (B := []) ?_ ?_ trivial hLne hLw
        · exact hrc0
        · show rk0 < rk2
          omega
      have hchainR : entsInv (NodeInv lm im h) (some rk2) hiR ((rk2, rc2) :: R'') :=
        entsInv_suffix (X := [(rk0, rc0)]) hR
      refine ⟨by simp, by intro hc; simp at hc, ?_⟩
      intro _
      refine ⟨rfl, rfl, by simp, by simp, hchainL, hchainR, ?_, ?_, ?_, ?_⟩
      · show (im + 1) / 2 ≤ (left ++ [(rk0, rc0)]).length
        simp only [List.length_append, List.length_cons, List.length_nil]
        rcases hlow with h1 | h1
        · omega
        · omega
      · show (left ++ [(rk0, rc0)]).length ≤ im + 1
        simp only [List.length_append, List.length_cons, List.length_nil]
        have hLud : left.length < minInner im := by
          rcases hstrict with h1 | h1
          · exact h1
          · omega
        unfold minInner minSize at hLud
        omega
      · show (im + 1) / 2 ≤ ((rk2, rc2) :: R'').length
        simp only [List.length_cons]
        simp only [List.length_cons] at hbr
        unfold minInner minSize at hbr
        omega
      · show ((rk2, rc2) :: R'').length ≤ im + 1
        simp only [List.length_cons] at hR1
        simp only [List.length_cons]
        omega
    · -- full merge of the right page into the left one
      have hfold := innerInsert_foldl_append ((rk0, rc0) :: R0) left
        (entsInv_pairwise_keys hR)
        (fun a ha r hr => by
          have h1 := hLk a ha
          have h2 := hRk r hr
          omega)
      have heq : innerMergeOp im left ((rk0, rc0) :: R0)
          = (left ++ (rk0, rc0) :: R0, [],
             (((left ++ (rk0, rc0) :: R0).headD (0, Node.leaf [])).1, 0, true)) := by
        unfold innerMergeOp
        rw [if_neg hbl, if_neg hbr]
        rw [hfold]
      rw [heq]
      refine ⟨by simp, ?_, by intro hc; simp at hc⟩
      intro _
      refine ⟨rfl, rfl, ?_, ?_, ?_⟩
      · show entsInv (NodeInv lm im h) lkl hiR (left ++ (rk0, rc0) :: R0)
        have hLw : entsInv (NodeInv lm im h) lkl (some rk0) left := by
          refine entsInv_weaken_hi ?_ ?_ hL
          · intro k c hc
            refine NodeInv_mono lm im h hc (fun x hx => hx) ?_
            intro x hx
            have : x < kr := hx
            show x < rk0
            omega
          · intro x hx
            have : x < kr := hx
            show x < rk0
            omega
        refine entsInv_append_gen (entsInv_suffix (X := []) hR) ?_ hLw
        intro k2 hk2
        simp only [entsHd] at hk2
        cases lkl with
        | none => trivial
        | some g =>
          have h1 := hlkr g rfl
          have h2 : rk0 = k2 := by
            injection hk2
          show g ≤ k2
          omega
      · show (im + 1) / 2 ≤ (left ++ (rk0, rc0) :: R0).length
        simp only [List.length_append, List.length_cons]
        rcases hlow with h1 | h1
        · omega
        · omega
      · show (left ++ (rk0, rc0) :: R0).length ≤ im + 1
        simp only [List.length_append, List.length_cons]
        unfold minInner minSize at hbl hbr hstrict
        simp only [List.length_cons] at hbr hstrict
        rcases hstrict with h1 | h1
        · omega
        · omega

/-! ### Helpers for the removal proof -/

/-- Dropping one entry keeps a leaf view well-formed. -/
theorem leafWF_remove_mid {lo hi : Option Nat} {A B : List (Nat × Nat)}
    {x : Nat × Nat} (h : leafWF lo hi (A ++ x :: B)) : leafWF lo hi (A ++ B) := by
  have hsub : (A ++ B).Sublist (A ++ x :: B) :=
    List.Sublist.append_left (List.sublist_cons_self _ _) A
  exact ⟨h.1.sublist hsub, fun e he => h.2 e (hsub.mem he)⟩

/-- A sorted leaf view is bounded below by its own head key. -/
theorem leafWF_tighten_head {lo hi : Option Nat} {k0 v0 : Nat}
    {rest : List (Nat × Nat)} (h : leafWF lo hi ((k0, v0) :: rest)) :
    leafWF (some k0) hi ((k0, v0) :: rest) := by
  refine ⟨h.1, ?_⟩
  intro e he
  refine ⟨?_, (h.2 e he).2⟩
  rcases List.mem_cons.mp he with rfl | he2
  · exact le_refl _
  · exact le_of_lt ((List.pairwise_cons.mp h.1).1 e he2)

/-- Every entry key of a chain is above the lower bound. -/
theorem entsInv_leOpt_keys {P : Option Nat → Option Nat → Node → Prop} :
    ∀ {lo hi : Option Nat} {es : List (Nat × Node)},
      entsInv P lo hi es → ∀ e ∈ es, leOpt lo e.1 := by
  intro lo hi es
  induction es generalizing lo with
  | nil => intro _ e he; cases he
  | cons e0 rest ih =>
    obtain ⟨k, c⟩ := e0
    intro h e he
    rw [entsInv_cons] at h
    rcases List.mem_cons.mp he with rfl | hmem
    · exact h.1
    · have h2 := ih h.2.2.2 e hmem
      cases lo with
      | none => trivial
      | some g =>
        match rest, hmem, h2 with
        | (k2, c2) :: r, _, h2 =>
          have h3 : k < k2 := h.2.1
          have h4 : (k2 : Nat) ≤ e.1 := h2
          have h5 : g ≤ k := h.1
          show g ≤ e.1
          omega

theorem getD_append_length_succ {α : Type} (P : List α) (x y : α) (S : List α)
    (d : α) : (P ++ x :: y :: S).getD (P.length + 1) d = y := by
  have h1 : P ++ x :: y :: S = (P ++ [x]) ++ y :: S := by simp
  have h2 : (P ++ [x]).length = P.length + 1 := by simp
  rw [h1, ← h2]
  exact getD_append_length (P ++ [x]) y S d

theorem innerRemoveIdx_at_succ (P : List (Nat × Node)) (x y : Nat × Node)
    (S : List (Nat × Node)) :
    innerRemoveIdx (P ++ x :: y :: S) (P.length + 1) = P ++ x :: S := by
  have h1 : P ++ x :: y :: S = (P ++ [x]) ++ y :: S := by simp
  have h2 : (P ++ [x]).length = P.length + 1 := by simp
  rw [h1, ← h2, innerRemoveIdx_at (P ++ [x]) y S]
  simp

/-- Sorting of the leaf view below a chain, given the same for `P`. -/
theorem entsInv_assoc_sorted_of {P : Option Nat → Option Nat → Node → Prop}
    (hPs : ∀ (lo hi : Option Nat) (c : Node), P lo hi c →
      List.Pairwise (fun a b => a.1 < b.1) c.assoc)
    (hPb : ∀ (lo hi : Option Nat) (c : Node), P lo hi c →
      ∀ e ∈ c.assoc, leOpt lo e.1 ∧ ltOpt e.1 hi) :
    ∀ {lo hi : Option Nat} {es : List (Nat × Node)},
      entsInv P lo hi es → List.Pairwise (fun a b => a.1 < b.1) (assocEnts es) := by
  intro lo hi es
  induction es generalizing lo with
  | nil => intro _; exact List.Pairwise.nil
  | cons e0 rest ih =>
    obtain ⟨k, c⟩ := e0
    intro h
    rw [entsInv_cons] at h
    show List.Pairwise (fun a b => a.1 < b.1) (c.assoc ++ assocEnts rest)
    rw [List.pairwise_append]
    refine ⟨hPs _ _ _ h.2.2.1, ih h.2.2.2, ?_⟩
    intro a ha b hb
    match rest with
    | [] => simp [assocEnts] at hb
    | (k2, c2) :: r =>
      have h1 : ltOpt a.1 (some k2) := (hPb _ _ _ h.2.2.1 a ha).2
      have h2 : leOpt (some k2) b.1 :=
        (entsInv_assoc_bounds hPb h.2.2.2 b hb).1
      have h3 : a.1 < k2 := h1
      have h4 : (k2 : Nat) ≤ b.1 := h2
      show a.1 < b.1
      omega

/-- The leaf view below any node of the tree is sorted. -/
theorem NodeInv_assoc_sorted (lm im : Nat) :
    ∀ (h : Nat) {lo hi : Option Nat} {t : Node}, NodeInv lm im h lo hi t →
      List.Pairwise (fun a b => a.1 < b.1) t.assoc := by
  intro h
  induction h with
  | zero =>
    intro lo hi t ht
    match t with
    | .leaf es => exact ht.1.1
  | succ h ih =>
    intro lo hi t ht
    match t with
    | .inner es =>
      exact entsInv_assoc_sorted_of (fun lo hi c hc => ih hc)
        (fun lo hi c hc => NodeInv_assoc_bounds lm im h lo hi c hc) ht.1

/-- The leaf view below any node is a well-formed leaf list over the
node's key range. -/
theorem NodeInv_assoc_wf (lm im : Nat) (h : Nat) {lo hi : Option Nat} {t : Node}
    (ht : NodeInv lm im h lo hi t) : leafWF lo hi t.assoc :=
  ⟨NodeInv_assoc_sorted lm im h ht, NodeInv_assoc_bounds lm im h lo hi t ht⟩

/-- Removing a key found inside the middle block of a partitioned leaf
view touches only that block. -/
theorem leafRemove_mid {lo hi : Option Nat} {A C S : List (Nat × Nat)} {key w : Nat}
    (hA : ∀ e ∈ A, e.1 < key) (hC : leafWF lo hi C) (hmem : (key, w) ∈ C) :
    leafRemove (A ++ C ++ S) key = (A ++ (leafRemove C key).1 ++ S, true) := by
  obtain ⟨A2, B2, rfl, hrem, hA2, hB2⟩ := leafRemove_sorted hC hmem
  have hx : leafRemove ((key, w) :: (B2 ++ S)) key = (B2 ++ S, true) := by
    show (if key = key then (B2 ++ S, true)
      else ((key, w) :: (leafRemove (B2 ++ S) key).1, (leafRemove (B2 ++ S) key).2)) = _
    rw [if_pos rfl]
  have hshape : A ++ (A2 ++ (key, w) :: B2) ++ S
      = (A ++ A2) ++ (key, w) :: (B2 ++ S) := by simp
  rw [hshape, leafRemove_append_absent ?_, hx, hrem]
  · simp
  · intro e he
    rcases List.mem_append.mp he with he | he
    · have := hA e he; omega
    · have := hA2 e he; omega


/-- `entsInv` with a `some` upper bound raised along `≤`. -/
theorem entsInv_widen_some (lm im h : Nat) {lo : Option Nat} {a b : Nat} (hab : a ≤ b)
    {X : List (Nat × Node)} (hX : entsInv (NodeInv lm im h) lo (some a) X) :
    entsInv (NodeInv lm im h) lo (some b) X := by
  refine entsInv_weaken_hi ?_ ?_ hX
  · intro kk cc hc
    refine NodeInv_mono lm im h hc (fun x hx => hx) ?_
    intro x hx
    have h1 : x < a := hx
    show x < b
    omega
  · intro x hx
    have h1 : x < a := hx
    show x < b
    omega

theorem leOpt_trans_le {lo : Option Nat} {a b : Nat} (h : leOpt lo a) (hab : a ≤ b) :
    leOpt lo b := by
  cases lo with
  | none => trivial
  | some g =>
    have h1 : g ≤ a := h
    show g ≤ b
    omega

/-- Gluing a prefix bounded by `lk` onto a chain headed by key `lk`. -/
theorem entsInv_glue {P : Option Nat → Option Nat → Node → Prop} {lo hi : Option Nat}
    {Pfx Rest : List (Nat × Node)} {lk : Nat} {N : Node}
    (hPfx : entsInv P lo (some lk) Pfx) (hlo : leOpt lo lk)
    (hY : entsInv P (some lk) hi ((lk, N) :: Rest)) :
    entsInv P lo hi (Pfx ++ (lk, N) :: Rest) := by
  refine entsInv_append_gen (Y := (lk, N) :: Rest) hY ?_ hPfx
  intro k2 hk2
  have h2 : some lk = some k2 := hk2
  have h3 : lk = k2 := by injection h2
  rw [← h3]
  exact hlo

/-- Entries of a chain lie strictly above any key below the chain's
head separator. -/
theorem entsInv_gt_hd {P : Option Nat → Option Nat → Node → Prop}
    {hi : Option Nat} {S : List (Nat × Node)} {x : Nat}
    (hx : ltOpt x (entsHd hi S)) (hch : entsInv P (entsHd hi S) hi S) :
    ∀ e ∈ S, x < e.1 := by
  intro e he
  match S, he, hx, hch with
  | (k3, c3) :: S2, he, hx, hch =>
    have h3 : x < k3 := hx
    have h4 : leOpt (some k3) e.1 := entsInv_keys_ge hch e he
    have h5 : (k3 : Nat) ≤ e.1 := h4
    omega

/-- Replacing two adjacent chain slots by one merged slot. -/
theorem reassemble_merged (lm im h : Nat) {lo hi : Option Nat}
    {Pfx Sfx : List (Nat × Node)} {k k2 lk : Nat} {c c2 N : Node}
    (hchain : entsInv (NodeInv lm im h) lo hi (Pfx ++ (k, c) :: (k2, c2) :: Sfx))
    (hkl : k ≤ lk)
    (hNP : NodeInv lm im h (some lk) (entsHd hi Sfx) N)
    (hlkhd : ltOpt lk (entsHd hi Sfx)) :
    entsInv (NodeInv lm im h) lo hi (Pfx ++ (lk, N) :: Sfx) := by
  have hPfx : entsInv (NodeInv lm im h) lo (some k) Pfx :=
    entsInv_prefix (Y := (k, c) :: (k2, c2) :: Sfx) hchain
  have hloK : leOpt lo k := entsInv_keys_ge hchain (k, c) (by simp)
  have hT : entsInv (NodeInv lm im h) (some k) hi ((k, c) :: (k2, c2) :: Sfx) :=
    entsInv_suffix (X := Pfx) hchain
  rw [entsInv_cons] at hT
  have hT2 := hT.2.2.2
  rw [entsInv_cons] at hT2
  refine entsInv_glue (entsInv_widen_some lm im h hkl hPfx)
    (leOpt_trans_le hloK hkl) ?_
  rw [entsInv_cons]
  exact ⟨le_refl _, hlkhd, hNP, hT2.2.2.2⟩

/-- Replacing two adjacent chain slots by a rebalanced pair of slots. -/
theorem reassemble_two (lm im h : Nat) {lo hi : Option Nat}
    {Pfx Sfx : List (Nat × Node)} {k k2 lk rk : Nat} {c c2 NL NR : Node}
    (hchain : entsInv (NodeInv lm im h) lo hi (Pfx ++ (k, c) :: (k2, c2) :: Sfx))
    (hkl : k ≤ lk) (hlkrk : lk < rk)
    (hNL : NodeInv lm im h (some lk) (some rk) NL)
    (hNR : NodeInv lm im h (some rk) (entsHd hi Sfx) NR)
    (hrkhd : ltOpt rk (entsHd hi Sfx)) :
    entsInv (NodeInv lm im h) lo hi (Pfx ++ (lk, NL) :: (rk, NR) :: Sfx) := by
  have hPfx : entsInv (NodeInv lm im h) lo (some k) Pfx :=
    entsInv_prefix (Y := (k, c) :: (k2, c2) :: Sfx) hchain
  have hloK : leOpt lo k := entsInv_keys_ge hchain (k, c) (by simp)
  have hT : entsInv (NodeInv lm im h) (some k) hi ((k, c) :: (k2, c2) :: Sfx) :=
    entsInv_suffix (X := Pfx) hchain
  rw [entsInv_cons] at hT
  have hT2 := hT.2.2.2
  rw [entsInv_cons] at hT2
  refine entsInv_glue (entsInv_widen_some lm im h hkl hPfx)
    (leOpt_trans_le hloK hkl) ?_
  rw [entsInv_cons]
  refine ⟨le_refl _, ?_, ?_, ?_⟩
  · show ltOpt lk (some rk)
    exact hlkrk
  · exact hNL
  · rw [entsInv_cons]
    exact ⟨le_refl _, hrkhd, hNR, hT2.2.2.2⟩

/-- The shift-insert hitting the cut left by two removed chain slots. -/
theorem entIns_chain_mid (lm im h : Nat) {lo hi : Option Nat}
    {Pfx Sfx : List (Nat × Node)} {k k2 lk : Nat} {c c2 : Node} (N : Node)
    (hchain : entsInv (NodeInv lm im h) lo hi (Pfx ++ (k, c) :: (k2, c2) :: Sfx))
    (hkl : k ≤ lk) (hlkhd : ltOpt lk (entsHd hi Sfx)) :
    entIns (Pfx ++ Sfx) lk N = Pfx ++ (lk, N) :: Sfx := by
  have hPfx : entsInv (NodeInv lm im h) lo (some k) Pfx :=
    entsInv_prefix (Y := (k, c) :: (k2, c2) :: Sfx) hchain
  have hT : entsInv (NodeInv lm im h) (some k) hi ((k, c) :: (k2, c2) :: Sfx) :=
    entsInv_suffix (X := Pfx) hchain
  rw [entsInv_cons] at hT
  have hT2 := hT.2.2.2
  rw [entsInv_cons] at hT2
  have hgt := entsInv_gt_hd hlkhd hT2.2.2.2
  refine entIns_append Pfx Sfx lk N ?_ ?_
  · intro e he
    have h1 := entsInv_key_lt_hi hPfx e he
    have h2 : e.1 < k := h1
    omega
  · intro e he
    have h1 := hgt e he
    omega

/-- The second shift-insert of a borrow, landing right of the first. -/
theorem entIns_chain_mid2 (lm im h : Nat) {lo hi : Option Nat}
    {Pfx Sfx : List (Nat × Node)} {k k2 lk rk : Nat} {c c2 : Node} (NL NR : Node)
    (hchain : entsInv (NodeInv lm im h) lo hi (Pfx ++ (k, c) :: (k2, c2) :: Sfx))
    (hkl : k ≤ lk) (hlkrk : lk < rk) (hrkhd : ltOpt rk (entsHd hi Sfx)) :
    entIns (Pfx ++ (lk, NL) :: Sfx) rk NR = Pfx ++ (lk, NL) :: (rk, NR) :: Sfx := by
  have hPfx : entsInv (NodeInv lm im h) lo (some k) Pfx :=
    entsInv_prefix (Y := (k, c) :: (k2, c2) :: Sfx) hchain
  have hT : entsInv (NodeInv lm im h) (some k) hi ((k, c) :: (k2, c2) :: Sfx) :=
    entsInv_suffix (X := Pfx) hchain
  rw [entsInv_cons] at hT
  have hT2 := hT.2.2.2
  rw [entsInv_cons] at hT2
  have hgt := entsInv_gt_hd hrkhd hT2.2.2.2
  have hstep : entIns ((Pfx ++ [(lk, NL)]) ++ Sfx) rk NR
      = (Pfx ++ [(lk, NL)]) ++ (rk, NR) :: Sfx := by
    refine entIns_append (Pfx ++ [(lk, NL)]) Sfx rk NR ?_ ?_
    · intro e he
      rcases List.mem_append.mp he with he | he
      · have h1 := entsInv_key_lt_hi hPfx e he
        have h2 : e.1 < k := h1
        omega
      · rcases List.mem_singleton.mp he with rfl
        exact hlkrk
    · intro e he
      have h1 := hgt e he
      omega
  simpa using hstep


/-- Correctness of the sibling rebalance the `Merge` loop performs at
the parent of an underflowed child: the records it applies reassemble
into a chain over the same key range carrying the same leaf view,
losing exactly one parent slot on a full merge and none on a borrow. -/
theorem siblingFix_spec (lm im h : Nat) (hlm : 2 ≤ lm) (him : 3 ≤ im)
    (lo hi : Option Nat) (Pfx Sfx : List (Nat × Node)) (k : Nat) (c c1 : Node)
    (hchain : entsInv (NodeInv lm im h) lo hi (Pfx ++ (k, c) :: Sfx))
    (hlen2 : 2 ≤ (Pfx ++ (k, c) :: Sfx).length)
    (hc1 : NodeLoose lm im h (some k) (entsHd hi Sfx) c1)
    (hund : c1.len < minFor lm im h) :
    entsInv (NodeInv lm im h) lo hi
      (siblingFix lm im (Pfx ++ (k, c) :: Sfx) Pfx.length c1) ∧
    assocEnts (siblingFix lm im (Pfx ++ (k, c) :: Sfx) Pfx.length c1)
      = assocEnts Pfx ++ c1.assoc ++ assocEnts Sfx ∧
    (Pfx ++ (k, c) :: Sfx).length - 1
      ≤ (siblingFix lm im (Pfx ++ (k, c) :: Sfx) Pfx.length c1).length ∧
    (siblingFix lm im (Pfx ++ (k, c) :: Sfx) Pfx.length c1).length
      ≤ (Pfx ++ (k, c) :: Sfx).length := by
  cases Sfx with
  | cons e2 Sfx' =>
    obtain ⟨k2, c2⟩ := e2
    have hlt : Pfx.length + 1 < (Pfx ++ (k, c) :: (k2, c2) :: Sfx').length := by
      simp
    have hgd1 : (Pfx ++ (k, c) :: (k2, c2) :: Sfx').getD (Pfx.length + 1)
        (0, Node.leaf []) = (k2, c2) :=
      getD_append_length_succ Pfx (k, c) (k2, c2) Sfx' _
    have hT : entsInv (NodeInv lm im h) (some k) hi ((k, c) :: (k2, c2) :: Sfx') :=
      entsInv_suffix (X := Pfx) hchain
    rw [entsInv_cons] at hT
    have hkk2 : k < k2 := hT.2.1
    have hT2 := hT.2.2.2
    rw [entsInv_cons] at hT2
    have hk2hd : ltOpt k2 (entsHd hi Sfx') := hT2.2.1
    have hc2P : NodeInv lm im h (some k2) (entsHd hi Sfx') c2 := hT2.2.2.1
    have hrem1 : innerRemoveIdx (Pfx ++ (k, c) :: (k2, c2) :: Sfx') (Pfx.length + 1)
        = Pfx ++ (k, c) :: Sfx' := innerRemoveIdx_at_succ Pfx (k, c) (k2, c2) Sfx'
    have hrem2 : innerRemoveIdx (Pfx ++ (k, c) :: Sfx') Pfx.length = Pfx ++ Sfx' :=
      innerRemoveIdx_at Pfx (k, c) Sfx'
    cases h with
    | zero =>
      cases c1 with
      | inner es1 => exact False.elim hc1
      | leaf ls =>
      cases c2 with
      | inner es2 => exact False.elim hc2P
      | leaf rs =>
      obtain ⟨hlswf, hlsl, hlsu⟩ := hc1
      obtain ⟨hrswf, hrsl, hrsu⟩ := hc2P
      have hund2 : ls.length < minLeaf lm := hund
      have hspec := leafMergeOp_spec lm hlm (some k) (entsHd hi Sfx') k2 ls rs
        hlswf hrswf hk2hd
        (fun g hg => by
          have h3 : k = g := by injection hg
          omega)
        hlsu hrsu (Or.inl ⟨hlsl, hrsl⟩) (Or.inl hund2)
      rcases hm : leafMergeOp lm ls rs with ⟨mL, mR, mlk, mrk, mfl⟩
      rw [hm] at hspec
      have hF0 : siblingFix lm im (Pfx ++ (k, c) :: (k2, Node.leaf rs) :: Sfx')
          Pfx.length (Node.leaf ls)
          = recordsApply (Pfx ++ (k, c) :: (k2, Node.leaf rs) :: Sfx') Pfx.length
            (Pfx.length + 1) (leafMergeOp lm ls rs).2.2.1
            (Node.leaf (leafMergeOp lm ls rs).1) (leafMergeOp lm ls rs).2.2.2.1
            (Node.leaf (leafMergeOp lm ls rs).2.1) (leafMergeOp lm ls rs).2.2.2.2 := by
        unfold siblingFix
        rw [if_pos hlt, hgd1]
      rw [hm] at hF0
      have hF : siblingFix lm im (Pfx ++ (k, c) :: (k2, Node.leaf rs) :: Sfx')
          Pfx.length (Node.leaf ls)
          = recordsApply (Pfx ++ (k, c) :: (k2, Node.leaf rs) :: Sfx') Pfx.length
            (Pfx.length + 1) mlk (Node.leaf mL) mrk (Node.leaf mR) mfl := hF0
      have hcons : mL ++ mR = ls ++ rs := hspec.1
      cases mfl with
      | true =>
        have hMR : mR = [] := (hspec.2.1 rfl).1
        have hmlk2 : mlk = (mL.headD (0, 0)).1 := (hspec.2.1 rfl).2.1
        have hWF : leafWF (some k) (entsHd hi Sfx') mL := (hspec.2.1 rfl).2.2.1
        have hlb : lm / 2 ≤ mL.length := (hspec.2.1 rfl).2.2.2.1
        have hub : mL.length ≤ lm := (hspec.2.1 rfl).2.2.2.2
        rw [hMR, List.append_nil] at hcons
        obtain ⟨⟨l0k, l0v⟩, mL2, rfl⟩ : ∃ e0 t, mL = e0 :: t := by
          match mL, hlb with
          | [], hlb => exact absurd hlb (by simp only [List.length_nil]; omega)
          | e0 :: t, _ => exact ⟨e0, t, rfl⟩
        have hmlk3 : mlk = l0k := by rw [hmlk2]; rfl
        have hkl : k ≤ l0k := (hWF.2 (l0k, l0v) (List.mem_cons_self _ _)).1
        have hlkhd : ltOpt l0k (entsHd hi Sfx') :=
          (hWF.2 (l0k, l0v) (List.mem_cons_self _ _)).2
        have hins1 : innerInsert (Pfx ++ Sfx') mlk (Node.leaf ((l0k, l0v) :: mL2))
            = Pfx ++ (mlk, Node.leaf ((l0k, l0v) :: mL2)) :: Sfx' := by
          rw [hmlk3]
          exact entIns_chain_mid lm im 0 (Node.leaf ((l0k, l0v) :: mL2)) hchain hkl hlkhd
        have hra : recordsApply (Pfx ++ (k, c) :: (k2, Node.leaf rs) :: Sfx') Pfx.length
              (Pfx.length + 1) mlk (Node.leaf ((l0k, l0v) :: mL2)) mrk
              (Node.leaf mR) true
            = Pfx ++ (mlk, Node.leaf ((l0k, l0v) :: mL2)) :: Sfx' := by
          show innerInsert (innerRemoveIdx
              (innerRemoveIdx (Pfx ++ (k, c) :: (k2, Node.leaf rs) :: Sfx')
                (Pfx.length + 1)) Pfx.length)
              mlk (Node.leaf ((l0k, l0v) :: mL2))
            = Pfx ++ (mlk, Node.leaf ((l0k, l0v) :: mL2)) :: Sfx'
          rw [hrem1, hrem2, hins1]
        rw [hF, hra, hmlk3]
        refine ⟨?_, ?_, ?_, ?_⟩
        · exact reassemble_merged lm im 0 hchain hkl
            ⟨leafWF_tighten_head hWF, hlb, hub⟩ hlkhd
        · rw [assocEnts_append]
          show assocEnts Pfx ++ (((l0k, l0v) :: mL2) ++ assocEnts Sfx')
            = assocEnts Pfx ++ ls ++ (rs ++ assocEnts Sfx')
          rw [hcons]
          simp [List.append_assoc]
        · simp only [List.length_append, List.length_cons]
          omega
        · simp only [List.length_append, List.length_cons]
          omega
      | false =>
        have hmlk2 : mlk = (mL.headD (0, 0)).1 := (hspec.2.2 rfl).1
        have hmrk2 : mrk = (mR.headD (0, 0)).1 := (hspec.2.2 rfl).2.1
        have hMLne : mL ≠ [] := (hspec.2.2 rfl).2.2.1
        have hMRne : mR ≠ [] := (hspec.2.2 rfl).2.2.2.1
        have hWFL : leafWF (some k) (some mrk) mL := (hspec.2.2 rfl).2.2.2.2.1
        have hWFR : leafWF (some mrk) (entsHd hi Sfx') mR :=
          (hspec.2.2 rfl).2.2.2.2.2.1
        have hLlb : lm / 2 ≤ mL.length := (hspec.2.2 rfl).2.2.2.2.2.2.1
        have hLub : mL.length ≤ lm := (hspec.2.2 rfl).2.2.2.2.2.2.2.1
        have hRlb : lm / 2 ≤ mR.length := (hspec.2.2 rfl).2.2.2.2.2.2.2.2.1
        have hRub : mR.length ≤ lm := (hspec.2.2 rfl).2.2.2.2.2.2.2.2.2
        obtain ⟨⟨l0k, l0v⟩, mL2, rfl⟩ : ∃ e0 t, mL = e0 :: t := by
          match mL, hMLne with
          | [], hMLne => exact absurd rfl hMLne
          | e0 :: t, _ => exact ⟨e0, t, rfl⟩
        obtain ⟨⟨r0k, r0v⟩, mR2, rfl⟩ : ∃ e0 t, mR = e0 :: t := by
          match mR, hMRne with
          | [], hMRne => exact absurd rfl hMRne
          | e0 :: t, _ => exact ⟨e0, t, rfl⟩
        have hmlk3 : mlk = l0k := by rw [hmlk2]; rfl
        have hmrk3 : mrk = r0k := by rw [hmrk2]; rfl
        rw [hmrk3] at hWFL hWFR
        have hkl : k ≤ l0k := (hWFL.2 (l0k, l0v) (List.mem_cons_self _ _)).1
        have hlkrk : l0k < r0k := (hWFL.2 (l0k, l0v) (List.mem_cons_self _ _)).2
        have hrkhd : ltOpt r0k (entsHd hi Sfx') :=
          (hWFR.2 (r0k, r0v) (List.mem_cons_self _ _)).2
        have hlkhd : ltOpt l0k (entsHd hi Sfx') := by
          cases hhd : entsHd hi Sfx' with
          | none => trivial
          | some b =>
            have h1 := hrkhd
            rw [hhd] at h1
            have h2 : r0k < b := h1
            show l0k < b
            omega
        have hins1 : innerInsert (Pfx ++ Sfx') mlk (Node.leaf ((l0k, l0v) :: mL2))
            = Pfx ++ (mlk, Node.leaf ((l0k, l0v) :: mL2)) :: Sfx' := by
          rw [hmlk3]
          exact entIns_chain_mid lm im 0 (Node.leaf ((l0k, l0v) :: mL2)) hchain hkl hlkhd
        have hins2 : innerInsert (Pfx ++ (mlk, Node.leaf ((l0k, l0v) :: mL2)) :: Sfx')
              mrk (Node.leaf ((r0k, r0v) :: mR2))
            = Pfx ++ (mlk, Node.leaf ((l0k, l0v) :: mL2))
                :: (mrk, Node.leaf ((r0k, r0v) :: mR2)) :: Sfx' := by
          rw [hmlk3, hmrk3]
          exact entIns_chain_mid2 lm im 0 (Node.leaf ((l0k, l0v) :: mL2))
            (Node.leaf ((r0k, r0v) :: mR2)) hchain hkl hlkrk hrkhd
        have hra : recordsApply (Pfx ++ (k, c) :: (k2, Node.leaf rs) :: Sfx') Pfx.length
              (Pfx.length + 1) mlk (Node.leaf ((l0k, l0v) :: mL2)) mrk
              (Node.leaf ((r0k, r0v) :: mR2)) false
            = Pfx ++ (mlk, Node.leaf ((l0k, l0v) :: mL2))
                :: (mrk, Node.leaf ((r0k, r0v) :: mR2)) :: Sfx' := by
          show innerInsert (innerInsert (innerRemoveIdx (innerRemoveIdx
              (Pfx ++ (k, c) :: (k2, Node.leaf rs) :: Sfx') (Pfx.length + 1))
              Pfx.length) mlk (Node.leaf ((l0k, l0v) :: mL2))) mrk
              (Node.leaf ((r0k, r0v) :: mR2))
            = Pfx ++ (mlk, Node.leaf ((l0k, l0v) :: mL2))
                :: (mrk, Node.leaf ((r0k, r0v) :: mR2)) :: Sfx'
          rw [hrem1, hrem2, hins1, hins2]
        rw [hF, hra, hmlk3, hmrk3]
        refine ⟨?_, ?_, ?_, ?_⟩
        · exact reassemble_two lm im 0 hchain hkl hlkrk
            ⟨leafWF_tighten_head hWFL, hLlb, hLub⟩ ⟨hWFR, hRlb, hRub⟩ hrkhd
        · rw [assocEnts_append]
          show assocEnts Pfx
              ++ (((l0k, l0v) :: mL2) ++ (((r0k, r0v) :: mR2) ++ assocEnts Sfx'))
            = assocEnts Pfx ++ ls ++ (rs ++ assocEnts Sfx')
          rw [← List.append_assoc ((l0k, l0v) :: mL2) ((r0k, r0v) :: mR2)
            (assocEnts Sfx'), hcons]
          simp [List.append_assoc]
        · simp only [List.length_append, List.length_cons]
          omega
        · simp only [List.length_append, List.length_cons]
          omega
    | succ h2 =>
      cases c1 with
      | leaf es1 => exact False.elim hc1
      | inner ls =>
      cases c2 with
      | leaf es2 => exact False.elim hc2P
      | inner rs =>
      obtain ⟨hlsch, hlsl, hlsu⟩ := hc1
      obtain ⟨hrsch, hrsl, hrsu⟩ := hc2P
      have hund2 : ls.length < minInner im := hund
      have hspec := innerMergeOp_spec lm im h2 him (some k) (entsHd hi Sfx') k2 ls rs
        hlsch hrsch hk2hd
        (fun g hg => by
          have h3 : k = g := by injection hg
          omega)
        hlsu hrsu (Or.inl ⟨hlsl, hrsl⟩) (Or.inl hund2)
      rcases hm : innerMergeOp im ls rs with ⟨mL, mR, mlk, mrk, mfl⟩
      rw [hm] at hspec
      have hF0 : siblingFix lm im (Pfx ++ (k, c) :: (k2, Node.inner rs) :: Sfx')
          Pfx.length (Node.inner ls)
          = recordsApply (Pfx ++ (k, c) :: (k2, Node.inner rs) :: Sfx') Pfx.length
            (Pfx.length + 1) (innerMergeOp im ls rs).2.2.1
            (Node.inner (innerMergeOp im ls rs).1) (innerMergeOp im ls rs).2.2.2.1
            (Node.inner (innerMergeOp im ls rs).2.1) (innerMergeOp im ls rs).2.2.2.2 := by
        unfold siblingFix
        rw [if_pos hlt, hgd1]
      rw [hm] at hF0
      have hF : siblingFix lm im (Pfx ++ (k, c) :: (k2, Node.inner rs) :: Sfx')
          Pfx.length (Node.inner ls)
          = recordsApply (Pfx ++ (k, c) :: (k2, Node.inner rs) :: Sfx') Pfx.length
            (Pfx.length + 1) mlk (Node.inner mL) mrk (Node.inner mR) mfl := hF0
      have hcons : mL ++ mR = ls ++ rs := hspec.1
      cases mfl with
      | true =>
        have hMR : mR = [] := (hspec.2.1 rfl).1
        have hmlk2 : mlk = (mL.headD (0, Node.leaf [])).1 := (hspec.2.1 rfl).2.1
        have hCH : entsInv (NodeInv lm im h2) (some k) (entsHd hi Sfx') mL :=
          (hspec.2.1 rfl).2.2.1
        have hlb : (im + 1) / 2 ≤ mL.length := (hspec.2.1 rfl).2.2.2.1
        have hub : mL.length ≤ im + 1 := (hspec.2.1 rfl).2.2.2.2
        rw [hMR, List.append_nil] at hcons
        obtain ⟨⟨l0k, c0⟩, mL2, rfl⟩ : ∃ e0 t, mL = e0 :: t := by
          match mL, hlb with
          | [], hlb => exact absurd hlb (by simp only [List.length_nil]; omega)
          | e0 :: t, _ => exact ⟨e0, t, rfl⟩
        have hmlk3 : mlk = l0k := by rw [hmlk2]; rfl
        have hkl : k ≤ l0k :=
          entsInv_keys_ge hCH (l0k, c0) (List.mem_cons_self _ _)
        have hlkhd : ltOpt l0k (entsHd hi Sfx') :=
          entsInv_key_lt_hi hCH (l0k, c0) (List.mem_cons_self _ _)
        have hCH0 : entsInv (NodeInv lm im h2) (some l0k) (entsHd hi Sfx')
            ((l0k, c0) :: mL2) := entsInv_suffix (X := []) hCH
        have hins1 : innerInsert (Pfx ++ Sfx') mlk (Node.inner ((l0k, c0) :: mL2))
            = Pfx ++ (mlk, Node.inner ((l0k, c0) :: mL2)) :: Sfx' := by
          rw [hmlk3]
          exact entIns_chain_mid lm im (h2 + 1) (Node.inner ((l0k, c0) :: mL2))
            hchain hkl hlkhd
        have hra : recordsApply (Pfx ++ (k, c) :: (k2, Node.inner rs) :: Sfx') Pfx.length
              (Pfx.length + 1) mlk (Node.inner ((l0k, c0) :: mL2)) mrk
              (Node.inner mR) true
            = Pfx ++ (mlk, Node.inner ((l0k, c0) :: mL2)) :: Sfx' := by
          show innerInsert (innerRemoveIdx
              (innerRemoveIdx (Pfx ++ (k, c) :: (k2, Node.inner rs) :: Sfx')
                (Pfx.length + 1)) Pfx.length)
              mlk (Node.inner ((l0k, c0) :: mL2))
            = Pfx ++ (mlk, Node.inner ((l0k, c0) :: mL2)) :: Sfx'
          rw [hrem1, hrem2, hins1]
        rw [hF, hra, hmlk3]
        refine ⟨?_, ?_, ?_, ?_⟩
        · exact reassemble_merged lm im (h2 + 1) hchain hkl ⟨hCH0, hlb, hub⟩ hlkhd
        · rw [assocEnts_append]
          show assocEnts Pfx ++ (assocEnts ((l0k, c0) :: mL2) ++ assocEnts Sfx')
            = assocEnts Pfx ++ assocEnts ls ++ (assocEnts rs ++ assocEnts Sfx')
          rw [hcons, assocEnts_append]
          simp [List.append_assoc]
        · simp only [List.length_append, List.length_cons]
          omega
        · simp only [List.length_append, List.length_cons]
          omega
      | false =>
        have hmlk2 : mlk = (mL.headD (0, Node.leaf [])).1 := (hspec.2.2 rfl).1
        have hmrk2 : mrk = (mR.headD (0, Node.leaf [])).1 := (hspec.2.2 rfl).2.1
        have hMLne : mL ≠ [] := (hspec.2.2 rfl).2.2.1
        have hMRne : mR ≠ [] := (hspec.2.2 rfl).2.2.2.1
        have hCHL : entsInv (NodeInv lm im h2) (some k) (some mrk) mL :=
          (hspec.2.2 rfl).2.2.2.2.1
        have hCHR : entsInv (NodeInv lm im h2) (some mrk) (entsHd hi Sfx') mR :=
          (hspec.2.2 rfl).2.2.2.2.2.1
        have hLlb : (im + 1) / 2 ≤ mL.length := (hspec.2.2 rfl).2.2.2.2.2.2.1
        have hLub : mL.length ≤ im + 1 := (hspec.2.2 rfl).2.2.2.2.2.2.2.1
        have hRlb : (im + 1) / 2 ≤ mR.length := (hspec.2.2 rfl).2.2.2.2.2.2.2.2.1
        have hRub : mR.length ≤ im + 1 := (hspec.2.2 rfl).2.2.2.2.2.2.2.2.2
        obtain ⟨⟨l0k, c0⟩, mL2, rfl⟩ : ∃ e0 t, mL = e0 :: t := by
          match mL, hMLne with
          | [], hMLne => exact absurd rfl hMLne
          | e0 :: t, _ => exact ⟨e0, t, rfl⟩
        obtain ⟨⟨r0k, d0⟩, mR2, rfl⟩ : ∃ e0 t, mR = e0 :: t := by
          match mR, hMRne with
          | [], hMRne => exact absurd rfl hMRne
          | e0 :: t, _ => exact ⟨e0, t, rfl⟩
        have hmlk3 : mlk = l0k := by rw [hmlk2]; rfl
        have hmrk3 : mrk = r0k := by rw [hmrk2]; rfl
        rw [hmrk3] at hCHL hCHR
        have hkl : k ≤ l0k :=
          entsInv_keys_ge hCHL (l0k, c0) (List.mem_cons_self _ _)
        have hlkrk : l0k < r0k :=
          entsInv_key_lt_hi hCHL (l0k, c0) (List.mem_cons_self _ _)
        have hrkhd : ltOpt r0k (entsHd hi Sfx') :=
          entsInv_key_lt_hi hCHR (r0k, d0) (List.mem_cons_self _ _)
        have hlkhd : ltOpt l0k (entsHd hi Sfx') := by
          cases hhd : entsHd hi Sfx' with
          | none => trivial
          | some b =>
            have h1 := hrkhd
            rw [hhd] at h1
            have h2 : r0k < b := h1
            show l0k < b
            omega
        have hCHL0 : entsInv (NodeInv lm im h2) (some l0k) (some r0k)
            ((l0k, c0) :: mL2) := entsInv_suffix (X := []) hCHL
        have hins1 : innerInsert (Pfx ++ Sfx') mlk (Node.inner ((l0k, c0) :: mL2))
            = Pfx ++ (mlk, Node.inner ((l0k, c0) :: mL2)) :: Sfx' := by
          rw [hmlk3]
          exact entIns_chain_mid lm im (h2 + 1) (Node.inner ((l0k, c0) :: mL2))
            hchain hkl hlkhd
        have hins2 : innerInsert (Pfx ++ (mlk, Node.inner ((l0k, c0) :: mL2)) :: Sfx')
              mrk (Node.inner ((r0k, d0) :: mR2))
            = Pfx ++ (mlk, Node.inner ((l0k, c0) :: mL2))
                :: (mrk, Node.inner ((r0k, d0) :: mR2)) :: Sfx' := by
          rw [hmlk3, hmrk3]
          exact entIns_chain_mid2 lm im (h2 + 1) (Node.inner ((l0k, c0) :: mL2))
            (Node.inner ((r0k, d0) :: mR2)) hchain hkl hlkrk hrkhd
        have hra : recordsApply (Pfx ++ (k, c) :: (k2, Node.inner rs) :: Sfx') Pfx.length
              (Pfx.length + 1) mlk (Node.inner ((l0k, c0) :: mL2)) mrk
              (Node.inner ((r0k, d0) :: mR2)) false
            = Pfx ++ (mlk, Node.inner ((l0k, c0) :: mL2))
                :: (mrk, Node.inner ((r0k, d0) :: mR2)) :: Sfx' := by
          show innerInsert (innerInsert (innerRemoveIdx (innerRemoveIdx
              (Pfx ++ (k, c) :: (k2, Node.inner rs) :: Sfx') (Pfx.length + 1))
              Pfx.length) mlk (Node.inner ((l0k, c0) :: mL2))) mrk
              (Node.inner ((r0k, d0) :: mR2))
            = Pfx ++ (mlk, Node.inner ((l0k, c0) :: mL2))
                :: (mrk, Node.inner ((r0k, d0) :: mR2)) :: Sfx'
          rw [hrem1, hrem2, hins1, hins2]
        rw [hF, hra, hmlk3, hmrk3]
        refine ⟨?_, ?_, ?_, ?_⟩
        · exact reassemble_two lm im (h2 + 1) hchain hkl hlkrk
            ⟨hCHL0, hLlb, hLub⟩ ⟨hCHR, hRlb, hRub⟩ hrkhd
        · rw [assocEnts_append]
          show assocEnts Pfx ++ (assocEnts ((l0k, c0) :: mL2)
              ++ (assocEnts ((r0k, d0) :: mR2) ++ assocEnts Sfx'))
            = assocEnts Pfx ++ assocEnts ls ++ (assocEnts rs ++ assocEnts Sfx')
          rw [← List.append_assoc (assocEnts ((l0k, c0) :: mL2))
            (assocEnts ((r0k, d0) :: mR2)) (assocEnts Sfx'),
            ← assocEnts_append, hcons, assocEnts_append]
          simp [List.append_assoc]
        · simp only [List.length_append, List.length_cons]
          omega
        · simp only [List.length_append, List.length_cons]
          omega
  | nil =>
    have hPne : Pfx ≠ [] := by
      intro hc
      rw [hc] at hlen2
      simp at hlen2
    rcases List.eq_nil_or_concat Pfx with rfl | ⟨Pfx0, a, rfl⟩
    · exact absurd rfl hPne
    obtain ⟨kl, cl⟩ := a
    simp only [List.concat_eq_append] at hchain hlen2 ⊢
    have hsh : (Pfx0 ++ [(kl, cl)]) ++ (k, c) :: ([] : List (Nat × Node))
        = Pfx0 ++ (kl, cl) :: (k, c) :: [] := by simp
    have hchainB : entsInv (NodeInv lm im h) lo hi
        (Pfx0 ++ (kl, cl) :: (k, c) :: []) := by
      rw [← hsh]
      exact hchain
    have hT : entsInv (NodeInv lm im h) (some kl) hi ((kl, cl) :: (k, c) :: []) :=
      entsInv_suffix (X := Pfx0) hchainB
    rw [entsInv_cons] at hT
    have hklk : kl < k := hT.2.1
    have hclP : NodeInv lm im h (some kl) (some k) cl := hT.2.2.1
    have hkhi : ltOpt k hi := by
      have h1 := hT.2.2.2
      rw [entsInv_cons] at h1
      exact h1.2.1
    have hlt1 : ¬ ((Pfx0 ++ [(kl, cl)]).length + 1
        < ((Pfx0 ++ [(kl, cl)]) ++ (k, c) :: ([] : List (Nat × Node))).length) := by
      simp
    have hpos : 0 < (Pfx0 ++ [(kl, cl)]).length := by simp
    have hidx : (Pfx0 ++ [(kl, cl)]).length - 1 = Pfx0.length := by simp
    have hgd0 : ((Pfx0 ++ [(kl, cl)]) ++ (k, c) :: ([] : List (Nat × Node))).getD
        ((Pfx0 ++ [(kl, cl)]).length - 1) (0, Node.leaf []) = (kl, cl) := by
      rw [hidx, hsh]
      exact getD_append_length Pfx0 (kl, cl) ((k, c) :: []) _
    have hrem1 : innerRemoveIdx ((Pfx0 ++ [(kl, cl)]) ++ (k, c) :: [])
        (Pfx0 ++ [(kl, cl)]).length = Pfx0 ++ [(kl, cl)] := by
      have h1 := innerRemoveIdx_at (Pfx0 ++ [(kl, cl)]) (k, c) []
      simpa using h1
    have hrem2 : innerRemoveIdx (Pfx0 ++ [(kl, cl)])
        ((Pfx0 ++ [(kl, cl)]).length - 1) = Pfx0 := by
      rw [hidx]
      have h1 := innerRemoveIdx_at Pfx0 (kl, cl) []
      simpa using h1
    cases h with
    | zero =>
      cases cl with
      | inner es0 => exact False.elim hclP
      | leaf ls =>
      cases c1 with
      | inner es1 => exact False.elim hc1
      | leaf rs =>
      obtain ⟨hlswf, hlsl, hlsu⟩ := hclP
      obtain ⟨hrswf0, hrsl, hrsu⟩ := hc1
      have hrswf : leafWF (some k) hi rs := hrswf0
      have hund2 : rs.length < minLeaf lm := hund
      have hspec := leafMergeOp_spec lm hlm (some kl) hi k ls rs
        hlswf hrswf hkhi
        (fun g hg => by
          have h3 : kl = g := by injection hg
          omega)
        hlsu hrsu (Or.inr ⟨hlsl, hrsl⟩) (Or.inr hund2)
      rcases hm : leafMergeOp lm ls rs with ⟨mL, mR, mlk, mrk, mfl⟩
      rw [hm] at hspec
      have hF0 : siblingFix lm im ((Pfx0 ++ [(kl, Node.leaf ls)]) ++ (k, c) :: [])
          (Pfx0 ++ [(kl, Node.leaf ls)]).length (Node.leaf rs)
          = recordsApply ((Pfx0 ++ [(kl, Node.leaf ls)]) ++ (k, c) :: [])
            ((Pfx0 ++ [(kl, Node.leaf ls)]).length - 1)
            (Pfx0 ++ [(kl, Node.leaf ls)]).length (leafMergeOp lm ls rs).2.2.1
            (Node.leaf (leafMergeOp lm ls rs).1) (leafMergeOp lm ls rs).2.2.2.1
            (Node.leaf (leafMergeOp lm ls rs).2.1) (leafMergeOp lm ls rs).2.2.2.2 := by
        unfold siblingFix
        rw [if_neg hlt1, if_pos hpos, hgd0]
      rw [hm] at hF0
      have hF : siblingFix lm im ((Pfx0 ++ [(kl, Node.leaf ls)]) ++ (k, c) :: [])
          (Pfx0 ++ [(kl, Node.leaf ls)]).length (Node.leaf rs)
          = recordsApply ((Pfx0 ++ [(kl, Node.leaf ls)]) ++ (k, c) :: [])
            ((Pfx0 ++ [(kl, Node.leaf ls)]).length - 1)
            (Pfx0 ++ [(kl, Node.leaf ls)]).length mlk (Node.leaf mL) mrk
            (Node.leaf mR) mfl := hF0
      have hcons : mL ++ mR = ls ++ rs := hspec.1
      cases mfl with
      | true =>
        have hMR : mR = [] := (hspec.2.1 rfl).1
        have hmlk2 : mlk = (mL.headD (0, 0)).1 := (hspec.2.1 rfl).2.1
        have hWF : leafWF (some kl) hi mL := (hspec.2.1 rfl).2.2.1
        have hlb : lm / 2 ≤ mL.length := (hspec.2.1 rfl).2.2.2.1
        have hub : mL.length ≤ lm := (hspec.2.1 rfl).2.2.2.2
        rw [hMR, List.append_nil] at hcons
        obtain ⟨⟨l0k, l0v⟩, mL2, rfl⟩ : ∃ e0 t, mL = e0 :: t := by
          match mL, hlb with
          | [], hlb => exact absurd hlb (by simp only [List.length_nil]; omega)
          | e0 :: t, _ => exact ⟨e0, t, rfl⟩
        have hmlk3 : mlk = l0k := by rw [hmlk2]; rfl
        have hkl : kl ≤ l0k := (hWF.2 (l0k, l0v) (List.mem_cons_self _ _)).1
        have hlkhd : ltOpt l0k hi :=
          (hWF.2 (l0k, l0v) (List.mem_cons_self _ _)).2
        have hins1 : innerInsert Pfx0 mlk (Node.leaf ((l0k, l0v) :: mL2))
            = Pfx0 ++ [(mlk, Node.leaf ((l0k, l0v) :: mL2))] := by
          rw [hmlk3]
          have h1 := entIns_chain_mid lm im 0 (Node.leaf ((l0k, l0v) :: mL2))
            hchainB hkl hlkhd
          simpa using h1
        have hra : recordsApply ((Pfx0 ++ [(kl, Node.leaf ls)]) ++ (k, c) :: [])
              ((Pfx0 ++ [(kl, Node.leaf ls)]).length - 1)
              (Pfx0 ++ [(kl, Node.leaf ls)]).length mlk
              (Node.leaf ((l0k, l0v) :: mL2)) mrk (Node.leaf mR) true
            = Pfx0 ++ [(mlk, Node.leaf ((l0k, l0v) :: mL2))] := by
          show innerInsert (innerRemoveIdx
              (innerRemoveIdx ((Pfx0 ++ [(kl, Node.leaf ls)]) ++ (k, c) :: [])
                (Pfx0 ++ [(kl, Node.leaf ls)]).length)
              ((Pfx0 ++ [(kl, Node.leaf ls)]).length - 1))
              mlk (Node.leaf ((l0k, l0v) :: mL2))
            = Pfx0 ++ [(mlk, Node.leaf ((l0k, l0v) :: mL2))]
          rw [hrem1, hrem2, hins1]
        rw [hF, hra, hmlk3]
        refine ⟨?_, ?_, ?_, ?_⟩
        · exact reassemble_merged lm im 0 hchainB hkl
            ⟨leafWF_tighten_head hWF, hlb, hub⟩ hlkhd
        · rw [assocEnts_append, assocEnts_append]
          show assocEnts Pfx0 ++ (((l0k, l0v) :: mL2) ++ [])
            = (assocEnts Pfx0 ++ (ls ++ [])) ++ rs ++ []
          rw [hcons]
          simp [List.append_assoc]
        · simp only [List.length_append, List.length_cons, List.length_nil]
          omega
        · simp only [List.length_append, List.length_cons, List.length_nil]
          omega
      | false =>
        have hmlk2 : mlk = (mL.headD (0, 0)).1 := (hspec.2.2 rfl).1
        have hmrk2 : mrk = (mR.headD (0, 0)).1 := (hspec.2.2 rfl).2.1
        have hMLne : mL ≠ [] := (hspec.2.2 rfl).2.2.1
        have hMRne : mR ≠ [] := (hspec.2.2 rfl).2.2.2.1
        have hWFL : leafWF (some kl) (some mrk) mL := (hspec.2.2 rfl).2.2.2.2.1
        have hWFR : leafWF (some mrk) hi mR := (hspec.2.2 rfl).2.2.2.2.2.1
        have hLlb : lm / 2 ≤ mL.length := (hspec.2.2 rfl).2.2.2.2.2.2.1
        have hLub : mL.length ≤ lm := (hspec.2.2 rfl).2.2.2.2.2.2.2.1
        have hRlb : lm / 2 ≤ mR.length := (hspec.2.2 rfl).2.2.2.2.2.2.2.2.1
        have hRub : mR.length ≤ lm := (hspec.2.2 rfl).2.2.2.2.2.2.2.2.2
        obtain ⟨⟨l0k, l0v⟩, mL2, rfl⟩ : ∃ e0 t, mL = e0 :: t := by
          match mL, hMLne with
          | [], hMLne => exact absurd rfl hMLne
          | e0 :: t, _ => exact ⟨e0, t, rfl⟩
        obtain ⟨⟨r0k, r0v⟩, mR2, rfl⟩ : ∃ e0 t, mR = e0 :: t := by
          match mR, hMRne with
          | [], hMRne => exact absurd rfl hMRne
          | e0 :: t, _ => exact ⟨e0, t, rfl⟩
        have hmlk3 : mlk = l0k := by rw [hmlk2]; rfl
        have hmrk3 : mrk = r0k := by rw [hmrk2]; rfl
        rw [hmrk3] at hWFL hWFR
        have hkl : kl ≤ l0k := (hWFL.2 (l0k, l0v) (List.mem_cons_self _ _)).1
        have hlkrk : l0k < r0k := (hWFL.2 (l0k, l0v) (List.mem_cons_self _ _)).2
        have hrkhd : ltOpt r0k hi :=
          (hWFR.2 (r0k, r0v) (List.mem_cons_self _ _)).2
        have hlkhd : ltOpt l0k hi := by
          cases hhd : hi with
          | none => trivial
          | some b =>
            have h1 := hrkhd
            rw [hhd] at h1
            have h2 : r0k < b := h1
            show l0k < b
            omega
        have hins1 : innerInsert Pfx0 mlk (Node.leaf ((l0k, l0v) :: mL2))
            = Pfx0 ++ [(mlk, Node.leaf ((l0k, l0v) :: mL2))] := by
          rw [hmlk3]
          have h1 := entIns_chain_mid lm im 0 (Node.leaf ((l0k, l0v) :: mL2))
            hchainB hkl hlkhd
          simpa using h1
        have hins2 : innerInsert (Pfx0 ++ [(mlk, Node.leaf ((l0k, l0v) :: mL2))])
              mrk (Node.leaf ((r0k, r0v) :: mR2))
            = Pfx0 ++ (mlk, Node.leaf ((l0k, l0v) :: mL2))
                :: (mrk, Node.leaf ((r0k, r0v) :: mR2)) :: [] := by
          rw [hmlk3, hmrk3]
          exact entIns_chain_mid2 lm im 0 (Node.leaf ((l0k, l0v) :: mL2))
            (Node.leaf ((r0k, r0v) :: mR2)) hchainB hkl hlkrk hrkhd
        have hra : recordsApply ((Pfx0 ++ [(kl, Node.leaf ls)]) ++ (k, c) :: [])
              ((Pfx0 ++ [(kl, Node.leaf ls)]).length - 1)
              (Pfx0 ++ [(kl, Node.leaf ls)]).length mlk
              (Node.leaf ((l0k, l0v) :: mL2)) mrk (Node.leaf ((r0k, r0v) :: mR2)) false
            = Pfx0 ++ (mlk, Node.leaf ((l0k, l0v) :: mL2))
                :: (mrk, Node.leaf ((r0k, r0v) :: mR2)) :: [] := by
          show innerInsert (innerInsert (innerRemoveIdx
              (innerRemoveIdx ((Pfx0 ++ [(kl, Node.leaf ls)]) ++ (k, c) :: [])
                (Pfx0 ++ [(kl, Node.leaf ls)]).length)
              ((Pfx0 ++ [(kl, Node.leaf ls)]).length - 1))
              mlk (Node.leaf ((l0k, l0v) :: mL2))) mrk
              (Node.leaf ((r0k, r0v) :: mR2))
            = Pfx0 ++ (mlk, Node.leaf ((l0k, l0v) :: mL2))
                :: (mrk, Node.leaf ((r0k, r0v) :: mR2)) :: []
          rw [hrem1, hrem2, hins1, hins2]
        rw [hF, hra, hmlk3, hmrk3]
        refine ⟨?_, ?_, ?_, ?_⟩
        · exact reassemble_two lm im 0 hchainB hkl hlkrk
            ⟨leafWF_tighten_head hWFL, hLlb, hLub⟩ ⟨hWFR, hRlb, hRub⟩ hrkhd
        · rw [assocEnts_append, assocEnts_append]
          show assocEnts Pfx0
              ++ (((l0k, l0v) :: mL2) ++ (((r0k, r0v) :: mR2) ++ []))
            = (assocEnts Pfx0 ++ (ls ++ [])) ++ rs ++ []
          simp only [List.append_nil]
          rw [hcons]
          simp [List.append_assoc]
        · simp only [List.length_append, List.length_cons, List.length_nil]
          omega
        · simp only [List.length_append, List.length_cons, List.length_nil]
          omega
    | succ h2 =>
      cases cl with
      | leaf es0 => exact False.elim hclP
      | inner ls =>
      cases c1 with
      | leaf es1 => exact False.elim hc1
      | inner rs =>
      obtain ⟨hlsch, hlsl, hlsu⟩ := hclP
      obtain ⟨hrsch0, hrsl, hrsu⟩ := hc1
      have hrsch : entsInv (NodeInv lm im h2) (some k) hi rs := hrsch0
      have hund2 : rs.length < minInner im := hund
      have hspec := innerMergeOp_spec lm im h2 him (some kl) hi k ls rs
        hlsch hrsch hkhi
        (fun g hg => by
          have h3 : kl = g := by injection hg
          omega)
        hlsu hrsu (Or.inr ⟨hlsl, hrsl⟩) (Or.inr hund2)
      rcases hm : innerMergeOp im ls rs with ⟨mL, mR, mlk, mrk, mfl⟩
      rw [hm] at hspec
      have hF0 : siblingFix lm im ((Pfx0 ++ [(kl, Node.inner ls)]) ++ (k, c) :: [])
          (Pfx0 ++ [(kl, Node.inner ls)]).length (Node.inner rs)
          = recordsApply ((Pfx0 ++ [(kl, Node.inner ls)]) ++ (k, c) :: [])
            ((Pfx0 ++ [(kl, Node.inner ls)]).length - 1)
            (Pfx0 ++ [(kl, Node.inner ls)]).length (innerMergeOp im ls rs).2.2.1
            (Node.inner (innerMergeOp im ls rs).1) (innerMergeOp im ls rs).2.2.2.1
            (Node.inner (innerMergeOp im ls rs).2.1) (innerMergeOp im ls rs).2.2.2.2 := by
        unfold siblingFix
        rw [if_neg hlt1, if_pos hpos, hgd0]
      rw [hm] at hF0
      have hF : siblingFix lm im ((Pfx0 ++ [(kl, Node.inner ls)]) ++ (k, c) :: [])
          (Pfx0 ++ [(kl, Node.inner ls)]).length (Node.inner rs)
          = recordsApply ((Pfx0 ++ [(kl, Node.inner ls)]) ++ (k, c) :: [])
            ((Pfx0 ++ [(kl, Node.inner ls)]).length - 1)
            (Pfx0 ++ [(kl, Node.inner ls)]).length mlk (Node.inner mL) mrk
            (Node.inner mR) mfl := hF0
      have hcons : mL ++ mR = ls ++ rs := hspec.1
      cases mfl with
      | true =>
        have hMR : mR = [] := (hspec.2.1 rfl).1
        have hmlk2 : mlk = (mL.headD (0, Node.leaf [])).1 := (hspec.2.1 rfl).2.1
        have hCH : entsInv (NodeInv lm im h2) (some kl) hi mL := (hspec.2.1 rfl).2.2.1
        have hlb : (im + 1) / 2 ≤ mL.length := (hspec.2.1 rfl).2.2.2.1
        have hub : mL.length ≤ im + 1 := (hspec.2.1 rfl).2.2.2.2
        rw [hMR, List.append_nil] at hcons
        obtain ⟨⟨l0k, c0⟩, mL2, rfl⟩ : ∃ e0 t, mL = e0 :: t := by
          match mL, hlb with
          | [], hlb => exact absurd hlb (by simp only [List.length_nil]; omega)
          | e0 :: t, _ => exact ⟨e0, t, rfl⟩
        have hmlk3 : mlk = l0k := by rw [hmlk2]; rfl
        have hkl : kl ≤ l0k :=
          entsInv_keys_ge hCH (l0k, c0) (List.mem_cons_self _ _)
        have hlkhd : ltOpt l0k hi :=
          entsInv_key_lt_hi hCH (l0k, c0) (List.mem_cons_self _ _)
        have hCH0 : entsInv (NodeInv lm im h2) (some l0k) hi
            ((l0k, c0) :: mL2) := entsInv_suffix (X := []) hCH
        have hins1 : innerInsert Pfx0 mlk (Node.inner ((l0k, c0) :: mL2))
            = Pfx0 ++ [(mlk, Node.inner ((l0k, c0) :: mL2))] := by
          rw [hmlk3]
          have h1 := entIns_chain_mid lm im (h2 + 1) (Node.inner ((l0k, c0) :: mL2))
            hchainB hkl hlkhd
          simpa using h1
        have hra : recordsApply ((Pfx0 ++ [(kl, Node.inner ls)]) ++ (k, c) :: [])
              ((Pfx0 ++ [(kl, Node.inner ls)]).length - 1)
              (Pfx0 ++ [(kl, Node.inner ls)]).length mlk
              (Node.inner ((l0k, c0) :: mL2)) mrk (Node.inner mR) true
            = Pfx0 ++ [(mlk, Node.inner ((l0k, c0) :: mL2))] := by
          show innerInsert (innerRemoveIdx
              (innerRemoveIdx ((Pfx0 ++ [(kl, Node.inner ls)]) ++ (k, c) :: [])
                (Pfx0 ++ [(kl, Node.inner ls)]).length)
              ((Pfx0 ++ [(kl, Node.inner ls)]).length - 1))
              mlk (Node.inner ((l0k, c0) :: mL2))
            = Pfx0 ++ [(mlk, Node.inner ((l0k, c0) :: mL2))]
          rw [hrem1, hrem2, hins1]
        rw [hF, hra, hmlk3]
        refine ⟨?_, ?_, ?_, ?_⟩
        · exact reassemble_merged lm im (h2 + 1) hchainB hkl ⟨hCH0, hlb, hub⟩ hlkhd
        · rw [assocEnts_append, assocEnts_append]
          show assocEnts Pfx0 ++ (assocEnts ((l0k, c0) :: mL2) ++ [])
            = (assocEnts Pfx0 ++ (assocEnts ls ++ [])) ++ assocEnts rs ++ []
          rw [hcons, assocEnts_append]
          simp [List.append_assoc]
        · simp only [List.length_append, List.length_cons, List.length_nil]
          omega
        · simp only [List.length_append, List.length_cons, List.length_nil]
          omega
      | false =>
        have hmlk2 : mlk = (mL.headD (0, Node.leaf [])).1 := (hspec.2.2 rfl).1
        have hmrk2 : mrk = (mR.headD (0, Node.leaf [])).1 := (hspec.2.2 rfl).2.1
        have hMLne : mL ≠ [] := (hspec.2.2 rfl).2.2.1
        have hMRne : mR ≠ [] := (hspec.2.2 rfl).2.2.2.1
        have hCHL : entsInv (NodeInv lm im h2) (some kl) (some mrk) mL :=
          (hspec.2.2 rfl).2.2.2.2.1
        have hCHR : entsInv (NodeInv lm im h2) (some mrk) hi mR :=
          (hspec.2.2 rfl).2.2.2.2.2.1
        have hLlb : (im + 1) / 2 ≤ mL.length := (hspec.2.2 rfl).2.2.2.2.2.2.1
        have hLub : mL.length ≤ im + 1 := (hspec.2.2 rfl).2.2.2.2.2.2.2.1
        have hRlb : (im + 1) / 2 ≤ mR.length := (hspec.2.2 rfl).2.2.2.2.2.2.2.2.1
        have hRub : mR.length ≤ im + 1 := (hspec.2.2 rfl).2.2.2.2.2.2.2.2.2
        obtain ⟨⟨l0k, c0⟩, mL2, rfl⟩ : ∃ e0 t, mL = e0 :: t := by
          match mL, hMLne with
          | [], hMLne => exact absurd rfl hMLne
          | e0 :: t, _ => exact ⟨e0, t, rfl⟩
        obtain ⟨⟨r0k, d0⟩, mR2, rfl⟩ : ∃ e0 t, mR = e0 :: t := by
          match mR, hMRne with
          | [], hMRne => exact absurd rfl hMRne
          | e0 :: t, _ => exact ⟨e0, t, rfl⟩
        have hmlk3 : mlk = l0k := by rw [hmlk2]; rfl
        have hmrk3 : mrk = r0k := by rw [hmrk2]; rfl
        rw [hmrk3] at hCHL hCHR
        have hkl : kl ≤ l0k :=
          entsInv_keys_ge hCHL (l0k, c0) (List.mem_cons_self _ _)
        have hlkrk : l0k < r0k :=
          entsInv_key_lt_hi hCHL (l0k, c0) (List.mem_cons_self _ _)
        have hrkhd : ltOpt r0k hi :=
          entsInv_key_lt_hi hCHR (r0k, d0) (List.mem_cons_self _ _)
        have hlkhd : ltOpt l0k hi := by
          cases hhd : hi with
          | none => trivial
          | some b =>
            have h1 := hrkhd
            rw [hhd] at h1
            have h2 : r0k < b := h1
            show l0k < b
            omega
        have hCHL0 : entsInv (NodeInv lm im h2) (some l0k) (some r0k)
            ((l0k, c0) :: mL2) := entsInv_suffix (X := []) hCHL
        have hins1 : innerInsert Pfx0 mlk (Node.inner ((l0k, c0) :: mL2))
            = Pfx0 ++ [(mlk, Node.inner ((l0k, c0) :: mL2))] := by
          rw [hmlk3]
          have h1 := entIns_chain_mid lm im (h2 + 1) (Node.inner ((l0k, c0) :: mL2))
            hchainB hkl hlkhd
          simpa using h1
        have hins2 : innerInsert (Pfx0 ++ [(mlk, Node.inner ((l0k, c0) :: mL2))])
              mrk (Node.inner ((r0k, d0) :: mR2))
            = Pfx0 ++ (mlk, Node.inner ((l0k, c0) :: mL2))
                :: (mrk, Node.inner ((r0k, d0) :: mR2)) :: [] := by
          rw [hmlk3, hmrk3]
          exact entIns_chain_mid2 lm im (h2 + 1) (Node.inner ((l0k, c0) :: mL2))
            (Node.inner ((r0k, d0) :: mR2)) hchainB hkl hlkrk hrkhd
        have hra : recordsApply ((Pfx0 ++ [(kl, Node.inner ls)]) ++ (k, c) :: [])
              ((Pfx0 ++ [(kl, Node.inner ls)]).length - 1)
              (Pfx0 ++ [(kl, Node.inner ls)]).length mlk
              (Node.inner ((l0k, c0) :: mL2)) mrk (Node.inner ((r0k, d0) :: mR2)) false
            = Pfx0 ++ (mlk, Node.inner ((l0k, c0) :: mL2))
                :: (mrk, Node.inner ((r0k, d0) :: mR2)) :: [] := by
          show innerInsert (innerInsert (innerRemoveIdx
              (innerRemoveIdx ((Pfx0 ++ [(kl, Node.inner ls)]) ++ (k, c) :: [])
                (Pfx0 ++ [(kl, Node.inner ls)]).length)
              ((Pfx0 ++ [(kl, Node.inner ls)]).length - 1))
              mlk (Node.inner ((l0k, c0) :: mL2))) mrk
              (Node.inner ((r0k, d0) :: mR2))
            = Pfx0 ++ (mlk, Node.inner ((l0k, c0) :: mL2))
                :: (mrk, Node.inner ((r0k, d0) :: mR2)) :: []
          rw [hrem1, hrem2, hins1, hins2]
        rw [hF, hra, hmlk3, hmrk3]
        refine ⟨?_, ?_, ?_, ?_⟩
        · exact reassemble_two lm im (h2 + 1) hchainB hkl hlkrk
            ⟨hCHL0, hLlb, hLub⟩ ⟨hCHR, hRlb, hRub⟩ hrkhd
        · rw [assocEnts_append, assocEnts_append]
          show assocEnts Pfx0
              ++ (assocEnts ((l0k, c0) :: mL2) ++ (assocEnts ((r0k, d0) :: mR2) ++ []))
            = (assocEnts Pfx0 ++ (assocEnts ls ++ [])) ++ assocEnts rs ++ []
          have hca : assocEnts ((l0k, c0) :: mL2) ++ assocEnts ((r0k, d0) :: mR2)
              = assocEnts ls ++ assocEnts rs := by
            rw [← assocEnts_append, hcons, assocEnts_append]
          simp only [List.append_nil]
          rw [hca]
          simp [List.append_assoc]
        · simp only [List.length_append, List.length_cons, List.length_nil]
          omega
        · simp only [List.length_append, List.length_cons, List.length_nil]
          omega


/-- One step of the remove descent when the chosen child is a leaf. -/
theorem removeEntsF_step_leaf (lm im fuel : Nat) (es : List (Nat × Node)) (key : Nat)
    (les : List (Nat × Nat))
    (hsc : (es.getD (chooseIdx (es.map Prod.fst) key) (0, Node.leaf [])).2
      = Node.leaf les) :
    removeEntsF lm im (fuel + 1) es key
      = (if minLeaf lm ≤ (leafRemove les key).1.length
         then es.set (chooseIdx (es.map Prod.fst) key)
           ((es.getD (chooseIdx (es.map Prod.fst) key) (0, Node.leaf [])).1,
            Node.leaf (leafRemove les key).1)
         else siblingFix lm im es (chooseIdx (es.map Prod.fst) key)
           (Node.leaf (leafRemove les key).1)) := by
  simp only [removeEntsF]
  rw [hsc]

/-- One step of the remove descent when the chosen child is internal. -/
theorem removeEntsF_step_inner (lm im fuel : Nat) (es : List (Nat × Node)) (key : Nat)
    (ces : List (Nat × Node))
    (hsc : (es.getD (chooseIdx (es.map Prod.fst) key) (0, Node.leaf [])).2
      = Node.inner ces) :
    removeEntsF lm im (fuel + 1) es key
      = (if minInner im ≤ (removeEntsF lm im fuel ces key).length
         then es.set (chooseIdx (es.map Prod.fst) key)
           ((es.getD (chooseIdx (es.map Prod.fst) key) (0, Node.leaf [])).1,
            Node.inner (removeEntsF lm im fuel ces key))
         else siblingFix lm im es (chooseIdx (es.map Prod.fst) key)
           (Node.inner (removeEntsF lm im fuel ces key))) := by
  simp only [removeEntsF]
  rw [hsc]

/-- Correctness of the remove descent below the root on an entry list
holding the key: the chain invariant is preserved over the same range,
the leaf view loses exactly the removed entry, and the entry count
drops by at most one. -/
theorem removeEntsF_spec (lm im : Nat) (hlm : 2 ≤ lm) (him : 3 ≤ im) :
    ∀ (fuel h : Nat) (es : List (Nat × Node)) (key : Nat) (lo hi : Option Nat),
      entsRank es ≤ fuel →
      entsInv (NodeInv lm im h) lo hi es →
      2 ≤ es.length →
      (∃ w, (key, w) ∈ assocEnts es) →
      entsInv (NodeInv lm im h) lo hi (removeEntsF lm im fuel es key) ∧
      assocEnts (removeEntsF lm im fuel es key)
        = (leafRemove (assocEnts es) key).1 ∧
      es.length - 1 ≤ (removeEntsF lm im fuel es key).length ∧
      (removeEntsF lm im fuel es key).length ≤ es.length := by
  intro fuel
  induction fuel with
  | zero =>
    intro h es key lo hi hfuel hchain hlen hmem
    match es, hfuel, hlen with
    | [], _, hlen => simp at hlen
    | (k0, c0) :: rest, hfuel, _ =>
      simp only [entsRank] at hfuel
      omega
  | succ fuel ih =>
    intro h es key lo hi hfuel hchain hlen hmem
    have hne : es ≠ [] := by
      intro hc
      rw [hc] at hlen
      simp at hlen
    obtain ⟨Pfx, k, c, Sfx, heq, hidx, htail, hhd, hnext⟩ := chooseIdx_split es key hne
    subst heq
    have hgd : (Pfx ++ (k, c) :: Sfx).getD Pfx.length (0, Node.leaf []) = (k, c) :=
      getD_append_length Pfx (k, c) Sfx _
    have hgdi : (Pfx ++ (k, c) :: Sfx).getD
        (chooseIdx ((Pfx ++ (k, c) :: Sfx).map Prod.fst) key) (0, Node.leaf [])
        = (k, c) := by
      rw [hidx]
      exact hgd
    have hT : entsInv (NodeInv lm im h) (some k) hi ((k, c) :: Sfx) :=
      entsInv_suffix (X := Pfx) hchain
    rw [entsInv_cons] at hT
    have hcP : NodeInv lm im h (some k) (entsHd hi Sfx) c := hT.2.2.1
    have hkhd : ltOpt k (entsHd hi Sfx) := hT.2.1
    have hSch : entsInv (NodeInv lm im h) (entsHd hi Sfx) hi Sfx := hT.2.2.2
    have hPfx : entsInv (NodeInv lm im h) lo (some k) Pfx :=
      entsInv_prefix (Y := (k, c) :: Sfx) hchain
    have hloK : leOpt lo k := entsInv_keys_ge hchain (k, c) (by simp)
    have hPfxlt : ∀ e ∈ assocEnts Pfx, e.1 < key := by
      intro e he
      have hb := entsInv_assoc_bounds
        (fun lo hi c hc => NodeInv_assoc_bounds lm im h lo hi c hc) hPfx e he
      have h1 : e.1 < k := hb.2
      have h2 : k ≤ key := hhd (by
        intro hc
        rw [hc] at he
        simp [assocEnts] at he)
      omega
    have hSfxgt : ∀ e ∈ assocEnts Sfx, key < e.1 := by
      intro e he
      match Sfx, he, hSch, hnext with
      | (k3, c3) :: S2, he, hSch, hnext =>
        have h1 : key < k3 := by
          have h2 := hnext (0, Node.leaf []) (by simp)
          simpa using h2
        have hb := entsInv_assoc_bounds
          (fun lo hi c hc => NodeInv_assoc_bounds lm im h lo hi c hc) hSch e he
        have h3 : leOpt (some k3) e.1 := hb.1
        have h4 : (k3 : Nat) ≤ e.1 := h3
        omega
    obtain ⟨w, hw⟩ := hmem
    have hwc : (key, w) ∈ c.assoc := by
      have h1 : assocEnts (Pfx ++ (k, c) :: Sfx)
          = assocEnts Pfx ++ (c.assoc ++ assocEnts Sfx) := by
        rw [assocEnts_append]
        rfl
      rw [h1] at hw
      rcases List.mem_append.mp hw with hw | hw
      · have h2 := hPfxlt (key, w) hw
        simp at h2
      · rcases List.mem_append.mp hw with hw | hw
        · exact hw
        · have h2 := hSfxgt (key, w) hw
          simp at h2
    have hcwf : leafWF (some k) (entsHd hi Sfx) c.assoc := NodeInv_assoc_wf lm im h hcP
    have hglob : leafRemove (assocEnts (Pfx ++ (k, c) :: Sfx)) key
        = (assocEnts Pfx ++ (leafRemove c.assoc key).1 ++ assocEnts Sfx, true) := by
      have h1 : assocEnts (Pfx ++ (k, c) :: Sfx)
          = assocEnts Pfx ++ c.assoc ++ assocEnts Sfx := by
        rw [assocEnts_append]
        show assocEnts Pfx ++ (c.assoc ++ assocEnts Sfx)
          = assocEnts Pfx ++ c.assoc ++ assocEnts Sfx
        rw [List.append_assoc]
      rw [h1]
      exact leafRemove_mid hPfxlt hcwf hwc
    cases h with
    | zero =>
      cases c with
      | inner ces => exact False.elim hcP
      | leaf les =>
      obtain ⟨hleswf, hlesl, hlesu⟩ := hcP
      have hwc2 : (key, w) ∈ les := hwc
      obtain ⟨A, B, hsplit, hremAB, hAlt, hBgt⟩ := leafRemove_sorted hleswf hwc2
      have hrem1 : (leafRemove les key).1 = A ++ B := by rw [hremAB]
      have hlensp : les.length = A.length + B.length + 1 := by
        rw [hsplit]
        simp
        omega
      have hwf2 : leafWF (some k) (entsHd hi Sfx) (A ++ B) := by
        refine leafWF_remove_mid (x := (key, w)) ?_
        rw [← hsplit]
        exact hleswf
      have hsc : ((Pfx ++ (k, Node.leaf les) :: Sfx).getD
          (chooseIdx ((Pfx ++ (k, Node.leaf les) :: Sfx).map Prod.fst) key)
          (0, Node.leaf [])).2 = Node.leaf les := by
        rw [hgdi]
      have hstep := removeEntsF_step_leaf lm im fuel
        (Pfx ++ (k, Node.leaf les) :: Sfx) key les hsc
      rw [hgdi, hidx, hrem1] at hstep
      by_cases hok : minLeaf lm ≤ (A ++ B).length
      · rw [if_pos hok] at hstep
        rw [set_append_length Pfx (k, Node.leaf les) (k, Node.leaf (A ++ B)) Sfx]
          at hstep
        rw [hstep]
        have hlen1 : lm / 2 ≤ (A ++ B).length := by
          unfold minLeaf minSize at hok
          simp only [List.length_append] at hok ⊢
          omega
        have hlen2b : (A ++ B).length ≤ lm := by
          simp only [List.length_append] at hlensp ⊢
          omega
        refine ⟨?_, ?_, ?_, ?_⟩
        · refine entsInv_glue hPfx hloK ?_
          rw [entsInv_cons]
          exact ⟨le_refl _, hkhd, ⟨hwf2, hlen1, hlen2b⟩, hSch⟩
        · rw [hglob, assocEnts_append]
          show assocEnts Pfx ++ ((A ++ B) ++ assocEnts Sfx)
            = assocEnts Pfx ++ (leafRemove les key).1 ++ assocEnts Sfx
          rw [hrem1]
          simp [List.append_assoc]
        · simp only [List.length_append, List.length_cons]
          omega
        · simp only [List.length_append, List.length_cons]
          omega
      · rw [if_neg hok] at hstep
        have hund : (Node.leaf (A ++ B)).len < minFor lm im 0 := by
          have h1 : (A ++ B).length < minLeaf lm := Nat.lt_of_not_le hok
          exact h1
        have hloose : NodeLoose lm im 0 (some k) (entsHd hi Sfx)
            (Node.leaf (A ++ B)) := by
          refine ⟨hwf2, ?_, ?_⟩
          · simp only [List.length_append] at hlensp ⊢
            omega
          · simp only [List.length_append] at hlensp ⊢
            omega
        obtain ⟨hc1, hc2, hc3, hc4⟩ := siblingFix_spec lm im 0 hlm him lo hi
          Pfx Sfx k (Node.leaf les) (Node.leaf (A ++ B)) hchain hlen hloose hund
        rw [hstep]
        refine ⟨hc1, ?_, hc3, hc4⟩
        rw [hc2, hglob]
        show assocEnts Pfx ++ (A ++ B) ++ assocEnts Sfx
          = assocEnts Pfx ++ (leafRemove les key).1 ++ assocEnts Sfx
        rw [hrem1]
    | succ h2 =>
      cases c with
      | leaf les => exact False.elim hcP
      | inner ces =>
      obtain ⟨hcch, hclb, hcub⟩ := hcP
      have hsc : ((Pfx ++ (k, Node.inner ces) :: Sfx).getD
          (chooseIdx ((Pfx ++ (k, Node.inner ces) :: Sfx).map Prod.fst) key)
          (0, Node.leaf [])).2 = Node.inner ces := by
        rw [hgdi]
      have hfuel2 : entsRank ces ≤ fuel := by
        have h1 := entsRank_of_getD_inner (Pfx ++ (k, Node.inner ces) :: Sfx)
          (chooseIdx ((Pfx ++ (k, Node.inner ces) :: Sfx).map Prod.fst) key) ces hsc
        omega
      have hlen2c : 2 ≤ ces.length := by
        omega
      have hwc2 : (key, w) ∈ assocEnts ces := hwc
      obtain ⟨hrch, hrassoc, hrlb, hrub⟩ := ih h2 ces key (some k) (entsHd hi Sfx)
        hfuel2 hcch hlen2c ⟨w, hwc2⟩
      have hstep := removeEntsF_step_inner lm im fuel
        (Pfx ++ (k, Node.inner ces) :: Sfx) key ces hsc
      rw [hgdi, hidx] at hstep
      by_cases hok : minInner im ≤ (removeEntsF lm im fuel ces key).length
      · rw [if_pos hok] at hstep
        rw [set_append_length Pfx (k, Node.inner ces)
          (k, Node.inner (removeEntsF lm im fuel ces key)) Sfx] at hstep
        rw [hstep]
        have hlen1 : (im + 1) / 2 ≤ (removeEntsF lm im fuel ces key).length := by
          unfold minInner minSize at hok
          omega
        have hlen2b : (removeEntsF lm im fuel ces key).length ≤ im + 1 := by
          omega
        refine ⟨?_, ?_, ?_, ?_⟩
        · refine entsInv_glue hPfx hloK ?_
          rw [entsInv_cons]
          exact ⟨le_refl _, hkhd, ⟨hrch, hlen1, hlen2b⟩, hSch⟩
        · rw [hglob, assocEnts_append]
          show assocEnts Pfx
              ++ (assocEnts (removeEntsF lm im fuel ces key) ++ assocEnts Sfx)
            = assocEnts Pfx ++ (leafRemove (assocEnts ces) key).1 ++ assocEnts Sfx
          rw [← hrassoc]
          simp [List.append_assoc]
        · simp only [List.length_append, List.length_cons]
          omega
        · simp only [List.length_append, List.length_cons]
          omega
      · rw [if_neg hok] at hstep
        have hund : (Node.inner (removeEntsF lm im fuel ces key)).len
            < minFor lm im (h2 + 1) := by
          have h1 : (removeEntsF lm im fuel ces key).length < minInner im :=
            Nat.lt_of_not_le hok
          exact h1
        have hloose : NodeLoose lm im (h2 + 1) (some k) (entsHd hi Sfx)
            (Node.inner (removeEntsF lm im fuel ces key)) := by
          refine ⟨hrch, ?_, ?_⟩
          · omega
          · omega
        obtain ⟨hc1, hc2, hc3, hc4⟩ := siblingFix_spec lm im (h2 + 1) hlm him lo hi
          Pfx Sfx k (Node.inner ces) (Node.inner (removeEntsF lm im fuel ces key))
          hchain hlen hloose hund
        rw [hstep]
        refine ⟨hc1, ?_, hc3, hc4⟩
        rw [hc2, hglob]
        show assocEnts Pfx ++ assocEnts (removeEntsF lm im fuel ces key)
              ++ assocEnts Sfx
          = assocEnts Pfx ++ (leafRemove (assocEnts ces) key).1 ++ assocEnts Sfx
        rw [← hrassoc]


/-- A node satisfying the full non-root invariant up to `+∞` may serve
as the root (the `Merge` loop's root collapse installs such a child). -/
theorem RootInv_of_NodeInv (lm im : Nat) (him : 3 ≤ im) (h : Nat) {lo : Option Nat}
    {t : Node} (ht : NodeInv lm im h lo none t) : RootInv lm im h t := by
  cases h with
  | zero =>
    match t, ht with
    | .leaf es, ht =>
      refine ⟨leafWF_mono ht.1 (fun x hx => trivial) (fun x hx => hx), ht.2.2⟩
  | succ h2 =>
    match t, ht with
    | .inner es, ht =>
      refine ⟨entsInv_weaken_lo ht.1 (fun x hx => trivial), ?_, ht.2.2⟩
      have h1 := ht.2.1
      omega

/-- Unfolding equation of `removeTree` on a present root. -/
theorem removeTree_some (lm im : Nat) (t : Node) (key : Nat) :
    removeTree lm im (some t) key
      = if (t.getValue key).isNone then some t
        else
          match t with
          | .leaf les =>
            if minLeaf lm ≤ (leafRemove les key).1.length
            then some (.leaf (leafRemove les key).1)
            else if (leafRemove les key).1.length = 0 then none
            else some (.leaf (leafRemove les key).1)
          | .inner es =>
            if minInner im ≤ (removeEnts lm im es key).length
            then some (.inner (removeEnts lm im es key))
            else if (removeEnts lm im es key).length = 0 then none
            else if (removeEnts lm im es key).length = 1
            then some (((removeEnts lm im es key).headD (0, .leaf [])).2)
            else some (.inner (removeEnts lm im es key)) := rfl

/-- Correctness of `BPlusTree::Remove` at the tree level: the tree
invariant is preserved and the ordered leaf view loses exactly the
first entry matching the key (nothing when the key is absent). -/
theorem removeTree_spec (lm im : Nat) (hlm : 2 ≤ lm) (him : 3 ≤ im)
    (root : Option Node) (key : Nat) (hT : TreeInv lm im root) :
    TreeInv lm im (removeTree lm im root key) ∧
    treeAssoc (removeTree lm im root key) = (leafRemove (treeAssoc root) key).1 := by
  match root, hT with
  | none, _ => exact ⟨trivial, rfl⟩
  | some t, hT =>
    obtain ⟨h, hR⟩ := hT
    by_cases hgv : (t.getValue key).isNone
    · have hstep : removeTree lm im (some t) key = some t := by
        rw [removeTree_some, if_pos hgv]
      rw [hstep]
      refine ⟨⟨h, hR⟩, ?_⟩
      have habs : ∀ e ∈ t.assoc, e.1 ≠ key := by
        intro e he hc
        obtain ⟨ek, ev⟩ := e
        have hek : ek = key := hc
        subst hek
        have h2 := mem_rootGetValue lm im h t ek ev hR he
        rw [h2] at hgv
        simp at hgv
      show t.assoc = (leafRemove t.assoc key).1
      rw [leafRemove_absent habs]
    · obtain ⟨w, hwv⟩ : ∃ w, t.getValue key = some w := by
        cases hx : t.getValue key with
        | none =>
          rw [hx] at hgv
          simp at hgv
        | some w => exact ⟨w, rfl⟩
      have hmem : (key, w) ∈ t.assoc := rootGetValue_mem lm im h t key w hR hwv
      match t, hR, hmem with
      | .leaf les, hR, hmem =>
        have h0 : h = 0 := by
          cases h with
          | zero => rfl
          | succ h2 => exact False.elim hR
        subst h0
        have hmem2 : (key, w) ∈ les := hmem
        obtain ⟨A, B, hsplit, hremAB, hAlt, hBgt⟩ := leafRemove_sorted hR.1 hmem2
        have hrem1 : (leafRemove les key).1 = A ++ B := by rw [hremAB]
        have hlensp : les.length = A.length + B.length + 1 := by
          rw [hsplit]
          simp
          omega
        have hwf2 : leafWF none none (A ++ B) := by
          refine leafWF_remove_mid (x := (key, w)) ?_
          rw [← hsplit]
          exact hR.1
        have hub2 : (A ++ B).length ≤ lm := by
          have h1 := hR.2
          simp only [List.length_append] at hlensp ⊢
          omega
        have hstep0 : removeTree lm im (some (Node.leaf les)) key
            = (if minLeaf lm ≤ (leafRemove les key).1.length
               then some (Node.leaf (leafRemove les key).1)
               else if (leafRemove les key).1.length = 0 then none
               else some (Node.leaf (leafRemove les key).1)) := by
          rw [removeTree_some, if_neg hgv]
        by_cases h1 : minLeaf lm ≤ (leafRemove les key).1.length
        · rw [hstep0, if_pos h1, hrem1]
          refine ⟨⟨0, hwf2, hub2⟩, ?_⟩
          show A ++ B = (leafRemove les key).1
          rw [hrem1]
        · rw [hstep0, if_neg h1]
          by_cases h2 : (leafRemove les key).1.length = 0
          · rw [if_pos h2]
            refine ⟨trivial, ?_⟩
            show ([] : List (Nat × Nat)) = (leafRemove les key).1
            exact (List.length_eq_zero.mp h2).symm
          · rw [if_neg h2, hrem1]
            refine ⟨⟨0, hwf2, hub2⟩, ?_⟩
            show A ++ B = (leafRemove les key).1
            rw [hrem1]
      | .inner es, hR, hmem =>
        match h, hR with
        | h2 + 1, hR =>
        have hch : entsInv (NodeInv lm im h2) none none es := hR.1
        have h2b : 2 ≤ es.length := hR.2.1
        have hub : es.length ≤ im + 1 := hR.2.2
        have hmem2 : (key, w) ∈ assocEnts es := hmem
        obtain ⟨hrch, hrassoc, hrlb, hrub⟩ := removeEntsF_spec lm im hlm him
          (entsRank es) h2 es key none none (le_refl _) hch h2b ⟨w, hmem2⟩
        have hstep0 : removeTree lm im (some (Node.inner es)) key
            = (if minInner im ≤ (removeEntsF lm im (entsRank es) es key).length
               then some (Node.inner (removeEntsF lm im (entsRank es) es key))
               else if (removeEntsF lm im (entsRank es) es key).length = 0 then none
               else if (removeEntsF lm im (entsRank es) es key).length = 1
               then some (((removeEntsF lm im (entsRank es) es key).headD
                 (0, Node.leaf [])).2)
               else some (Node.inner (removeEntsF lm im (entsRank es) es key))) := by
          rw [removeTree_some, if_neg hgv]
          rfl
        by_cases h1 : minInner im ≤ (removeEntsF lm im (entsRank es) es key).length
        · rw [hstep0, if_pos h1]
          refine ⟨⟨h2 + 1, hrch, ?_, by omega⟩, ?_⟩
          · unfold minInner minSize at h1
            omega
          · show assocEnts (removeEntsF lm im (entsRank es) es key)
              = (leafRemove (assocEnts es) key).1
            exact hrassoc
        · rw [hstep0, if_neg h1]
          by_cases h2z : (removeEntsF lm im (entsRank es) es key).length = 0
          · exact absurd h2z (by omega)
          · rw [if_neg h2z]
            by_cases h2o : (removeEntsF lm im (entsRank es) es key).length = 1
            · rw [if_pos h2o]
              obtain ⟨k0, c0, hE⟩ : ∃ k0 c0,
                  removeEntsF lm im (entsRank es) es key = [(k0, c0)] := by
                match hx : removeEntsF lm im (entsRank es) es key, h2o with
                | [(k0, c0)], _ => exact ⟨k0, c0, rfl⟩
                | [], h2o => simp at h2o
                | a :: b :: t, h2o => simp at h2o
              rw [hE] at hrch hrassoc
              rw [hE]
              have hc0 : NodeInv lm im h2 (some k0) none c0 := hrch.2.2
              refine ⟨⟨h2, RootInv_of_NodeInv lm im him h2 hc0⟩, ?_⟩
              show c0.assoc = (leafRemove (assocEnts es) key).1
              rw [← hrassoc]
              show c0.assoc = assocEnts [(k0, c0)]
              simp [assocEnts]
            · rw [if_neg h2o]
              refine ⟨⟨h2 + 1, hrch, by omega, by omega⟩, ?_⟩
              show assocEnts (removeEntsF lm im (entsRank es) es key)
                = (leafRemove (assocEnts es) key).1
              exact hrassoc


/-- The leaf view below the root is a sorted leaf list. -/
theorem RootInv_assoc_wf (lm im : Nat) (h : Nat) {t : Node}
    (hR : RootInv lm im h t) : leafWF none none t.assoc := by
  match h, t, hR with
  | 0, .leaf es, hR => exact hR.1
  | h2 + 1, .inner es, hR =>
    refine ⟨entsInv_assoc_sorted_of (fun lo hi c hc => NodeInv_assoc_sorted lm im h2 hc)
      (fun lo hi c hc => NodeInv_assoc_bounds lm im h2 lo hi c hc) hR.1, ?_⟩
    intro e he
    exact ⟨trivial, trivial⟩

/-- C8: `Remove` of an absent key is a no-op on the tree, and removing
a present key makes `GetValue` of that key `None` while `GetValue` of
every other key is unchanged (with the invariant preserved). -/
theorem C8_remove (lm im : Nat) (hlm : 2 ≤ lm) (him : 3 ≤ im)
    (root : Option Node) (hT : TreeInv lm im root) (k : Nat) :
    (getTree root k = none → removeTree lm im root k = root) ∧
    ∀ v, getTree root k = some v →
      TreeInv lm im (removeTree lm im root k) ∧
      getTree (removeTree lm im root k) k = none ∧
      ∀ k2, k2 ≠ k →
        getTree (removeTree lm im root k) k2 = getTree root k2 := by
  refine ⟨?_, ?_⟩
  · intro hz
    match root, hz with
    | none, _ => rfl
    | some t, hz =>
      have hx : t.getValue k = none := hz
      rw [removeTree_some, if_pos (by rw [hx]; rfl)]
  · intro v hv
    match root, hT, hv with
    | none, _, hv => exact absurd hv (by simp [getTree])
    | some t, hT, hv =>
      obtain ⟨h, hR⟩ := hT
      have hwv : t.getValue k = some v := hv
      have hmem : (k, v) ∈ t.assoc := rootGetValue_mem lm im h t k v hR hwv
      obtain ⟨hT2, hassoc⟩ := removeTree_spec lm im hlm him (some t) k ⟨h, hR⟩
      have hwf := RootInv_assoc_wf lm im h hR
      obtain ⟨A, B, hsplit, hremk, hAlt, hBgt⟩ := leafRemove_sorted hwf hmem
      have hassoc2 : treeAssoc (removeTree lm im (some t) k) = A ++ B := by
        rw [hassoc]
        show (leafRemove t.assoc k).1 = A ++ B
        rw [hremk]
      refine ⟨hT2, ?_, ?_⟩
      · cases hr : removeTree lm im (some t) k with
        | none => rfl
        | some t2 =>
          rw [hr] at hT2 hassoc2
          obtain ⟨h2, hR2⟩ := hT2
          have ht2a : t2.assoc = A ++ B := hassoc2
          show t2.getValue k = none
          cases hx : t2.getValue k with
          | none => rfl
          | some v2 =>
            have hmem2 := rootGetValue_mem lm im h2 t2 k v2 hR2 hx
            rw [ht2a] at hmem2
            rcases List.mem_append.mp hmem2 with hm | hm
            · have h3 := hAlt (k, v2) hm
              simp at h3
            · have h3 := hBgt (k, v2) hm
              simp at h3
      · intro k2 hk2
        cases hr : removeTree lm im (some t) k with
        | none =>
          rw [hr] at hassoc2
          have hnil : A ++ B = [] := hassoc2.symm
          show (none : Option Nat) = t.getValue k2
          cases hx : t.getValue k2 with
          | none => rfl
          | some v2 =>
            exfalso
            have hmem2 := rootGetValue_mem lm im h t k2 v2 hR hx
            rw [hsplit] at hmem2
            rcases List.mem_append.mp hmem2 with hm | hm
            · have h3 : (k2, v2) ∈ A ++ B := List.mem_append.mpr (Or.inl hm)
              rw [hnil] at h3
              cases h3
            · rcases List.mem_cons.mp hm with he | hm2
              · have h3 : k2 = k := by
                  have h4 := congrArg Prod.fst he
                  simpa using h4
                exact hk2 h3
              · have h3 : (k2, v2) ∈ A ++ B := List.mem_append.mpr (Or.inr hm2)
                rw [hnil] at h3
                cases h3
        | some t2 =>
          rw [hr] at hT2 hassoc2
          obtain ⟨h2, hR2⟩ := hT2
          have ht2a : t2.assoc = A ++ B := hassoc2
          show t2.getValue k2 = t.getValue k2
          cases hx : t.getValue k2 with
          | some v2 =>
            have hmem2 := rootGetValue_mem lm im h t k2 v2 hR hx
            rw [hsplit] at hmem2
            have hmem3 : (k2, v2) ∈ t2.assoc := by
              rw [ht2a]
              rcases List.mem_append.mp hmem2 with hm | hm
              · exact List.mem_append.mpr (Or.inl hm)
              · rcases List.mem_cons.mp hm with he | hm2
                · exfalso
                  have h3 : k2 = k := by
                    have h4 := congrArg Prod.fst he
                    simpa using h4
                  exact hk2 h3
                · exact List.mem_append.mpr (Or.inr hm2)
            exact mem_rootGetValue lm im h2 t2 k2 v2 hR2 hmem3
          | none =>
            cases hy : t2.getValue k2 with
            | none => rfl
            | some v2 =>
              exfalso
              have hmem3 := rootGetValue_mem lm im h2 t2 k2 v2 hR2 hy
              rw [ht2a] at hmem3
              have hmem4 : (k2, v2) ∈ t.assoc := by
                rw [hsplit]
                rcases List.mem_append.mp hmem3 with hm | hm
                · exact List.mem_append.mpr (Or.inl hm)
                · exact List.mem_append.mpr (Or.inr (List.mem_cons_of_mem _ hm))
              have h3 := mem_rootGetValue lm im h t k2 v2 hR hmem4
              rw [hx] at h3
              exact absurd h3 (by simp)

theorem C8_remove_witness :
    removeTree 3 3 (insertAll 3 3 [(1, 10), (2, 20)]) 5
        = insertAll 3 3 [(1, 10), (2, 20)] ∧
    getTree (removeTree 3 3 (insertAll 3 3 [(1, 10), (2, 20)]) 1) 1 = none ∧
    getTree (removeTree 3 3 (insertAll 3 3 [(1, 10), (2, 20)]) 1) 2 = some 20 := by
  have hT := (insert_run 3 3 (by omega) (by omega) [(1, 10), (2, 20)] none trivial).1
  have h5 := (C8_remove 3 3 (by omega) (by omega) (insertAll 3 3 [(1, 10), (2, 20)])
    hT 5).1 (by rfl)
  have h1 := (C8_remove 3 3 (by omega) (by omega) (insertAll 3 3 [(1, 10), (2, 20)])
    hT 1).2 10 (by rfl)
  refine ⟨h5, h1.2.1, ?_⟩
  rw [h1.2.2 2 (by omega)]
  rfl


/-- The computable size check holds below a chain whose `P` supports it. -/
theorem szOkChildren_of {lm im : Nat} {P : Option Nat → Option Nat → Node → Prop}
    (hP : ∀ (lo hi : Option Nat) (c : Node), P lo hi c → szOkNode lm im c = true) :
    ∀ {lo hi : Option Nat} {es : List (Nat × Node)},
      entsInv P lo hi es → szOkChildren lm im es = true := by
  intro lo hi es
  induction es generalizing lo with
  | nil => intro _; rfl
  | cons e0 rest ih =>
    obtain ⟨k, c⟩ := e0
    intro h
    rw [entsInv_cons] at h
    show (szOkNode lm im c && szOkChildren lm im rest) = true
    rw [hP _ _ _ h.2.2.1, ih h.2.2.2]
    rfl

/-- `NodeInv` implies the computable at-rest size check. -/
theorem szOkNode_of_NodeInv (lm im : Nat) :
    ∀ (h : Nat) {lo hi : Option Nat} {t : Node}, NodeInv lm im h lo hi t →
      szOkNode lm im t = true := by
  intro h
  induction h with
  | zero =>
    intro lo hi t ht
    match t, ht with
    | .leaf es, ht =>
      show decide (lm / 2 ≤ es.length ∧ es.length ≤ lm) = true
      exact decide_eq_true ⟨ht.2.1, ht.2.2⟩
  | succ h2 ih =>
    intro lo hi t ht
    match t, ht with
    | .inner es, ht =>
      show (decide ((im + 1) / 2 ≤ es.length ∧ es.length ≤ im + 1)
        && szOkChildren lm im es) = true
      rw [decide_eq_true ⟨ht.2.1, ht.2.2⟩,
        szOkChildren_of (fun lo hi c hc => ih hc) ht.1]
      rfl

/-- `TreeInv` implies the computable root-level size check. -/
theorem szOkRoot_of_TreeInv (lm im : Nat) (root : Option Node)
    (hT : TreeInv lm im root) : szOkRoot lm im root = true := by
  match root, hT with
  | none, _ => rfl
  | some t, hT =>
    obtain ⟨h, hR⟩ := hT
    match h, t, hR with
    | 0, .leaf es, hR =>
      show decide (es.length ≤ lm) = true
      exact decide_eq_true hR.2
    | h2 + 1, .inner es, hR =>
      show (decide (2 ≤ es.length ∧ es.length ≤ im + 1)
        && szOkChildren lm im es) = true
      rw [decide_eq_true ⟨hR.2.1, hR.2.2⟩,
        szOkChildren_of (fun lo hi c hc => szOkNode_of_NodeInv lm im h2 hc) hR.1]
      rfl

/-- Any run of inserts and removes preserves the tree invariant. -/
theorem runOps_TreeInv (lm im : Nat) (hlm : 2 ≤ lm) (him : 3 ≤ im) :
    ∀ (ops : List TreeOp) (root : Option Node), TreeInv lm im root →
      TreeInv lm im (ops.foldl (applyOp lm im) root) := by
  intro ops
  induction ops with
  | nil => intro root ht; exact ht
  | cons op ops ih =>
    intro root ht
    simp only [List.foldl_cons]
    refine ih _ ?_
    match op with
    | .ins k v => exact (insertTree_spec lm im hlm (by omega) root k v ht).1
    | .del k => exact (removeTree_spec lm im hlm him root k ht).1

/-- C2, amended: after any completed run of insert and remove
operations, every non-root node satisfies `⌊max/2⌋ ≤ size ≤ max` (leaf
max `leaf_max`, internal stored max `internal_max + 1`); an internal
root keeps at least two entries and a root leaf at most `leaf_max`. -/
theorem C2_amended (lm im : Nat) (hlm : 2 ≤ lm) (him : 3 ≤ im)
    (ops : List TreeOp) : szOkRoot lm im (runOps lm im ops) = true :=
  szOkRoot_of_TreeInv lm im (runOps lm im ops)
    (runOps_TreeInv lm im hlm him ops none trivial)

theorem C2_amended_witness :
    szOkRoot 3 3 (runOps 3 3
      [.ins 1 1, .ins 2 2, .ins 3 3, .ins 4 4, .ins 5 5, .ins 6 6, .del 6]) = true :=
  C2_amended 3 3 (by decide) (by decide)
    [.ins 1 1, .ins 2 2, .ins 3 3, .ins 4 4, .ins 5 5, .ins 6 6, .del 6]


end BusTub
